import Mathlib

set_option maxRecDepth 10000

/-!
Verification development for the canned-yaml schema compiler
(`src/canner/src/canner.cc`, plus the runtime prelude shared with
`src/src/equal.cc`).  The C++ source is shallowly embedded below:
YAML nodes become an inductive type, the emitter sinks become lists of
write events, the diagnostics channel becomes a list of notes, and the
recursive walker becomes a fuel-indexed step function so that every
definition is executable.  External collaborators (libswoc `Errata`,
`svtoi`, `getopt_long`, the yaml-cpp emitter) are modelled from the
specification where noted.
-/

namespace CannedYaml

/-- Severity of a diagnostic note.  Modelled from the spec: libswoc
`swoc::Severity` is not part of this repository; the spec orders
INFO < WARN < ERROR, and DIAG is the default severity of an empty
errata. -/
inductive Sev where
  | diag
  | info
  | warn
  | error
deriving DecidableEq, Repr

/-- Numeric rank of a severity, used for the max ordering. -/
def Sev.rank : Sev → Nat
  | .diag => 0
  | .info => 1
  | .warn => 2
  | .error => 3

/-- A single diagnostic note: severity plus message text. -/
structure ENote where
  sev : Sev
  text : List Char
deriving DecidableEq, Repr

/-- Modelled from the spec: the diagnostics channel (libswoc
`swoc::Errata`, not part of this repository) is an ordered, append-only
list of notes. -/
abbrev Errata := List ENote

/-- The larger of two severities. -/
def sevMax (a b : Sev) : Sev := if a.rank < b.rank then b else a

/-- Overall severity of an errata: the maximum severity over all
appended notes, DIAG when empty (spec section 7). -/
def Errata.severity : Errata → Sev
  | [] => .diag
  | n :: rest => sevMax n.sev (Errata.severity rest)

/-- Append one note (swoc `note(severity, text)`). -/
def Errata.push (e : Errata) (s : Sev) (t : List Char) : Errata := e ++ [⟨s, t⟩]

/-- Append an ERROR note (swoc `error(...)`). -/
def Errata.err (e : Errata) (t : List Char) : Errata := e.push .error t

/-- Append a WARN note (swoc `warn(...)`). -/
def Errata.wrn (e : Errata) (t : List Char) : Errata := e.push .warn t

/-- Append an INFO note (swoc `info(...)`). -/
def Errata.inf (e : Errata) (t : List Char) : Errata := e.push .info t

/-- Merge a child errata into this one (swoc `note(Errata)`). -/
def Errata.merge (e child : Errata) : Errata := e ++ child

/-- swoc `is_ok()`: severity strictly below ERROR. -/
def Errata.isOk (e : Errata) : Bool := e.severity.rank < Sev.error.rank

/-- `main` (canner.cc line 1092) returns
`result.severity() >= Severity::ERROR`, i.e. exit code 1 when the
returned errata holds an ERROR, else 0. -/
def exitCode (result : Errata) : Nat :=
  if Sev.error.rank ≤ result.severity.rank then 1 else 0

/-! ## YAML node model

A parsed YAML node (yaml-cpp `YAML::Node`): tag kind, children, scalar
text, and the source-mark line number.  Map keys are modelled as the
key node's scalar text, which is how the compiler reads them
(`pair.first.Scalar()`, indexing by string). -/

inductive YNode where
  | ynull (line : Nat)
  | yscalar (s : String) (line : Nat)
  | yseq (items : List YNode) (line : Nat)
  | ymap (pairs : List (String × YNode)) (line : Nat)

/-- Kind tag, mirroring yaml-cpp `Node::Type()`. -/
def YNode.kindTag : YNode → Nat
  | .ynull _ => 0
  | .yscalar _ _ => 1
  | .yseq _ _ => 2
  | .ymap _ _ => 3

/-- yaml-cpp `Node::Scalar()`: the scalar text, empty for non-scalars. -/
def YNode.scalarStr : YNode → String
  | .yscalar s _ => s
  | _ => ""

/-- yaml-cpp `Node::Mark().line`. -/
def YNode.line : YNode → Nat
  | .ynull l => l
  | .yscalar _ l => l
  | .yseq _ l => l
  | .ymap _ l => l

/-- yaml-cpp `Node::size()`: number of entries of a map or sequence. -/
def YNode.nsize : YNode → Nat
  | .yseq items _ => items.length
  | .ymap pairs _ => pairs.length
  | _ => 0

/-- `node.IsMap()`. -/
def YNode.isMapB : YNode → Bool
  | .ymap _ _ => true
  | _ => false

/-- `node.IsSequence()`. -/
def YNode.isSeqB : YNode → Bool
  | .yseq _ _ => true
  | _ => false

/-- `node.IsScalar()`. -/
def YNode.isScalarB : YNode → Bool
  | .yscalar _ _ => true
  | _ => false

/-- Key lookup in a map's pair list (yaml-cpp `node[key]` for a string
key: first matching pair). -/
def ylookup (pairs : List (String × YNode)) (k : String) : Option YNode :=
  match pairs with
  | [] => none
  | (k', v) :: rest => if k' = k then some v else ylookup rest k

/-- `node[key]` on an arbitrary node: only maps have string children. -/
def YNode.child (n : YNode) (k : String) : Option YNode :=
  match n with
  | .ymap pairs _ => ylookup pairs k
  | _ => none

/-! ## The prelude's `equal` predicate (canner.cc lines 995-1026, and
identically `src/src/equal.cc`)

The C++ places `return true` inside the element loops, so only the
first element (or first map pair) is ever compared, and an empty
sequence or map falls through the loop to the final `return false`.
The embedding preserves that control flow exactly. -/

def yequal (lhs rhs : YNode) : Bool :=
  if lhs.kindTag == rhs.kindTag then
    match lhs, rhs with
    | .yseq ls _, .yseq rs _ =>
      if ls.length == rs.length then
        match ls, rs with
        | x :: _, y :: _ => yequal x y
        | _, _ => false
      else false
    | .ymap lp _, .ymap rp _ =>
      if lp.length == rp.length then
        match lp with
        | (k, v) :: _ =>
          match ylookup rp k with
          | some rv => yequal v rv
          | none => false
        | [] => false
      else false
    | l, r => l.scalarStr == r.scalarStr
  else false

/-- Deep structural equality as the spec describes `equal` (section
4.12 / the C6 claim): same kind; sequences of equal length with every
corresponding pair recursively equal; maps of equal size with every
left key present in the right and mapped to a recursively equal value;
scalars with identical text.  Fuel-indexed so it is executable. -/
def specEqualF : Nat → YNode → YNode → Bool
  | 0, _, _ => false
  | fuel + 1, lhs, rhs =>
    match lhs, rhs with
    | .ynull _, .ynull _ => true
    | .yscalar s _, .yscalar t _ => s == t
    | .yseq ls _, .yseq rs _ =>
      ls.length == rs.length &&
        (ls.zip rs).all (fun p => specEqualF fuel p.1 p.2)
    | .ymap lp _, .ymap rp _ =>
      lp.length == rp.length &&
        lp.all (fun p =>
          match ylookup rp p.1 with
          | some rv => specEqualF fuel p.2 rv
          | none => false)
    | _, _ => false

/-! ## Text utilities -/

/-- A string literal as a character list (all emitted text is modelled
as `List Char`). -/
def str (s : String) : List Char := s.toList

/-- Decimal rendering of a natural number. -/
def natChars (n : Nat) : List Char := str (Nat.repr n)

/-- Decimal rendering of an integer. -/
def intChars (i : Int) : List Char := str (Int.repr i)

/-- Does `text` start with `pat`? -/
def lstarts : List Char → List Char → Bool
  | _, [] => true
  | [], _ :: _ => false
  | a :: as, b :: bs => a == b && lstarts as bs

/-- Number of (possibly overlapping) occurrences of `pat` in `text`. -/
def countOcc (pat : List Char) : List Char → Nat
  | [] => if lstarts [] pat then 1 else 0
  | c :: rest => (if lstarts (c :: rest) pat then 1 else 0) + countOcc pat rest

/-- Does `pat` occur somewhere in `text`? -/
def lhas (text pat : List Char) : Bool := countOcc pat text != 0

/-- The suffix of `text` after the first occurrence of `pat` (after the
match), or `[]` when there is none. -/
def afterPat (pat : List Char) : List Char → List Char
  | [] => []
  | c :: rest =>
    if lstarts (c :: rest) pat then (c :: rest).drop pat.length
    else afterPat pat rest

/-- The prefix of `text` before the first occurrence of `pat` (the
whole text when there is none). -/
def uptoPat (pat : List Char) : List Char → List Char
  | [] => []
  | c :: rest => if lstarts (c :: rest) pat then [] else c :: uptoPat pat rest

/-- Split at the first occurrence of character `c`
(swoc `TextView::split_prefix_at`): `some (before, after)` when found,
`none` otherwise. -/
def splitCh (c : Char) : List Char → Option (List Char × List Char)
  | [] => none
  | x :: rest =>
    if x == c then some ([], rest)
    else
      match splitCh c rest with
      | some (a, b) => some (x :: a, b)
      | none => none

/-- swoc `TextView::take_prefix_at('/')`: `(before, after)` when the
separator is found, otherwise the whole text is taken and the remainder
is empty. -/
def takeSlash (t : List Char) : List Char × List Char :=
  match splitCh '/' t with
  | some (a, b) => (a, b)
  | none => (t, [])

/-! ## The emitter sink (`Context::out`, canner.cc lines 308-335)

The source splits the written text on newlines in a loop; the loop
consumes at least one character per iteration, so fuel equal to the
text length suffices. -/

/-- The indentation emitted by the source loop
`for (int i = indent; i > 0; --i) s << "  "`. -/
def embIndentN : Nat → List Char
  | 0 => []
  | n + 1 => str "  " ++ embIndentN n

/-- Indentation for a possibly non-positive depth (the depth is an
`int` in the source; non-positive depths emit nothing). -/
def embIndent (ind : Int) : List Char := embIndentN ind.toNat

/-- Fuel-indexed embedding of `Context::out`: returns the emitted text
and the final start-of-line flag. -/
def outF : Nat → List Char → Bool → Int → Option (List Char × Bool)
  | 0, _, _, _ => none
  | fuel + 1, text, sol, ind =>
    match text with
    | [] => some ([], sol)
    | _ =>
      match splitCh '\n' text with
      | some (line, rest) =>
        if line.isEmpty then
          match outF fuel rest true ind with
          | some (t, s) => some ('\n' :: t, s)
          | none => none
        else
          let pre := if sol then embIndent ind else []
          match outF fuel rest true ind with
          | some (t, s) => some (pre ++ (line ++ '\n' :: t), s)
          | none => none
      | none =>
        let pre := if sol then embIndent ind else []
        some (pre ++ text, false)

/-- `Context::out` with sufficient fuel. -/
def ctxOut (text : List Char) (sol : Bool) (ind : Int) : List Char × Bool :=
  (outF (text.length + 1) text sol ind).getD ([], sol)

/-- Claim-side splitting of a write into logical lines, each tagged
with whether the original text ended the line with a newline. -/
def linesOf : List Char → List (List Char × Bool)
  | [] => []
  | c :: rest =>
    if c == '\n' then ([], true) :: linesOf rest
    else
      match linesOf rest with
      | [] => [([c], false)]
      | (l, e) :: ls => (c :: l, e) :: ls

/-- Claim-side indentation: exactly `d` copies of the two-space indent
unit. -/
def specIndentRep (d : Int) : List Char :=
  List.flatten (List.replicate d.toNat (str "  "))

/-- The C7 claim's description of `write`, stated over the logical
lines: an empty line emits one newline, sets start-of-line and no
indentation; a non-empty line starting at start-of-line is preceded by
the indentation; a line that ended with a newline emits it and sets
start-of-line; a write ending mid-line leaves start-of-line false. -/
def outSpecLines : List (List Char × Bool) → Bool → Int → List Char × Bool
  | [], sol, _ => ([], sol)
  | (line, endNl) :: ls, sol, ind =>
    if line.isEmpty then
      ('\n' :: (outSpecLines ls true ind).1, (outSpecLines ls true ind).2)
    else
      let pre := if sol then specIndentRep ind else []
      if endNl then
        (pre ++ (line ++ '\n' :: (outSpecLines ls true ind).1),
          (outSpecLines ls true ind).2)
      else
        (pre ++ line, false)

/-! ## The path resolver (`Context::locate`, canner.cc lines 816-842) -/

/-- Modelled from the spec: the textual rendering of a yaml-cpp `Mark`
inside diagnostics (the `bwformat` overload for marks is not part of
this repository); only the line number is relevant to any claim. -/
def markChars (n : YNode) : List Char := str "line " ++ natChars n.line

/-- Fuel-indexed embedding of `Context::locate`'s loop.  `path` is the
original full reference (used for the consumed-prefix diagnostics),
`node` the cursor and `location` the unconsumed remainder. -/
def locateF (root : YNode) (path : List Char) :
    Nat → YNode → List Char → Option (Errata × Option YNode)
  | 0, _, _ => none
  | fuel + 1, node, location =>
    match location with
    | [] => some ([], some node)
    | _ =>
      let (elt, rest) := takeSlash location
      if elt.isEmpty || elt == str "#" then
        locateF root path fuel root rest
      else
        match node with
        | .ymap pairs l =>
          match ylookup pairs (String.mk elt) with
          | some next => locateF root path fuel next rest
          | none =>
            some (Errata.err []
              (str "\"" ++ elt ++ str "\" is not in the map " ++
                path.take (path.length - rest.length) ++ str " at " ++
                markChars (.ymap pairs l) ++ str "."), none)
        | _ =>
          some (Errata.err []
            (str "\"" ++ path.take (path.length - rest.length) ++
              str "\" is not a map."), none)

/-- `Context::locate` entered at the document root with sufficient
fuel. -/
def locate (root : YNode) (path : List Char) : Errata × Option YNode :=
  (locateF root path (path.length + 1) root path).getD
    (Errata.err [] (str "unreachable"), none)

/-- The sequence of slash-separated segments the resolver interprets
(the iterated `take_prefix_at('/')`). -/
def pathSegsF : Nat → List Char → List (List Char)
  | 0, _ => []
  | fuel + 1, location =>
    match location with
    | [] => []
    | _ =>
      let (elt, rest) := takeSlash location
      elt :: pathSegsF fuel rest

/-- The segments of a reference path. -/
def pathSegs (path : List Char) : List (List Char) :=
  pathSegsF (path.length + 1) path

/-- Claim-side resolution outcome: the addressed node, or the failed
segment together with the number of segments consumed up to and
including it. -/
inductive SpecRes where
  | okNode (n : YNode)
  | fail (seg : List Char) (consumed : Nat)

/-- The C8 claim's per-segment rules: a `#` or empty segment resets the
cursor to the document root; on a MAP the segment selects a key; a
segment applied to a non-MAP node or naming a missing key fails. -/
def specResolve (root : YNode) : List (List Char) → YNode → Nat → SpecRes
  | [], node, _ => .okNode node
  | seg :: rest, node, k =>
    if seg.isEmpty || seg == str "#" then
      specResolve root rest root (k + 1)
    else
      match node with
      | .ymap pairs _ =>
        match ylookup pairs (String.mk seg) with
        | some next => specResolve root rest next (k + 1)
        | none => .fail seg (k + 1)
      | _ => .fail seg (k + 1)

/-- The sub-path text formed by the first `k` segments joined with the
slash separator. -/
def segJoin : List (List Char) → List Char
  | [] => []
  | [s] => s
  | s :: rest => s ++ '/' :: segJoin rest

/-! ## Schema types (canner.cc lines 65-95) -/

/-- The seven JSON-schema types (`SchemaType` without `INVALID`). -/
inductive SchemaType where
  | tNil
  | tBool
  | tObject
  | tArray
  | tNumber
  | tInteger
  | tString
deriving DecidableEq, Repr

/-- `SchemaTypeLexicon`: the in-schema name of a type. -/
def SchemaType.tyName : SchemaType → String
  | .tNil => "null"
  | .tBool => "boolean"
  | .tObject => "object"
  | .tArray => "array"
  | .tNumber => "number"
  | .tInteger => "integer"
  | .tString => "string"

/-- `SchemaTypeCheck`: the runtime predicate for a type. -/
def SchemaType.checkFn : SchemaType → String
  | .tNil => "is_null_type"
  | .tBool => "is_bool_type"
  | .tObject => "is_object_type"
  | .tArray => "is_array_type"
  | .tNumber => "is_number_type"
  | .tInteger => "is_integer_type"
  | .tString => "is_string_type"

/-- All seven types in enumeration order (the iteration order of both
`SchemaTypeLexicon` and the `std::map` `SchemaTypeCheck`). -/
def allTypes : List SchemaType :=
  [.tNil, .tBool, .tObject, .tArray, .tNumber, .tInteger, .tString]

/-- `SchemaTypeLexicon[name]` with default INVALID (`none`). -/
def typeOfName (s : String) : Option SchemaType :=
  allTypes.find? (fun t => t.tyName = s)

/-- A type set (the `std::bitset` `TypeSet`), represented as the list
of member types. -/
abbrev TySet := List SchemaType

/-- Bit test. -/
def tyMem (ts : TySet) (t : SchemaType) : Bool := ts.contains t

/-- Bit set: membership-based so the representation never duplicates. -/
def tyInsert (ts : TySet) (t : SchemaType) : TySet :=
  allTypes.filter (fun x => ts.contains x || x == t)

/-- `TypeSet::count()`: the number of set bits. -/
def tyCount (ts : TySet) : Nat :=
  (allTypes.filter (fun x => ts.contains x)).length

/-- `TypeSet::set()`: the full set (the default when `type` is
absent). -/
def tyFull : TySet := allTypes

/-- `Valid_Type_Name_List` (canner.cc lines 136-143). -/
def validTypeNameList : List Char :=
  str "\x27null\x27, \x27boolean\x27, \x27object\x27, \x27array\x27, \x27number\x27, \x27integer\x27, \x27string\x27"

/-! ## Library collaborators modelled from the spec -/

/-- Modelled from the spec: the text libswoc `BufferWriter` formatting
produces for a format specifier with no corresponding argument
(libswoc is not part of this repository; `process_array_value` passes
no argument for the `case {}` specifier and some diagnostic
specifiers).  No claim depends on this text. -/
def bwfMissingArg : List Char := str "\x7bMISSING-ARG\x7d"

/-- ASCII `isalnum`. -/
def isAlnumA (c : Char) : Bool := c.isAlpha || c.isDigit

/-- ASCII `isspace`. -/
def isWs (c : Char) : Bool :=
  c == ' ' || c == '\t' || c == '\n' || c == '\x0b' || c == '\x0c' || c == '\r'

/-- swoc `TextView::trim_if(&isspace)`. -/
def trimWs (t : List Char) : List Char :=
  ((t.dropWhile isWs).reverse.dropWhile isWs).reverse

/-- Leading decimal digits: accumulated value and count consumed. -/
def digitsM : List Char → Nat → Nat → Nat × Nat
  | [], acc, k => (acc, k)
  | c :: rest, acc, k =>
    if c.isDigit then digitsM rest (acc * 10 + (c.toNat - 48)) (k + 1)
    else (acc, k)

/-- Modelled from the spec (section 4.9): `swoc::svtoi` (libswoc, not
part of this repository) parses a signed decimal integer; the result is
the value and the number of characters consumed (the `parsed` span).
C `int` truncation of out-of-range values is not modelled. -/
def svtoiM (t : List Char) : Int × Nat :=
  match t with
  | '-' :: rest =>
    let (n, k) := digitsM rest 0 0
    if k = 0 then (0, 0) else (-(n : Int), k + 1)
  | '+' :: rest =>
    let (n, k) := digitsM rest 0 0
    if k = 0 then (0, 0) else ((n : Int), k + 1)
  | _ =>
    let (n, k) := digitsM t 0 0
    ((n : Int), k)

/-- `INT_MAX`: the default `max_items` (`std::numeric_limits<int>::max()`). -/
def intMax : Int := 2147483647

/-- Line of an optional node; yaml-cpp's undefined node (missing
lookup) carries a null mark, modelled as line 0.  Reached only when a
parsed bound exceeds every list length in play. -/
def optLine : Option YNode → Nat
  | some n => n.line
  | none => 0

/-- The generated-name derivation of `process_definitions` (canner.cc
lines 852-858): strip a leading `#/`, prepend `v_`, replace every
non-alphanumeric character by `_`. -/
def sanitize (r : String) : String :=
  let cs := r.toList
  let name := if lstarts cs (str "#/") then cs.drop 2 else cs
  String.mk (('v' :: '_' :: name).map (fun c => if isAlnumA c then c else '_'))

/-- Comma-separated join. -/
def joinComma : List (List Char) → List Char
  | [] => []
  | [x] => x
  | x :: rest => x ++ str ", " ++ joinComma rest

mutual

/-- Modelled from the spec: the yaml-cpp `Emitter` re-serialisation of
an enum value (yaml-cpp is not part of this repository).  No claim
depends on the exact text. -/
def yamlEmit : YNode → List Char
  | .ynull _ => str "~"
  | .yscalar s _ => str s
  | .yseq items _ => str "[" ++ yamlEmitL items ++ str "]"
  | .ymap pairs _ => str "\x7b" ++ yamlEmitP pairs ++ str "\x7d"

/-- Flow-style list body for `yamlEmit`. -/
def yamlEmitL : List YNode → List Char
  | [] => []
  | [n] => yamlEmit n
  | n :: rest => yamlEmit n ++ str ", " ++ yamlEmitL rest

/-- Flow-style map body for `yamlEmit`. -/
def yamlEmitP : List (String × YNode) → List Char
  | [] => []
  | [(k, v)] => str k ++ str ": " ++ yamlEmit v
  | (k, v) :: rest => str k ++ str ": " ++ yamlEmit v ++ str ", " ++ yamlEmitP rest

end

/-! ## The run context (`struct Context`, canner.cc lines 205-267)

The two sinks are lists of write events, each event carrying the indent
depth at write time together with the formatted text (one event per
`src_out` / `hdr_out` call).  The class name is fixed to the driver
default `Schema` for the claims below. -/

structure CtxSt where
  defs : List (String × String)
  src : List (Int × List Char)
  hdr : List (Int × List Char)
  srcInd : Int
  hdrInd : Int
  varIdx : Nat
  notes : Errata
deriving Repr

/-- The context at the start of a run. -/
def CtxSt.init : CtxSt := ⟨[], [], [], 0, 0, 1, []⟩

/-- `src_out`: append one write event to the implementation sink. -/
def srcO (st : CtxSt) (t : List Char) : CtxSt :=
  { st with src := st.src ++ [(st.srcInd, t)] }

/-- `hdr_out`. -/
def hdrO (st : CtxSt) (t : List Char) : CtxSt :=
  { st with hdr := st.hdr ++ [(st.hdrInd, t)] }

/-- `indent_src`. -/
def indS (st : CtxSt) : CtxSt := { st with srcInd := st.srcInd + 1 }

/-- `exdent_src`. -/
def exdS (st : CtxSt) : CtxSt := { st with srcInd := st.srcInd - 1 }

/-- `indent_hdr`. -/
def indH (st : CtxSt) : CtxSt := { st with hdrInd := st.hdrInd + 1 }

/-- `exdent_hdr`. -/
def exdH (st : CtxSt) : CtxSt := { st with hdrInd := st.hdrInd - 1 }

/-- `Context::var_name()`: allocate `node_{n}`. -/
def varName (st : CtxSt) : String × CtxSt :=
  ("node_" ++ Nat.repr st.varIdx, { st with varIdx := st.varIdx + 1 })

/-! ## Direct code generation (`emit_...`, canner.cc lines 345-422) -/

/-- The text of `emit_min_items_check`. -/
def minItemsCheckChars (var : String) (limit : Nat) : List Char :=
  str "if (" ++ str var ++ str ".size() < " ++ natChars limit ++
  str ") \x7b erratum.error(\"Array at line \x7b\x7d has only \x7b\x7d items instead of the required " ++
  natChars limit ++ str " items\", " ++ str var ++ str ".Mark().line, " ++
  str var ++ str ".size()); return false; \x7d\n"

/-- The text of `emit_max_items_check`. -/
def maxItemsCheckChars (var : String) (limit : Nat) : List Char :=
  str "if (" ++ str var ++ str ".size() > " ++ natChars limit ++
  str ") \x7b erratum.error(\"Array at line \x7b\x7d has \x7b\x7d items instead of the maximum " ++
  natChars limit ++ str " items\", " ++ str var ++ str ".Mark().line, " ++
  str var ++ str ".size()); return false; \x7d\n"

/-- The key-list loop of `emit_required_check` (the delimiter starts
empty and becomes `", "`). -/
def reqKeyLoop (items : List YNode) (first : Bool) (st : CtxSt) : CtxSt :=
  match items with
  | [] => st
  | n :: rest =>
    let d := if first then "" else ", "
    reqKeyLoop rest false
      (srcO st (str d ++ str "\"" ++ str n.scalarStr ++ str "\""))

/-- `emit_required_check` (canner.cc lines 364-383). -/
def emitRequiredCheck (node : YNode) (var : String) (st : CtxSt) : CtxSt :=
  let items := match node with | .yseq items _ => items | _ => []
  let st := srcO st (str "// check for required tags\nfor ( auto && tag : \x7b ")
  let st := reqKeyLoop items true st
  let st := srcO st (str " \x7d ) \x7b\n")
  let st := indS st
  let st := srcO st (str "if (!" ++ str var ++ str "[tag]) \x7b\n")
  let st := indS st
  let st := srcO st
    (str "erratum.error(\"Required tag \x27\x7b\x7d\x27 at line \x7b\x7d was not found.\", tag, " ++
      str var ++ str ".Mark().line);\nreturn false;\n")
  let st := exdS st
  let st := srcO st (str "\x7d\n")
  let st := exdS st
  srcO st (str "\x7d\n")

/-- The disjunction loop of `emit_type_check`. -/
def typeDisjLoop (ts : TySet) (var : String) (cands : List SchemaType)
    (first : Bool) (st : CtxSt) : CtxSt :=
  match cands with
  | [] => st
  | t :: rest =>
    if tyMem ts t then
      let d := if first then "" else " || "
      typeDisjLoop ts var rest false
        (srcO st (str d ++ str t.checkFn ++ str "(" ++ str var ++ str ")"))
    else typeDisjLoop ts var rest first st

/-- The permitted-name loop of `emit_type_check`'s error message. -/
def typeNameLoop (ts : TySet) (cands : List SchemaType) (first : Bool)
    (st : CtxSt) : CtxSt :=
  match cands with
  | [] => st
  | t :: rest =>
    if tyMem ts t then
      let d := if first then "" else ", "
      typeNameLoop ts rest false
        (srcO st (str d ++ str "\x27" ++ str t.tyName ++ str "\x27"))
    else typeNameLoop ts rest first st

/-- `emit_type_check` (canner.cc lines 386-422). -/
def emitTypeCheck (ts : TySet) (var : String) (st : CtxSt) : CtxSt :=
  let st := srcO st (str "// validate value type\n")
  let st := srcO st (str "if (! ")
  if tyCount ts == 1 then
    match allTypes.find? (fun t => tyMem ts t) with
    | some t =>
      srcO st
        (str t.checkFn ++ str "(" ++ str var ++
          str ")) \x7b erratum.error(\"\x27\x7b\x7d\x27 value at line \x7b\x7d was not " ++
          str t.tyName ++ str "\", name, " ++ str var ++
          str ".Mark().line); return false; \x7d\n")
    | none => st
  else
    let st := srcO st (str "(")
    let st := typeDisjLoop ts var allTypes true st
    let st := srcO st (str ")) \x7b\n")
    let st := indS st
    let st := srcO st
      (str "erratum.error(\"value at line \x7b\x7d was not one of the required types ")
    let st := typeNameLoop ts allTypes true st
    let st := srcO st (str "\");\nreturn false;\n")
    let st := exdS st
    srcO st (str "\x7d\n")

/-! ## `process_type_value` (canner.cc lines 425-452) -/

/-- The `check` closure: one type-name candidate.  `valueLine` is the
outer value's mark (the closure captures `value` for the invalid-name
message but uses `node` for the duplicate warning, as the source
does). -/
def procTypeCheck1 (valueLine : Nat) (n : YNode) (acc : Errata × TySet) :
    Errata × TySet :=
  let (zret, types) := acc
  let name := n.scalarStr
  match typeOfName name with
  | none =>
    (zret.err
      (str "Type value \x27" ++ str name ++ str "\x27 at line " ++
        natChars valueLine ++ str " is not a valid type. It must be one of " ++
        validTypeNameList ++ str "."), types)
  | some prim =>
    if tyMem types prim then
      (zret.wrn
        (str "Type value \x27" ++ str name ++ str "\x27 at line " ++
          natChars n.line ++ str " has already been specified."), types)
    else (zret, tyInsert types prim)

/-- `Context::process_type_value`. -/
def process_type_value (value : YNode) : Errata × TySet :=
  match value with
  | .yscalar _ _ => procTypeCheck1 value.line value ([], [])
  | .yseq items _ =>
    items.foldl (fun acc n => procTypeCheck1 value.line n acc) ([], [])
  | _ =>
    (Errata.err []
      (str "Type value at line " ++ natChars value.line ++
        str " must be a string or array of strings but is not."), [])

/-! ## `process_enum_value` (canner.cc lines 549-590)

This property handler does not recurse into the walker; it is a plain
state transformer.  It records its diagnostics in the context's global
`notes` and returns them, as the source does. -/

/-- The malformed-value message shared by `anyOf`, `oneOf` and `enum`:
the source supplies two arguments for three specifiers, so the line is
printed in the first slot, `array` in the second, and the third is
missing. -/
def brokenSeqErrChars (line : Nat) : List Char :=
  str "\x27" ++ natChars line ++ str "\x27 value at line array is invalid - it must be " ++
  bwfMissingArg ++ str " type."

/-- The serialisation loop of `process_enum_value`. -/
def enumLoadLoop (items : List YNode) (st : CtxSt) : CtxSt :=
  match items with
  | [] => st
  | n :: rest =>
    enumLoadLoop rest
      (srcO st (str "YAML::Load(R\"uthira(" ++ yamlEmit n ++ str ")uthira\"), "))

/-- `Context::process_enum_value`. -/
def process_enum_value (node : YNode) (var : String) (st : CtxSt) :
    Errata × CtxSt :=
  match node with
  | .yseq items l =>
    if items.length < 1 then
      let t := str "\x27enum\x27 value at line " ++ natChars l ++
        str " has no items - ignored."
      let st := { st with notes := st.notes.wrn t }
      (st.notes, st)
    else
      let usage := joinComma (items.map yamlEmit)
      let st := srcO st (str "bool enum_match_p = false;\nfor ( auto && vn : \x7b ")
      let st := enumLoadLoop items st
      let st := srcO st (str " \x7d ) \x7b\n")
      let st := indS st
      let st := srcO st (str "if ( equal(vn, " ++ str var ++ str ") ) \x7b\n")
      let st := indS st
      let st := srcO st (str "enum_match_p = true;\nbreak;\n")
      let st := exdS st
      let st := srcO st (str "\x7d\n")
      let st := exdS st
      let st := srcO st (str "\x7d\n")
      let st := srcO st (str "if (!enum_match_p) \x7b\n")
      let st := indS st
      let st := srcO st
        (str "YAML::Emitter yem;\nyem << " ++ str var ++
          str ";\nerratum.error(\"\x27\x7b\x7d\x27 value \x27\x7b\x7d\x27 at line \x7b\x7d is invalid - it must be one of \x7b\x7d.\", name, yem.c_str(), " ++
          str var ++ str ".Mark().line, R\"uthira(" ++ usage ++
          str ")uthira\");\nreturn false;\n")
      let st := exdS st
      let st := srcO st (str "\x7d\n")
      (st.notes, st)
  | _ =>
    let st := { st with notes := st.notes.err (brokenSeqErrChars node.line) }
    (st.notes, st)

/-! ## The walker and the definition pass as one fuel-indexed step
function

Mutual recursion (`validate_node`, the property processors, their
loops, and `process_definitions`) is folded into a single function over
a call tag, structurally recursive on fuel so every run is computable.
The `Bool` in the result is the early-`return` flag used by the loop
constructs that can return out of their enclosing function. -/

inductive VC where
  | vn (n : YNode) (var : String)
  | vnRest (n : YNode) (var : String) (ts : TySet) (zret : Errata)
  | pObj (n : YNode) (var : String) (ts : TySet)
  | pArr (n : YNode) (var : String) (ts : TySet)
  | pAny (n : YNode) (var : String)
  | pOne (n : YNode) (var : String)
  | objProps (nvar var : String) (pairs : List (String × YNode))
  | anyLoop (ss : List YNode) (anyLine : Nat) (zret : Errata)
  | oneLoop (ss : List YNode)
  | tupFlat (ss : List YNode) (nvar : String) (zret : Errata)
  | tupLoop (ss : List YNode) (idx : Nat) (nvar var : String)
      (itemsLine : Nat) (zret : Errata)
  | pdefs (n : YNode)
  | pdList (ns : List YNode) (acc : Errata)

/-- The emitted definition-function header (canner.cc line 865), with
the default class name `Schema`. -/
def mkHeader (f : String) : List Char :=
  str "bool Schema::Definitions::" ++ str f ++
  str " (swoc::Errata &erratum, YAML::Node const& node, std::string_view const& name) \x7b\n"

/-- The header-sink declaration (canner.cc line 863). -/
def mkDecl (f : String) : List Char :=
  str "bool " ++ str f ++
  str " (swoc::Errata &erratum, YAML::Node const& node, std::string_view const& name);\n"

/-- Modelled from the spec: the bwformat rendering of a `YAML::Node`
inside the info note of `process_definitions` (the overload is not part
of this repository).  No claim depends on it. -/
def nodeFmt (n : YNode) : List Char := markChars n

/-- The `case {}` arm opener of the tuple dispatch (canner.cc line
678): the source passes no argument for the specifier. -/
def caseArmChars : List Char := str "case " ++ bwfMissingArg ++ str ": \x7b\n"

/-- The early-return note of the flat tuple branch (canner.cc line
671): the source passes no arguments for its three specifiers. -/
def flatFailChars : List Char :=
  str "Failed to process item " ++ bwfMissingArg ++ str " in \x27" ++
  bwfMissingArg ++ str "\x27 at line " ++ bwfMissingArg ++ str "."

/-- One step of the embedded walker / definition pass.  `root` is the
document root (used by `locate`). -/
def step (root : YNode) : Nat → VC → CtxSt → Option (Errata × CtxSt × Bool)
  | 0, _, _ => none
  | fuel + 1, c, st =>
    match c with
    | .vn value var =>
      match value with
      | .ymap pairs vline =>
        match ylookup pairs "$ref" with
        | some n =>
          let zret : Errata :=
            if pairs.length > 1 then
              Errata.wrn []
                (str "Ignoring tags in value at line " ++ natChars vline ++
                  str " - use of \x27$ref\x27 tag at line " ++ natChars n.line ++
                  str " requires ignoring all other tags.")
            else []
          match st.defs.lookup n.scalarStr with
          | some f =>
            some (zret,
              srcO st (str "if (! defun." ++ str f ++ str "(erratum, " ++
                str var ++ str ", name)) return false;\n"), false)
          | none =>
            some (zret.err
              (str "Invalid \x27$ref\x27 at line " ++ natChars n.line ++
                str " in value at line " ++ natChars vline ++ str " - \x27" ++
                str n.scalarStr ++ str "\x27 not found."), st, false)
        | none =>
          match ylookup pairs "type" with
          | some tn =>
            let (e1, types) := process_type_value tn
            let zret := Errata.merge [] e1
            if Sev.error.rank ≤ zret.severity.rank then
              some (zret.push zret.severity
                (str "Unable to process value at line " ++ natChars tn.line ++
                  str " for \x27type\x27 at line " ++ natChars vline), st, false)
            else
              step root fuel (.vnRest value var types zret) (emitTypeCheck types var st)
          | none =>
            step root fuel (.vnRest value var tyFull []) st
      | other =>
        some (Errata.err []
          (str "Value at line " ++ natChars other.line ++
            str " must be a object."), st, false)
    | .vnRest value var types zret =>
      let afterObj :=
        fun (zret : Errata) (st : CtxSt) =>
          if tyMem types .tArray then
            match step root fuel (.pArr value var types) st with
            | none => none
            | some (e, st, _) =>
              let zret := zret.merge e
              if Sev.error.rank ≤ zret.severity.rank then
                some (zret.push zret.severity
                  (str "Unable to process value at line " ++
                    natChars value.line), st, false)
              else some (zret, st, false)
          else some (zret, st, false)
      let afterArr :=
        fun (zret : Errata) (st : CtxSt) =>
          match value.child "anyOf" with
          | some n =>
            match step root fuel (.pAny n var) st with
            | none => none
            | some (e, st, _) =>
              let zret := zret.merge e
              if Sev.error.rank ≤ zret.severity.rank then some (zret, st, false)
              else some (zret, st, false)
          | none => some (zret, st, false)
      let afterAny :=
        fun (zret : Errata) (st : CtxSt) =>
          match value.child "oneOf" with
          | some n =>
            match step root fuel (.pOne n var) st with
            | none => none
            | some (e, st, _) =>
              let zret := zret.merge e
              if Sev.error.rank ≤ zret.severity.rank then some (zret, st, false)
              else some (zret, st, false)
          | none => some (zret, st, false)
      let afterOne :=
        fun (zret : Errata) (st : CtxSt) =>
          match value.child "enum" with
          | some n =>
            let (e, st) := process_enum_value n var st
            let zret := zret.merge e
            some (zret, st, false)
          | none => some (zret, st, false)
      let chain :=
        fun (zret : Errata) (st : CtxSt) =>
          match afterObj zret st with
          | none => none
          | some (zret, st, _) =>
            match afterArr zret st with
            | none => none
            | some (zret, st, stop) =>
              if stop then some (zret, st, false)
              else
                match afterAny zret st with
                | none => none
                | some (zret, st, stop) =>
                  if stop then some (zret, st, false)
                  else afterOne zret st
      if tyMem types .tObject then
        match step root fuel (.pObj value var types) st with
        | none => none
        | some (e, st, _) =>
          let zret := zret.merge e
          if Sev.error.rank ≤ zret.severity.rank then
            some (zret.push zret.severity
              (str "Unable to process value at line " ++ natChars value.line ++
                str " as object"), st, false)
          else chain zret st
      else chain zret st
    | .pObj node var ts =>
      let singleT := tyCount ts == 1
      let hasTags :=
        (node.child "properties").isSome || (node.child "required").isSome
      let guarded := !singleT && hasTags
      let st :=
        if guarded then
          indS (srcO st (str "if (" ++ str var ++ str "(is_object_type)) \x7b\n"))
        else st
      let afterReq :=
        match node.child "required" with
        | some rq =>
          if !rq.isSeqB then
            let t := str "\x27required\x27 value at line " ++ natChars rq.line ++
              str " is not type array."
            Sum.inl { st with notes := st.notes.err t }
          else Sum.inr (emitRequiredCheck rq var st)
        | none => Sum.inr st
      match afterReq with
      | Sum.inl st => some (st.notes, st, false)
      | Sum.inr st =>
        match node.child "properties" with
        | some pn =>
          match pn with
          | .ymap ppairs _ =>
            let (nvar, st) := varName st
            match step root fuel (.objProps nvar var ppairs) st with
            | none => none
            | some (_, st, _) =>
              let st :=
                if guarded then srcO (exdS st) (str "\x7d\n") else st
              some (st.notes, st, false)
          | other =>
            let t := str "\x27properties\x27 value at line " ++
              natChars other.line ++ str " is not type object."
            let st := { st with notes := st.notes.err t }
            some (st.notes, st, false)
        | none =>
          let st := if guarded then srcO (exdS st) (str "\x7d\n") else st
          some (st.notes, st, false)
    | .objProps nvar var pairs =>
      match pairs with
      | [] => some ([], st, false)
      | (k, v) :: rest =>
        let st := srcO st (str "if (" ++ str var ++ str "[\"" ++ str k ++ str "\"]) \x7b\n")
        let st := indS st
        let st := srcO st (str "auto " ++ str nvar ++ str " = " ++ str var ++
          str "[\"" ++ str k ++ str "\"];\n")
        match step root fuel (.vn v nvar) st with
        | none => none
        | some (_, st, _) =>
          let st := exdS st
          let st := srcO st (str "\x7d\n")
          step root fuel (.objProps nvar var rest) st
    | .pArr node var ts =>
      let singleT := tyCount ts == 1
      let hasTags :=
        (node.child "items").isSome || (node.child "minItems").isSome ||
          (node.child "maxItems").isSome
      let guarded := !singleT && hasTags
      let st :=
        if guarded then
          indS (srcO st (str "if (is_array_type(" ++ str var ++ str ")) \x7b\n"))
        else st
      let minStep :
          Sum (Errata × CtxSt) (Int × CtxSt) :=
        match node.child "minItems" with
        | some n1 =>
          let value := trimWs (str n1.scalarStr)
          let (m, k) := svtoiM value
          if k ≠ value.length || m < 0 then
            Sum.inl (Errata.err []
              (str "minItems value \x27" ++ value ++ str "\x27 at line " ++
                natChars n1.line ++ str " for type array at line " ++
                natChars node.line ++
                str " is invalid - it must be a positive integer."), st)
          else Sum.inr (m, srcO st (minItemsCheckChars var m.toNat))
        | none => Sum.inr (0, st)
      match minStep with
      | Sum.inl (e, st) => some (e, st, false)
      | Sum.inr (minI, st) =>
        let maxStep :
            Sum (Errata × CtxSt) (Int × CtxSt) :=
          match node.child "maxItems" with
          | some n1 =>
            let value := trimWs (str n1.scalarStr)
            let (m, k) := svtoiM value
            if k ≠ value.length || m < 0 then
              Sum.inl (Errata.err []
                (str "maxItems value \x27" ++ value ++ str "\x27 at line " ++
                  natChars n1.line ++ str " for type array at line " ++
                  natChars node.line ++
                  str " is invalid - it must be a positive integer."), st)
            else Sum.inr (m, srcO st (maxItemsCheckChars var m.toNat))
          | none => Sum.inr (intMax, st)
        match maxStep with
        | Sum.inl (e, st) => some (e, st, false)
        | Sum.inr (maxI, st) =>
          if maxI < minI then
            some (Errata.err []
              (str "For \x27array\x27 value at line " ++ natChars node.line ++
                str ", the \x27minItems\x27 value at line " ++
                natChars (optLine (node.child "minItems")) ++
                str " is larger than the \x27maxItems\x27 value at line " ++
                natChars (optLine (node.child "maxItems")) ++ str "."), st, false)
          else
            match node.child "items" with
            | none =>
              let st := if guarded then srcO (exdS st) (str "\x7d\n") else st
              some (([] : Errata), st, false)
            | some n1 =>
              match n1 with
              | .ymap _ _ =>
                let (nvar, st) := varName st
                let st := srcO st (str "for ( auto && " ++ str nvar ++
                  str " : " ++ str var ++ str " ) \x7b\n")
                let st := indS st
                match step root fuel (.vn n1 nvar) st with
                | none => none
                | some (r, st, _) =>
                  let zret := Errata.merge [] r
                  let zret :=
                    if Sev.error.rank ≤ zret.severity.rank then
                      zret.push zret.severity
                        (str "Failed processing \x27object\x27 value for \x27type\x27 at line " ++
                          natChars node.line ++ str ".")
                    else zret
                  let st := exdS st
                  let st := srcO st (str "\x7d\n")
                  let st := if guarded then srcO (exdS st) (str "\x7d\n") else st
                  let zret :=
                    if zret.isEmpty then zret
                    else zret.push zret.severity
                      (str "Problems procssing \x27type\x27 at line " ++
                        natChars node.line)
                  some (zret, st, false)
              | .yseq items n1line =>
                let (nvar, st) := varName st
                let warnAndLimit :
                    Errata × Nat :=
                  if (items.length : Int) ≥ maxI then
                    (Errata.wrn []
                      (str "\x27array\x27 at line " ++ natChars node.line ++
                        str " has schemas for " ++ natChars items.length ++
                        str " items at line " ++ natChars n1line ++
                        str " but was specified to have at most " ++
                        intChars maxI ++ str " items by line " ++
                        natChars (optLine (node.child "maxItems")) ++
                        str ". Extra schemas ignored."), maxI.toNat)
                  else ([], items.length)
                let zret := warnAndLimit.1
                let limit := warnAndLimit.2
                if (limit : Int) ≤ minI then
                  match step root fuel (.tupFlat (items.take limit) nvar zret) st with
                  | none => none
                  | some (e, st, early) =>
                    if early then some (e, st, false)
                    else
                      let st := if guarded then srcO (exdS st) (str "\x7d\n") else st
                      let e :=
                        if e.isEmpty then e
                        else e.push e.severity
                          (str "Problems procssing \x27type\x27 at line " ++
                            natChars node.line)
                      some (e, st, false)
                else
                  let st := srcO st (str "switch (" ++ str var ++ str ".size()) \x7b\n")
                  let st := indS st
                  match step root fuel (.tupLoop items 0 nvar var n1line zret) st with
                  | none => none
                  | some (e, st, early) =>
                    if early then some (e, st, false)
                    else
                      let st := exdS st
                      let st := srcO st (str "\x7d\n")
                      let st := if guarded then srcO (exdS st) (str "\x7d\n") else st
                      let e :=
                        if e.isEmpty then e
                        else e.push e.severity
                          (str "Problems procssing \x27type\x27 at line " ++
                            natChars node.line)
                      some (e, st, false)
              | other =>
                some (Errata.err []
                  (str "Invalid value for \x27items\x27 at line " ++
                    natChars other.line ++
                    str ": must be a array or object."), st, false)
    | .tupFlat ss nvar zret =>
      match ss with
      | [] => some (zret, st, false)
      | s :: rest =>
        match step root fuel (.vn s nvar) st with
        | none => none
        | some (r, st, _) =>
          let zret := zret.merge r
          if Sev.error.rank ≤ zret.severity.rank then
            some (zret.push zret.severity flatFailChars, st, true)
          else step root fuel (.tupFlat rest nvar zret) st
    | .tupLoop ss idx nvar var itemsLine zret =>
      match ss with
      | [] => some (zret, st, false)
      | s :: rest =>
        let st := srcO st caseArmChars
        let st := indS st
        let st := srcO st (str "auto " ++ str nvar ++ str " = " ++ str var ++
          str "[" ++ natChars idx ++ str "];\n")
        match step root fuel (.vn s nvar) st with
        | none => none
        | some (r, st, _) =>
          let zret := zret.merge r
          if Sev.error.rank ≤ zret.severity.rank then
            some (zret.push zret.severity
              (str "Failed to process value " ++ natChars idx ++
                str " at line " ++ natChars itemsLine ++
                str " for \x27type\x27."), st, true)
          else
            let st := srcO st (str "\x7d\n")
            let st := exdS st
            step root fuel (.tupLoop rest (idx + 1) nvar var itemsLine zret) st
    | .pAny node var =>
      match node with
      | .yseq ss l =>
        if ss.length < 1 then
          some (Errata.wrn []
            (str "\x27anyOf\x27 value at line " ++ natChars l ++
              str " has no items - ignored."), st, false)
        else
          let (_nvar, st) := varName st
          let st := srcO st
            (str "// anyOf\nswoc::Errata any_of_err;\nstd::array<Validator, " ++
              natChars ss.length ++ str "> any_of_verify = \x7b\n")
          let st := indS st
          match step root fuel (.anyLoop ss l []) st with
          | none => none
          | some (zret, st, early) =>
            if early then some (zret, st, false)
            else
              let st := exdS st
              let st := srcO st (str "\x7d;\n")
              let st := srcO st
                (str "if (! std::any_of(any_of_verify.begin(), any_of_verify.end(), [&] (Validator const& vf) \x7b return vf(" ++
                  str var ++ str "); \x7d)) \x7b\n")
              let st := indS st
              let st := srcO st
                (str "erratum.note(any_of_err);\nerratum.error(\"Node at line \x7b\x7d was not valid for any of these schemas.\", " ++
                  str var ++ str ".Mark().line);\nreturn false;\n")
              let st := exdS st
              let st := srcO st (str "\x7d\n")
              some (zret, st, false)
      | other =>
        some (Errata.err [] (brokenSeqErrChars other.line), st, false)
    | .anyLoop ss anyLine zret =>
      match ss with
      | [] => some (zret, st, false)
      | s :: rest =>
        let st := srcO st
          (str "[&erratum = any_of_err, name, this] (YAML::Node const& node) -> bool \x7b\n")
        let st := indS st
        match step root fuel (.vn s "node") st with
        | none => none
        | some (r, st, _) =>
          if r.isEmpty then
            let st := srcO st (str "return true;\n")
            let st := exdS st
            let st := srcO st (str "\x7d,\n")
            step root fuel (.anyLoop rest anyLine zret) st
          else
            let zret := zret.merge r
            let zret := zret.push zret.severity
              (str "Processing \x27anyOf\x27 value at line \x27" ++
                natChars anyLine ++ str "\x27")
            if Sev.error.rank ≤ zret.severity.rank then some (zret, st, true)
            else
              let st := srcO st (str "return true;\n")
              let st := exdS st
              let st := srcO st (str "\x7d,\n")
              step root fuel (.anyLoop rest anyLine zret) st
    | .pOne node var =>
      match node with
      | .yseq ss l =>
        if ss.length < 1 then
          let t := str "\x27oneOf\x27 value at line " ++ natChars l ++
            str " has no items - ignored."
          let st := { st with notes := st.notes.wrn t }
          some (st.notes, st, false)
        else
          let (_nvar, st) := varName st
          let st := srcO st
            (str "// oneOf\nswoc::Errata one_of_err;\nstd::array<Validator, " ++
              natChars ss.length ++ str "> one_of_verify = \x7b\n")
          let st := indS st
          match step root fuel (.oneLoop ss) st with
          | none => none
          | some (_, st, _) =>
            let st := exdS st
            let st := srcO st (str "\x7d;\n")
            let st := srcO st
              (str "unsigned one_of_count = 0;\nfor ( auto && vf : one_of_verify ) \x7b\n")
            let st := indS st
            let st := srcO st (str "if (vf(" ++ str var ++
              str ") && ++one_of_count > 1) \x7b\n")
            let st := indS st
            let st := srcO st
              (str "erratum.error(\"Node at line \x7b\x7d was valid for more than one schema.\", " ++
                str var ++ str ".Mark().line);\nreturn false;\n")
            let st := exdS st
            let st := srcO st (str "\x7d\n")
            let st := exdS st
            let st := srcO st (str "\x7d\n")
            let st := srcO st (str "if (one_of_count != 1) \x7b\n")
            let st := indS st
            let st := srcO st
              (str "erratum.note(one_of_err);\nerratum.error(\"\x27\x7b\x7d\x27 value at line \x7b\x7d was not valid for any of these schemas.\", name," ++
                str var ++ str ".Mark().line);\nreturn false;\n")
            let st := exdS st
            let st := srcO st (str "\x7d\n")
            some (st.notes, st, false)
      | other =>
        let st := { st with notes := st.notes.err (brokenSeqErrChars other.line) }
        some (st.notes, st, false)
    | .oneLoop ss =>
      match ss with
      | [] => some ([], st, false)
      | s :: rest =>
        let st := srcO st
          (str "[&erratum = one_of_err, name, this] (YAML::Node const& node) -> bool \x7b\n")
        let st := indS st
        match step root fuel (.vn s "node") st with
        | none => none
        | some (_, st, _) =>
          let st := srcO st (str "return true;\n")
          let st := exdS st
          let st := srcO st (str "\x7d,\n")
          step root fuel (.oneLoop rest) st
    | .pdefs node =>
      match node with
      | .ymap pairs _ =>
        match ylookup pairs "$ref" with
        | some refNode =>
          let r := refNode.scalarStr
          match st.defs.lookup r with
          | some _ => some ([], st, false)
          | none =>
            let (locErr, locRes) := locate root (str r)
            match locRes with
            | some target =>
              let f := sanitize r
              let st := { st with defs := st.defs ++ [(r, f)] }
              match step root fuel (.pdefs target) st with
              | none => none
              | some (_, st, _) =>
                let st := hdrO st (mkDecl f)
                let st := srcO st (mkHeader f)
                let st := indS st
                match step root fuel (.vn target "node") st with
                | none => none
                | some (erratum, st, _) =>
                  let st := srcO st (str "return true;\n")
                  let st := exdS st
                  let st := srcO st (str "\x7d\n\n")
                  let erratum :=
                    if erratum.isOk then erratum
                    else erratum.inf
                      (str "Failed to generate definition \"" ++ str r ++
                        str "\" at " ++ nodeFmt target ++ str ", used at " ++
                        markChars refNode)
                  some (erratum, st, false)
            | none =>
              let e := (Errata.merge [] locErr).err
                (str "Unable to find ref \"" ++ str r ++ str "\" used at " ++
                  markChars refNode ++ str ".")
              some (e, st, false)
        | none => step root fuel (.pdList (pairs.map Prod.snd) []) st
      | .yseq items _ => step root fuel (.pdList items []) st
      | _ => some ([], st, false)
    | .pdList ns acc =>
      match ns with
      | [] => some (acc, st, false)
      | n :: rest =>
        match step root fuel (.pdefs n) st with
        | none => none
        | some (e, st, _) => step root fuel (.pdList rest (acc.merge e)) st

/-- `Context::validate_node`. -/
def validate_node (root : YNode) (fuel : Nat) (n : YNode) (var : String)
    (st : CtxSt) : Option (Errata × CtxSt × Bool) :=
  step root fuel (.vn n var) st

/-- `Context::process_definitions`. -/
def process_definitions (root : YNode) (fuel : Nat) (n : YNode)
    (st : CtxSt) : Option (Errata × CtxSt × Bool) :=
  step root fuel (.pdefs n) st

/-- `Context::process_object_value`. -/
def process_object_value (root : YNode) (fuel : Nat) (n : YNode)
    (var : String) (ts : TySet) (st : CtxSt) : Option (Errata × CtxSt × Bool) :=
  step root fuel (.pObj n var ts) st

/-- `Context::process_array_value`. -/
def process_array_value (root : YNode) (fuel : Nat) (n : YNode)
    (var : String) (ts : TySet) (st : CtxSt) : Option (Errata × CtxSt × Bool) :=
  step root fuel (.pArr n var ts) st

/-! ## The driver (`process`, canner.cc lines 896-1082)

The portion after the schema has been loaded, with the default class
name `Schema` and output paths.  The INFO note about the loaded file
has no bearing on severity and is omitted.  The prelude block is
written directly to the file stream (bypassing `Context::out`), so it
is spliced into the rendered text between the first write event and
the rest. -/

/-- Render a list of write events through `Context::out`, threading the
start-of-line flag. -/
def renderEvents (evs : List (Int × List Char)) (sol : Bool) : List Char × Bool :=
  match evs with
  | [] => ([], sol)
  | (ind, t) :: rest =>
    let (out1, sol') := ctxOut t sol ind
    let (out2, sol'') := renderEvents rest sol'
    (out1 ++ out2, sol'')

/-- The include block written first to the implementation (canner.cc
lines 979-983), with the default header path `Schema.h`. -/
def includesChars : List Char :=
  str "#include <functional>\n#include <array>\n#include <algorithm>\n#include <iostream>\n\n#include \"Schema.h\"\n\nusing Validator = std::function<bool (YAML::Node const&)>;\n"

/-- The hand-written runtime prelude written verbatim to the
implementation stream (canner.cc lines 992-1067). -/
def preludeChars : List Char :=
  str "\nnamespace \x7b\n\nbool\nequal(const YAML::Node &lhs, const YAML::Node &rhs)\n\x7b\n" ++
  str "  if (lhs.Type() == rhs.Type()) \x7b\n    if (lhs.IsSequence()) \x7b\n" ++
  str "      if (lhs.size() != rhs.size()) \x7b\n        return false;\n      \x7d\n" ++
  str "      for (int i = 0, n = lhs.size(); i < n; ++i) \x7b\n" ++
  str "        if (!equal(lhs[i], rhs[i])) \x7b\n          return false;\n        \x7d\n" ++
  str "        return true;\n      \x7d\n    \x7d else if (lhs.IsMap()) \x7b\n" ++
  str "      if (lhs.size() != rhs.size()) \x7b\n        return false;\n      \x7d\n" ++
  str "      for (const auto &pair : lhs) \x7b\n        auto key   = pair.first;\n" ++
  str "        auto value = pair.second;\n" ++
  str "        if (!rhs[key] || !equal(value, rhs[key])) \x7b\n          return false;\n        \x7d\n" ++
  str "        return true;\n      \x7d\n    \x7d else \x7b\n" ++
  str "      return lhs.Scalar() == rhs.Scalar();\n    \x7d\n  \x7d\n  return false;\n\x7d\n\n" ++
  str "bool is_null_type(YAML::Node const& node) \x7b\n  return node.IsNull();\n\x7d\n\n" ++
  str "bool is_bool_type(YAML::Node const& node) \x7b\n  if (node.IsScalar()) \x7b\n" ++
  str "    auto && value \x7b node.Scalar() \x7d;\n" ++
  str "    return 0 == strcasecmp(\"true\", value) || 0 == strcasecmp(\"false\", value);\n" ++
  str "  \x7d\n  return false;\n\x7d\n\n" ++
  str "bool is_array_type(YAML::Node const& node) \x7b\n  return node.IsSequence();\n\x7d\n\n" ++
  str "bool is_object_type(YAML::Node const& node) \x7b\n  return node.IsMap();\n\x7d\n\n" ++
  str "bool is_integer_type(YAML::Node const& node) \x7b\n  if (node.IsScalar()) \x7b\n" ++
  str "    swoc::TextView value \x7b node.Scalar() \x7d;\n    swoc::TextView parsed;\n" ++
  str "    if (value.trim_if(&isspace).size() < 1) \x7b\n      return false;\n    \x7d\n" ++
  str "    swoc::svtoi(value, &parsed);\n    return value.size() == parsed.size();\n" ++
  str "  \x7d\n  return false;\n\x7d\n\n" ++
  str "bool is_string_type(YAML::Node const& node) \x7b\n  return node.IsScalar();\n\x7d\n\n" ++
  str "\x7d // namespace\n\n"

/-- The emission phase of the driver for a map root: includes, header
boilerplate, the definition pass, and the call operator.  Returns the
final context (write events and diagnostics). -/
def runCompileSt (root : YNode) (fuel : Nat) : Option CtxSt :=
  match root with
  | .ymap _ _ =>
    let st := CtxSt.init
    let st := srcO st includesChars
    let st := hdrO st
      (str "#include <string_view>\n\n#include \"swoc/Errata.h\"\n#include \"yaml-cpp/yaml.h\"\n\n")
    let st := hdrO st (str "class Schema \x7b\npublic:\n")
    let st := indH st
    let st := hdrO st (str "swoc::Errata erratum;\n")
    let st := hdrO st (str "bool operator()(const YAML::Node &n);\n\n")
    match step root fuel (.pdefs root) st with
    | none => none
    | some (_, st, _) =>
      let st := exdH st
      let st := hdrO st (str "\x7d;\n")
      let st := srcO st (str "bool Schema::operator()(YAML::Node const& node) \x7b\n")
      let st := indS st
      let st := srcO st (str "static constexpr std::string_view name \x7b\"root\"\x7d;\n")
      let st := srcO st (str "erratum.clear();\n\n")
      match step root fuel (.vn root "node") st with
      | none => none
      | some (_, st, _) =>
        let st := srcO st (str "\nreturn erratum.severity() < swoc::Severity::ERROR;\n")
        let st := exdS st
        let st := srcO st (str "\x7d\n")
        some st
  | _ => none

/-- Assemble the implementation-file text from the final context: the
includes event rendered, the prelude written directly to the stream
(bypassing `Context::out`), then the remaining events rendered. -/
def assembleImpl (st : CtxSt) : List Char :=
  match st.src with
  | [] => []
  | first :: rest =>
    let (t1, sol) := ctxOut first.2 true first.1
    let (t2, _) := renderEvents rest sol
    t1 ++ preludeChars ++ t2

/-- The driver from schema load to the end of emission: the full
implementation-file text and the context's diagnostics. -/
def runCompile (root : YNode) (fuel : Nat) : Option (List Char × Errata) :=
  match root with
  | .ymap _ _ =>
    (runCompileSt root fuel).map (fun st => (assembleImpl st, st.notes))
  | _ => some ([], Errata.err [] (str "Root node must be a map"))

/-! ## Option parsing and path defaulting (`process`, canner.cc lines
896-951) -/

/-- State accumulated by the option loop. -/
structure OptSt where
  hdrPath : String
  srcPath : String
  className : String
  notes : Errata
  positionals : Nat
deriving Repr

/-- Modelled from the spec: GNU `getopt_long` (libc, not part of this
repository) for the option table `--hdr`, `--src`, `--class`, each
requiring a value, with optstring `":"`.  A separate-value option makes
`argv[optind-1]` the value; `--opt=value` makes `argv[optind-1]` the
entire token (which the source then assigns); a trailing option with no
value yields `':'` (an ERROR); any other dashed token yields `'?'` (a
WARN); other tokens are positionals.  Option abbreviation is not
modelled. -/
def parseArgs : List String → OptSt → OptSt
  | [], st => st
  | tok :: rest, st =>
    if tok = "--hdr" then
      match rest with
      | v :: rest' => parseArgs rest' { st with hdrPath := v }
      | [] => { st with notes := st.notes.err (str "\x27--hdr\x27 requires a value") }
    else if tok = "--src" then
      match rest with
      | v :: rest' => parseArgs rest' { st with srcPath := v }
      | [] => { st with notes := st.notes.err (str "\x27--src\x27 requires a value") }
    else if tok = "--class" then
      match rest with
      | v :: rest' => parseArgs rest' { st with className := v }
      | [] => { st with notes := st.notes.err (str "\x27--class\x27 requires a value") }
    else if lstarts tok.toList (str "--hdr=") then
      parseArgs rest { st with hdrPath := tok }
    else if lstarts tok.toList (str "--src=") then
      parseArgs rest { st with srcPath := tok }
    else if lstarts tok.toList (str "--class=") then
      parseArgs rest { st with className := tok }
    else if lstarts tok.toList (str "-") && tok ≠ "-" then
      parseArgs rest { st with notes := st.notes.wrn (str "Unknown option \x27?\x27 - ignored") }
    else
      parseArgs rest { st with positionals := st.positionals + 1 }

/-- Modelled from the spec: swoc `TextView::remove_suffix_at('.')`
(libswoc, not part of this repository) — drop the extension from the
last dot on; unchanged when there is no dot. -/
def stripExt (s : String) : String :=
  match splitCh '.' s.toList.reverse with
  | some (_, after) => String.mk after.reverse
  | none => s

/-- The error text of the unreachable-claimed header branch. -/
def headerPathErr : List Char :=
  str "Unable to determine path for output header file."

/-- The error text of the unreachable-claimed source branch. -/
def sourcePathErr : List Char :=
  str "Unable to determine path for output source file."

/-- The header-path defaulting block of `process` (canner.cc lines
933-941). -/
def hdrChoice (hdrPath srcPath className : String) : Option String :=
  if hdrPath = "" then
    (if srcPath ≠ "" then some (stripExt srcPath ++ ".h")
     else if className ≠ "" then some (className ++ ".h")
     else none)
  else some hdrPath

/-- The source-path defaulting block of `process` (canner.cc lines
943-951); `hdr` is the already-determined header path. -/
def srcChoice (srcPath hdr className : String) : Option String :=
  if srcPath = "" then
    (if hdr ≠ "" then some (stripExt hdr ++ ".cc")
     else if className ≠ "" then some (className ++ ".cc")
     else none)
  else some srcPath

/-- The option loop plus the path-defaulting logic of `process`
(canner.cc lines 903-951): the resulting diagnostics and, when both
paths are determined, the header/source paths. -/
def processPaths (tokens : List String) :
    Errata × Option (String × String) :=
  let st0 : OptSt := ⟨"", "", "Schema", [], 0⟩
  let st := parseArgs tokens st0
  if !st.notes.isOk then (st.notes, none)
  else if st.positionals = 0 then
    (st.notes.err (str "An input schema file is required"), none)
  else
    match hdrChoice st.hdrPath st.srcPath st.className with
    | none => (st.notes.err headerPathErr, none)
    | some hdr =>
      match srcChoice st.srcPath hdr st.className with
      | none => (st.notes.err sourcePathErr, none)
      | some src => (st.notes, some (hdr, src))

/-! ## Proof-support definitions: sizes, reference sets, fuel bounds -/

mutual

/-- Structural size of a node (for fuel bounds). -/
def ysize : YNode → Nat
  | .ynull _ => 1
  | .yscalar _ _ => 1
  | .yseq items _ => 1 + ysizeL items
  | .ymap pairs _ => 1 + ysizeP pairs

/-- Total size of a node list. -/
def ysizeL : List YNode → Nat
  | [] => 0
  | n :: rest => ysize n + ysizeL rest

/-- Total size of the values of a pair list. -/
def ysizeP : List (String × YNode) → Nat
  | [] => 0
  | (_, v) :: rest => ysize v + ysizeP rest

end

mutual

/-- Every `$ref` reference string carried by any map reachable inside a
node (including the node itself). -/
def refsIn : YNode → List String
  | .ynull _ => []
  | .yscalar _ _ => []
  | .yseq items _ => refsInL items
  | .ymap pairs _ =>
    (match ylookup pairs "$ref" with
     | some r => [r.scalarStr]
     | none => []) ++ refsInP pairs

/-- `refsIn` over a node list. -/
def refsInL : List YNode → List String
  | [] => []
  | n :: rest => refsIn n ++ refsInL rest

/-- `refsIn` over the values of a pair list. -/
def refsInP : List (String × YNode) → List String
  | [] => []
  | (_, v) :: rest => refsIn v ++ refsInP rest

end

/-- The number of distinct document references not yet bound in the
definition table: the well-founded measure of the definition pass. -/
def refsLeft (defs : List (String × String)) (root : YNode) : Nat :=
  ((refsIn root).dedup.filter (fun r => (defs.lookup r).isNone)).length

/-- Sufficient fuel for one walker call (proved below). -/
def vcNeed : VC → Nat
  | .vn n _ => 4 * ysize n + 8
  | .vnRest n _ _ _ => 4 * ysize n + 7
  | .pObj n _ _ => 4 * ysize n + 6
  | .pArr n _ _ => 4 * ysize n + 6
  | .pAny n _ => 4 * ysize n + 6
  | .pOne n _ => 4 * ysize n + 6
  | .objProps _ _ pairs => 4 * ysizeP pairs + 9
  | .anyLoop ss _ _ => 4 * ysizeL ss + 9
  | .oneLoop ss => 4 * ysizeL ss + 9
  | .tupFlat ss _ _ => 4 * ysizeL ss + 9
  | .tupLoop ss _ _ _ _ _ => 4 * ysizeL ss + 9
  | .pdefs _ => 0
  | .pdList _ _ => 0

/-- The walker-family call tags (everything except the definition
pass). -/
def VC.isVnFam : VC → Bool
  | .pdefs _ => false
  | .pdList _ _ => false
  | _ => true

/-- Fuel weight of one whole reference materialisation. -/
def pdK (root : YNode) : Nat := 16 * ysize root + 16

/-- Sufficient fuel for `process_definitions` at a node (proved
below). -/
def pdNeed (root : YNode) (defs : List (String × String)) (n : YNode) : Nat :=
  refsLeft defs root * pdK root + 16 * ysize n

/-- Sufficient fuel for the child loop of the definition pass. -/
def pdListNeed (root : YNode) (defs : List (String × String))
    (ns : List YNode) : Nat :=
  refsLeft defs root * pdK root + 16 * ysizeL ns + 8

/-- Sufficient fuel for the whole definition pass from the root with an
empty table. -/
def pdBound (root : YNode) : Nat := pdNeed root [] root

/-- The number of write events that are exactly the definition-function
header for name `f`. -/
def headerEvCount (evs : List (Int × List Char)) (f : String) : Nat :=
  (evs.filter (fun e : Int × List Char => e.2 == mkHeader f)).length

/-- A write-event text that is not a definition-function header for any
name. -/
def evOk (t : List Char) : Prop := ∀ f : String, t ≠ mkHeader f

/-- Subnode relation: `SubN a b` when `a` occurs inside `b` (including
`a = b`). -/
inductive SubN : YNode → YNode → Prop where
  | refl (n : YNode) : SubN n n
  | inMap {x v : YNode} {k : String} {pairs : List (String × YNode)} {l : Nat}
      (hm : (k, v) ∈ pairs) (h : SubN x v) : SubN x (.ymap pairs l)
  | inSeq {x v : YNode} {items : List YNode} {l : Nat}
      (hm : v ∈ items) (h : SubN x v) : SubN x (.yseq items l)

/-! ## Concrete claim documents -/

/-- The self-referential `Tree` property of scenario 5 (claim C2). -/
def treeChildDoc : YNode := .ymap [("$ref", .yscalar "#/definitions/Tree" 7)] 7

/-- The `Tree` definition body of scenario 5 (claim C2). -/
def treeDefDoc : YNode :=
  .ymap [("type", .yscalar "object" 4),
    ("properties", .ymap [("child", treeChildDoc)] 5)] 3

/-- The schema document of scenario 5 (claim C2): root `$ref` to
`#/definitions/Tree`, whose body references itself. -/
def treeDoc : YNode :=
  .ymap [("$ref", .yscalar "#/definitions/Tree" 1),
    ("definitions", .ymap [("Tree", treeDefDoc)] 2)] 2

/-- The definition body `A` of the C1 counterexample: an object whose
`next` property references `#/definitions.A`. -/
def clashADoc : YNode :=
  .ymap [("type", .yscalar "object" 3),
    ("properties",
      .ymap [("next", .ymap [("$ref", .yscalar "#/definitions.A" 5)] 5)] 4)] 3

/-- The C1 counterexample document: the references `#/definitions/A`
and `#/definitions.A` resolve to different nodes, form a cycle, and
sanitise to the same generated name `v_definitions_A`. -/
def clashDoc : YNode :=
  .ymap [("definitions", .ymap [("A", clashADoc)] 2),
    ("definitions.A", .ymap [("$ref", .yscalar "#/definitions/A" 6)] 6)] 1

/-- Definition `A` of the P3 cycle document (C1 witness). -/
def abADoc : YNode :=
  .ymap [("type", .yscalar "object" 3),
    ("properties",
      .ymap [("b", .ymap [("$ref", .yscalar "#/definitions/B" 5)] 5)] 4)] 3

/-- Definition `B` of the P3 cycle document (C1 witness). -/
def abBDoc : YNode :=
  .ymap [("type", .yscalar "object" 7),
    ("properties",
      .ymap [("a", .ymap [("$ref", .yscalar "#/definitions/A" 9)] 9)] 8)] 7

/-- The P3 document: definitions `A` and `B` referencing each other. -/
def abDoc : YNode :=
  .ymap [("definitions", .ymap [("A", abADoc), ("B", abBDoc)] 2)] 1

/-- The C3 counterexample node: `minItems: 5` (line 2) greater than
`maxItems: 2` (line 3). -/
def c3Doc : YNode :=
  .ymap [("type", .yscalar "array" 1), ("minItems", .yscalar "5" 2),
    ("maxItems", .yscalar "2" 3)] 1

/-- The C4 failing input: type `[object, string]` with a `properties`
sub-property, which makes the walker wrap the object checks in the
outer guard. -/
def c4Doc : YNode :=
  .ymap [("type", .yseq [.yscalar "object" 1, .yscalar "string" 1] 1),
    ("properties", .ymap [("a", .ymap [("type", .yscalar "string" 3)] 3)] 2)] 1

/-- One positional sub-schema of the C5 document. -/
def c5Item (n : Nat) : YNode :=
  .ymap [("type", .yscalar "string" (10 + n))] (10 + n)

/-- The C5 document: a tuple `items` with four schemas but
`maxItems: 3`, so the limit is reduced with a WARN. -/
def c5Doc : YNode :=
  .ymap [("type", .yscalar "array" 1), ("maxItems", .yscalar "3" 2),
    ("items", .yseq [c5Item 0, c5Item 1, c5Item 2, c5Item 3] 3)] 1

/-- Every value supplied to `--class` on the command line is nonempty
(the separate-value form; the `--class=` form always assigns a
nonempty token).  Consumes tokens exactly as `parseArgs` does. -/
def classOk : List String → Bool
  | [] => true
  | tok :: rest =>
    if tok = "--hdr" || tok = "--src" then
      match rest with
      | _ :: r => classOk r
      | [] => true
    else if tok = "--class" then
      match rest with
      | v :: r => v ≠ "" && classOk r
      | [] => true
    else classOk rest

/-!
# Theorems

Helper lemmas first, then one theorem per claim (with witnesses and
counterexamples as required).
-/

/-- The rank of the combined severity is the maximum of the ranks. -/
theorem sevMax_rank (a b : Sev) :
    (sevMax a b).rank = max a.rank b.rank := by
  unfold sevMax
  by_cases h : a.rank < b.rank <;> simp [h] <;> omega

/-- Severity of an appended note. -/
theorem severity_append_note (e : Errata) (n : ENote) :
    (Errata.severity (e ++ [n])).rank =
      max (Errata.severity e).rank n.sev.rank := by
  induction e with
  | nil =>
    simp only [List.nil_append, Errata.severity, sevMax_rank]
    omega
  | cons m rest ih =>
    have h1 : (m :: rest) ++ [n] = m :: (rest ++ [n]) := rfl
    rw [h1]
    show (sevMax m.sev (Errata.severity (rest ++ [n]))).rank = _
    rw [sevMax_rank, ih]
    show _ = max (sevMax m.sev (Errata.severity rest)).rank n.sev.rank
    rw [sevMax_rank]
    omega

/-- The overall severity is below ERROR exactly when every note is. -/
theorem severity_lt_error_iff (e : Errata) :
    (Errata.severity e).rank < Sev.error.rank ↔
      ∀ n ∈ e, n.sev.rank < Sev.error.rank := by
  induction e with
  | nil => simp [Errata.severity, Sev.rank]
  | cons m rest ih =>
    simp only [Errata.severity, sevMax_rank, List.mem_cons]
    constructor
    · intro h n hn
      rcases hn with rfl | hn
      · omega
      · exact ih.1 (by omega) n hn
    · intro h
      have h1 := h m (Or.inl rfl)
      have h2 := ih.2 (fun n hn => h n (Or.inr hn))
      omega

/-- C9: the process exit code (`main`, canner.cc line 1092, returning
`result.severity() >= Severity::ERROR`) is 0 iff no diagnostic of
severity ERROR or higher is in the returned errata — the overall
severity, the maximum over all appended notes, is below ERROR — and
appending any diagnostic never decreases the overall severity. -/
theorem c9_exit_code_severity :
    (∀ result : Errata,
      exitCode result = 0 ↔ ∀ n ∈ result, n.sev.rank < Sev.error.rank) ∧
    (∀ (result : Errata) (n : ENote),
      (Errata.severity result).rank ≤ (Errata.severity (result ++ [n])).rank) := by
  constructor
  · intro result
    unfold exitCode
    rw [← severity_lt_error_iff]
    by_cases h : Sev.error.rank ≤ result.severity.rank <;> simp [h] <;> omega
  · intro result n
    rw [severity_append_note]
    omega

/-- C9 witness: the exit-code criterion and monotonicity at concrete
errata, via `c9_exit_code_severity`. -/
theorem c9_exit_code_severity_witness :
    exitCode [⟨.info, str "ok"⟩] = 0 ∧
    (Errata.severity [⟨.warn, str "w"⟩]).rank ≤
      (Errata.severity ([⟨.warn, str "w"⟩] ++ [⟨.error, str "x"⟩])).rank :=
  ⟨(c9_exit_code_severity.1 _).2 (by decide),
   c9_exit_code_severity.2 [⟨.warn, str "w"⟩] ⟨.error, str "x"⟩⟩

/-- C6 (code bug): the prelude's `equal` (canner.cc lines 995-1026 and
`src/src/equal.cc`) is claimed to be a deep structural equality, but
the source's `return true` sits inside the element loops: for the
sequences `[1, 2]` and `[1, 3]` (same kind, equal length, second
elements differing) it returns true after comparing only the first
elements, and for two empty sequences it falls out of the loop to
`return false`.  The deep equality described by the spec
(`specEqualF`) gives false and true respectively. -/
theorem c6_equal_first_element_only :
    yequal (.yseq [.yscalar "1" 1, .yscalar "2" 1] 1)
        (.yseq [.yscalar "1" 2, .yscalar "3" 2] 2) = true ∧
    yequal (.yseq [] 1) (.yseq [] 2) = false ∧
    specEqualF 3 (.yseq [.yscalar "1" 1, .yscalar "2" 1] 1)
        (.yseq [.yscalar "1" 2, .yscalar "3" 2] 2) = false ∧
    specEqualF 3 (.yseq [] 1) (.yseq [] 2) = true := by decide

/-- C4 (code bug): for the failing input `c4Doc` (type
`[object, string]` plus `properties`), `process_object_value` emits the
outer guard with the arguments reversed — `if (node(is_object_type))`,
the variable applied to the predicate — instead of the claimed
`if (is_object_type(node))`; the full emitted event list is shown. -/
theorem c4_object_guard_reversed :
    (match process_object_value (.ynull 0) 50 c4Doc "node"
        [.tObject, .tString] CtxSt.init with
     | some (e, st, _) => some (e, st.src.map Prod.snd)
     | none => none) =
    some ([],
      [str "if (node(is_object_type)) \x7b\n",
       str "if (node[\"a\"]) \x7b\n",
       str "auto node_1 = node[\"a\"];\n",
       str "// validate value type\n",
       str "if (! ",
       str "is_string_type(node_1)) \x7b erratum.error(\"\x27\x7b\x7d\x27 value at line \x7b\x7d was not string\", name, node_1.Mark().line); return false; \x7d\n",
       str "\x7d\n",
       str "\x7d\n"]) := by decide

/-- C3 counterexample: for `c3Doc` (`minItems: 5` at line 2,
`maxItems: 2` at line 3), `process_array_value` does record the ERROR
naming both source lines, but both size checks have already been
emitted into the implementation sink — refuting the claim that no size
checks are emitted for this combination. -/
theorem c3_size_checks_emitted :
    (match process_array_value (.ynull 0) 50 c3Doc "node" [.tArray]
        CtxSt.init with
     | some (e, st, _) => some (e, st.src)
     | none => none) =
    some ([⟨.error,
        str "For \x27array\x27 value at line 1, the \x27minItems\x27 value at line 2 is larger than the \x27maxItems\x27 value at line 3."⟩],
      [((0 : Int), minItemsCheckChars "node" 5),
       ((0 : Int), maxItemsCheckChars "node" 2)]) := by decide

/-- C5 counterexample: for `c5Doc` (four positional `items` schemas,
`maxItems: 3`), the WARN is recorded and the limit reduced to 3, yet
the emitted dispatch still contains the binding `auto node_1 = node[3];`
for the fourth schema — refuting the claim that schemas beyond the
reduced limit are ignored (the loop runs over the full sequence, not
the reduced limit). -/
theorem c5_extra_schema_not_ignored :
    (match process_array_value (.ynull 0) 100 c5Doc "node" [.tArray]
        CtxSt.init with
     | some (e, st, _) =>
       some ((e.filter (fun n : ENote =>
                n.sev == Sev.warn && lhas n.text (str "Extra schemas ignored"))).length,
             (st.src.filter (fun ev : Int × List Char =>
                ev.2 == str "auto node_1 = node[3];\n")).length,
             (st.src.filter (fun ev : Int × List Char =>
                ev.2 == str "switch (node.size()) \x7b\n")).length,
             exitCode e)
     | none => none) = some (1, 1, 1, 0) := by decide

/-- C2 counterexample: compiling the scenario-5 `Tree` document
succeeds, but no write event of the whole driver run (and no part of
the verbatim prelude) so much as mentions the name
`v__definitions_Tree` — the implementation contains no function of
that name, refuting the claim's stated identifier. -/
theorem c2_name_has_single_underscore :
    (match runCompileSt treeDoc 100 with
     | some st =>
       some (exitCode st.notes,
             (st.src.filter (fun e : Int × List Char =>
                lhas e.2 (str "v__definitions_Tree"))).length)
     | none => none) = some (0, 0) ∧
    countOcc (str "v__definitions_Tree") preludeChars = 0 := by decide

/-- C2 amended: for the `Tree` document the compile succeeds and the
implementation contains exactly one function named
`v_definitions_Tree` — `v_` plus the reference with its leading `#/`
stripped and non-alphanumerics replaced by `_` — whose body (the
events between its header and its closing brace) contains a call to
itself by that name.  The name never occurs in the verbatim prelude. -/
theorem c2_tree_single_self_calling_function :
    (match runCompileSt treeDoc 100 with
     | some st =>
       some (exitCode st.notes,
             headerEvCount st.src "v_definitions_Tree",
             ((((st.src.map Prod.snd).dropWhile
                  (fun t => !(t == mkHeader "v_definitions_Tree"))).drop 1).takeWhile
                (fun t => !(t == str "\x7d\n\n"))).filter
               (fun t =>
                 t == str "if (! defun.v_definitions_Tree(erratum, node_1, name)) return false;\n")
             |>.length)
     | none => none) = some (0, 1, 1) ∧
    countOcc (str "v_definitions_Tree") preludeChars = 0 := by decide

/-- C3 amended: for every array schema node carrying both `minItems`
and `maxItems` whose parsed `minItems` is strictly greater than the
parsed `maxItems`, `process_array_value` records exactly one ERROR
whose message names both source lines (`lm` and `lM`), and the state it
returns extends the sink by the optional type guard followed by BOTH
size checks — the checks are emitted before the inconsistency is
detected, and nothing further is emitted. -/
theorem c3_amended_cross_error
    (root : YNode) (fuel : Nat) (var : String) (ts : TySet) (st : CtxSt)
    (pairs : List (String × YNode)) (l lm lM : Nat) (sm sM : String) (m M : Int)
    (hmin : ylookup pairs "minItems" = some (.yscalar sm lm))
    (hmax : ylookup pairs "maxItems" = some (.yscalar sM lM))
    (hpm1 : (svtoiM (trimWs (str sm))).1 = m)
    (hpm2 : (svtoiM (trimWs (str sm))).2 = (trimWs (str sm)).length)
    (hpM1 : (svtoiM (trimWs (str sM))).1 = M)
    (hpM2 : (svtoiM (trimWs (str sM))).2 = (trimWs (str sM)).length)
    (hm0 : 0 ≤ m) (hM0 : 0 ≤ M) (hlt : M < m) :
    process_array_value root (fuel + 1) (.ymap pairs l) var ts st =
      some ([⟨.error,
          str "For \x27array\x27 value at line " ++ natChars l ++
          str ", the \x27minItems\x27 value at line " ++ natChars lm ++
          str " is larger than the \x27maxItems\x27 value at line " ++ natChars lM ++
          str "."⟩],
        srcO (srcO
            (if (tyCount ts == 1) = true then st
             else indS (srcO st (str "if (is_array_type(" ++ str var ++ str ")) \x7b\n")))
            (minItemsCheckChars var m.toNat))
          (maxItemsCheckChars var M.toNat),
        false) := by
  have hm' : decide (m < 0) = false := decide_eq_false (by omega)
  have hM' : decide (M < 0) = false := decide_eq_false (by omega)
  unfold process_array_value step
  simp only [YNode.child, hmin, hmax, YNode.scalarStr, YNode.line,
    hpm1, hpm2, hpM1, hpM2, hm', hM', ne_eq, decide_not, Option.isSome_some,
    Bool.or_true, Bool.and_true, Bool.or_false, Bool.not_not, decide_True,
    Bool.not_true, Bool.false_or, Bool.or_self]
  cases htc : (tyCount ts == 1) with
  | true =>
    simp only [htc, Bool.not_true, Bool.false_and, if_neg (by simp : ¬ (false = true)),
      if_pos rfl, Errata.err, Errata.push]
    rw [if_pos hlt]
    simp [optLine, YNode.line]
  | false =>
    simp only [htc, Bool.not_false, Bool.true_and, if_pos rfl,
      if_neg (by simp : ¬ (false = true)), Errata.err, Errata.push]
    rw [if_pos hlt]
    simp [optLine, YNode.line]

/-- C3 amended, witnessed at the concrete node `c3Doc`
(`minItems: 5` line 2, `maxItems: 2` line 3) via
`c3_amended_cross_error`. -/
theorem c3_amended_cross_error_witness :
    ylookup [("type", .yscalar "array" 1), ("minItems", .yscalar "5" 2),
        ("maxItems", .yscalar "2" 3)] "minItems" = some (.yscalar "5" 2) ∧
    (2 : Int) < 5 ∧
    process_array_value (.ynull 0) 1
        (.ymap [("type", .yscalar "array" 1), ("minItems", .yscalar "5" 2),
          ("maxItems", .yscalar "2" 3)] 1) "node" [.tArray] CtxSt.init =
      some ([⟨.error,
          str "For \x27array\x27 value at line " ++ natChars 1 ++
          str ", the \x27minItems\x27 value at line " ++ natChars 2 ++
          str " is larger than the \x27maxItems\x27 value at line " ++ natChars 3 ++
          str "."⟩],
        srcO (srcO
            (if (tyCount [SchemaType.tArray] == 1) = true then CtxSt.init
             else indS (srcO CtxSt.init
               (str "if (is_array_type(" ++ str "node" ++ str ")) \x7b\n")))
            (minItemsCheckChars "node" (5 : Int).toNat))
          (maxItemsCheckChars "node" (2 : Int).toNat),
        false) :=
  ⟨rfl, by decide,
    c3_amended_cross_error (.ynull 0) 0 "node" [.tArray] CtxSt.init
      [("type", .yscalar "array" 1), ("minItems", .yscalar "5" 2),
        ("maxItems", .yscalar "2" 3)] 1 2 3 "5" "2" 5 2
      rfl rfl (by decide) (by decide) (by decide) (by decide)
      (by decide) (by decide) (by decide)⟩

/-- C10 counterexample: the accepted command line
`--class "" schema.yaml` empties the class name, so the claimed
unreachable branch "Unable to determine path for output header file."
is reached. -/
theorem c10_empty_class_reaches_error :
    processPaths ["--class", "", "schema.yaml"] =
      ([⟨.error, headerPathErr⟩], none) := by decide

/-- Helper: with a nonempty class name the header path is always
determined. -/
theorem hdrChoice_isSome (h s c : String) (hc : c ≠ "") :
    ∃ v, hdrChoice h s c = some v := by
  unfold hdrChoice
  by_cases hh : h = ""
  · by_cases hs : s = ""
    · simp [hh, hs, hc]
    · simp [hh, hs]
  · simp [hh]

/-- Helper: with a nonempty class name the source path is always
determined. -/
theorem srcChoice_isSome (s hdr c : String) (hc : c ≠ "") :
    ∃ v, srcChoice s hdr c = some v := by
  unfold srcChoice
  by_cases hs : s = ""
  · by_cases hh : hdr = ""
    · simp [hs, hh, hc]
    · simp [hs, hh]
  · simp [hs]

/-- Helper invariant for option parsing: starting from a state whose
class name is nonempty and whose notes contain no path-determination
error, if every value supplied to the class option is nonempty then
parsing preserves both facts. -/
theorem parseArgs_inv (tokens : List String) (st : OptSt)
    (hc : classOk tokens = true) (hcn : st.className ≠ "")
    (hnf : (st.notes.filter (fun n : ENote =>
      n.text == headerPathErr || n.text == sourcePathErr)).length = 0) :
    (parseArgs tokens st).className ≠ "" ∧
    ((parseArgs tokens st).notes.filter (fun n : ENote =>
      n.text == headerPathErr || n.text == sourcePathErr)).length = 0 := by
  induction tokens, st using parseArgs.induct with
  | case1 st =>
    exact ⟨hcn, hnf⟩
  | case2 st v rest' ih =>
    simp only [parseArgs]
    simp only [classOk] at hc
    exact ih (by simpa using hc) hcn hnf
  | case3 st =>
    refine ⟨by simp [parseArgs, hcn], ?_⟩
    simp only [parseArgs, if_pos trivial, Errata.err, Errata.push]
    rw [List.filter_append]
    simp [hnf]
    exact ⟨by decide, by decide⟩
  | case4 st v rest' h1 ih =>
    simp only [parseArgs, if_neg h1]
    simp only [classOk] at hc
    exact ih (by simpa using hc) hcn hnf
  | case5 st h1 =>
    refine ⟨by simp [parseArgs, hcn], ?_⟩
    simp only [parseArgs, if_neg h1, if_pos trivial, Errata.err, Errata.push]
    rw [List.filter_append]
    simp [hnf]
    exact ⟨by decide, by decide⟩
  | case6 st v rest' h1 h2 ih =>
    simp only [parseArgs, if_neg h1, if_neg h2]
    simp [classOk] at hc
    exact ih hc.2 hc.1 hnf
  | case7 st h1 h2 =>
    refine ⟨by simp [parseArgs, hcn], ?_⟩
    simp only [parseArgs, if_neg h1, if_neg h2, if_pos trivial, Errata.err, Errata.push]
    rw [List.filter_append]
    simp [hnf]
    exact ⟨by decide, by decide⟩
  | case8 tok rest st h1 h2 h3 h4 ih =>
    rw [parseArgs.eq_def]
    simp only [if_neg h1, if_neg h2, if_neg h3, if_pos h4]
    rw [classOk.eq_def] at hc
    simp only [h1, h2, h3, if_neg (by tauto : ¬ (tok = "--hdr" ∨ tok = "--src")), if_neg h3] at hc
    exact ih hc hcn hnf
  | case9 tok rest st h1 h2 h3 h4 h5 ih =>
    rw [parseArgs.eq_def]
    simp only [if_neg h1, if_neg h2, if_neg h3, if_neg h4, if_pos h5]
    rw [classOk.eq_def] at hc
    simp only [h1, h2, h3, if_neg (by tauto : ¬ (tok = "--hdr" ∨ tok = "--src")), if_neg h3] at hc
    exact ih hc hcn hnf
  | case10 tok rest st h1 h2 h3 h4 h5 h6 ih =>
    rw [parseArgs.eq_def]
    simp only [if_neg h1, if_neg h2, if_neg h3, if_neg h4, if_neg h5, if_pos h6]
    rw [classOk.eq_def] at hc
    simp only [h1, h2, h3, if_neg (by tauto : ¬ (tok = "--hdr" ∨ tok = "--src")), if_neg h3] at hc
    have ht : tok ≠ "" := by
      by_contra hx
      rw [hx] at h6
      exact absurd h6 (by decide)
    exact ih hc ht hnf
  | case11 tok rest st h1 h2 h3 h4 h5 h6 h7 ih =>
    rw [parseArgs.eq_def]
    simp only [if_neg h1, if_neg h2, if_neg h3, if_neg h4, if_neg h5, if_neg h6, if_pos h7]
    rw [classOk.eq_def] at hc
    simp only [h1, h2, h3, if_neg (by tauto : ¬ (tok = "--hdr" ∨ tok = "--src")), if_neg h3] at hc
    refine ih hc hcn ?_
    simp only [Errata.wrn, Errata.push]
    rw [List.filter_append]
    simp [hnf]
    exact ⟨by decide, by decide⟩
  | case12 tok rest st h1 h2 h3 h4 h5 h6 h7 ih =>
    rw [parseArgs.eq_def]
    simp only [if_neg h1, if_neg h2, if_neg h3, if_neg h4, if_neg h5, if_neg h6, if_neg h7]
    rw [classOk.eq_def] at hc
    simp only [h1, h2, h3, if_neg (by tauto : ¬ (tok = "--hdr" ∨ tok = "--src")), if_neg h3] at hc
    exact ih hc hcn hnf

/-- C10 amended: the class name starts as "Schema"; for every command
line in which every value supplied to the class option is nonempty, no
path-determination error ("Unable to determine path for output header
file." or "... source file.") is ever recorded, and whenever processing
gets past option and schema-file checks (overall severity below ERROR)
both output paths are determined. -/
theorem c10_amended (tokens : List String) (hc : classOk tokens = true) :
    ((processPaths tokens).1.filter (fun n : ENote =>
      n.text == headerPathErr || n.text == sourcePathErr)).length = 0 ∧
    ((processPaths tokens).1.severity.rank < Sev.error.rank →
      (processPaths tokens).2.isSome = true) := by
  obtain ⟨hcn, hnotes⟩ :=
    parseArgs_inv tokens ⟨"", "", "Schema", [], 0⟩ hc (by decide) (by decide)
  unfold processPaths
  set P := parseArgs tokens ⟨"", "", "Schema", [], 0⟩ with hP
  by_cases hok : P.notes.isOk
  · simp only [hok, Bool.not_true, Bool.false_eq_true, if_false]
    by_cases hpos : P.positionals = 0
    · rw [if_pos hpos]
      constructor
      · simp only [Errata.err, Errata.push]
        rw [List.filter_append]
        simp [hnotes]
        exact ⟨by decide, by decide⟩
      · intro hsev
        exfalso
        simp only [Errata.err, Errata.push] at hsev
        rw [severity_append_note P.notes ⟨.error, str "An input schema file is required"⟩] at hsev
        simp [Sev.rank] at hsev
    · rw [if_neg hpos]
      obtain ⟨hv, hhc⟩ := hdrChoice_isSome P.hdrPath P.srcPath P.className hcn
      rw [hhc]
      dsimp only
      obtain ⟨sv, hsc⟩ := srcChoice_isSome P.srcPath hv P.className hcn
      rw [hsc]
      dsimp only
      exact ⟨hnotes, fun _ => rfl⟩
  · rw [if_pos (by simp [hok])]
    refine ⟨hnotes, ?_⟩
    intro hsev
    exfalso
    unfold Errata.isOk at hok
    simp only [decide_eq_true_eq] at hok
    exact hok hsev

/-- Witness for the amended C10 theorem at the concrete command line
`--class Widget in.yaml`. -/
theorem c10_amended_witness :
    classOk ["--class", "Widget", "in.yaml"] = true ∧
    (((processPaths ["--class", "Widget", "in.yaml"]).1.filter (fun n : ENote =>
      n.text == headerPathErr || n.text == sourcePathErr)).length = 0 ∧
    ((processPaths ["--class", "Widget", "in.yaml"]).1.severity.rank < Sev.error.rank →
      (processPaths ["--class", "Widget", "in.yaml"]).2.isSome = true)) :=
  ⟨by decide, c10_amended ["--class", "Widget", "in.yaml"] (by decide)⟩


/-- splitCh decomposition: a successful split reconstructs the text. -/
theorem splitCh_eq (c : Char) : ∀ text a b, splitCh c text = some (a, b) →
    text = a ++ c :: b := by
  intro text
  induction text with
  | nil => intro a b h; simp [splitCh] at h
  | cons x rest ih =>
    intro a b h
    simp only [splitCh] at h
    by_cases hx : (x == c) = true
    · rw [if_pos hx] at h
      obtain ⟨rfl, rfl⟩ := by simpa using h
      have : x = c := by simpa using hx
      simp [this]
    · rw [if_neg hx] at h
      match hs : splitCh c rest with
      | some (a0, b0) =>
        rw [hs] at h
        obtain ⟨rfl, rfl⟩ := by simpa using h
        simpa using ih a0 b0 hs
      | none => rw [hs] at h; simp at h

/-- Logical-line view of a successful newline split. -/
theorem linesOf_split : ∀ text line rest,
    splitCh '\n' text = some (line, rest) →
    linesOf text = (line, true) :: linesOf rest := by
  intro text
  induction text with
  | nil => intro l r h; simp [splitCh] at h
  | cons x t ih =>
    intro l r h
    simp only [splitCh] at h
    by_cases hx : (x == '\n') = true
    · rw [if_pos hx] at h
      obtain ⟨rfl, rfl⟩ := by simpa using h
      simp only [linesOf, if_pos hx]
    · rw [if_neg hx] at h
      match hs : splitCh '\n' t with
      | some (a0, b0) =>
        rw [hs] at h
        obtain ⟨rfl, rfl⟩ := by simpa using h
        simp only [linesOf, if_neg hx, ih a0 b0 hs]
      | none => rw [hs] at h; simp at h

/-- Logical-line view of a text with no newline. -/
theorem linesOf_nosplit : ∀ text, text ≠ [] → splitCh '\n' text = none →
    linesOf text = [(text, false)] := by
  intro text
  induction text with
  | nil => intro h _; exact absurd rfl h
  | cons x t ih =>
    intro _ h
    simp only [splitCh] at h
    by_cases hx : (x == '\n') = true
    · rw [if_pos hx] at h; simp at h
    · rw [if_neg hx] at h
      match hs : splitCh '\n' t with
      | some (a0, b0) => rw [hs] at h; simp at h
      | none =>
        cases t with
        | nil => simp [linesOf, hx]
        | cons y t' =>
          have hyt := ih (by simp) hs
          show (if (x == '\n') = true then ([], true) :: linesOf (y :: t')
                else match linesOf (y :: t') with
                  | [] => [([x], false)]
                  | (l, e) :: ls => (x :: l, e) :: ls) =
            [(x :: y :: t', false)]
          rw [if_neg hx, hyt]

/-- The loop indentation equals the claim-side replicated indent unit. -/
theorem embIndentN_eq (n : Nat) :
    embIndentN n = List.flatten (List.replicate n (str "  ")) := by
  induction n with
  | zero => rfl
  | succ k ih => simp [embIndentN, List.replicate_succ, ih]

/-- Source and claim indentation agree at every depth. -/
theorem embIndent_eq (d : Int) : embIndent d = specIndentRep d := by
  simp [embIndent, specIndentRep, embIndentN_eq]

/-- Fuel beyond the text length makes the emitter loop total, and its
result is the claim-side line-by-line description. -/
theorem outF_spec : ∀ fuel text sol ind, text.length < fuel →
    outF fuel text sol ind = some (outSpecLines (linesOf text) sol ind) := by
  intro fuel
  induction fuel with
  | zero => intro text sol ind h; exact absurd h (by omega)
  | succ f ih =>
    intro text sol ind h
    match text with
    | [] => simp [outF, linesOf, outSpecLines]
    | x :: t =>
      show (match splitCh '\n' (x :: t) with
        | some (line, rest) =>
          if line.isEmpty then
            match outF f rest true ind with
            | some (t0, s) => some ('\n' :: t0, s)
            | none => none
          else
            let pre := if sol then embIndent ind else []
            match outF f rest true ind with
            | some (t0, s) => some (pre ++ (line ++ '\n' :: t0), s)
            | none => none
        | none =>
          let pre := if sol then embIndent ind else []
          some (pre ++ (x :: t), false)) = _
      match hs : splitCh '\n' (x :: t) with
      | some (line, rest) =>
        dsimp only
        have hdec := splitCh_eq '\n' (x :: t) line rest hs
        have hlen : rest.length < f := by
          have h2 := congrArg List.length hdec
          simp at h2 h
          omega
        rw [linesOf_split (x :: t) line rest hs]
        rcases hres : outSpecLines (linesOf rest) true ind with ⟨T, S⟩
        rw [ih rest true ind hlen, hres]
        by_cases hemp : line.isEmpty
        · rw [if_pos hemp]
          simp only [outSpecLines, if_pos hemp, hres]
        · rw [if_neg hemp]
          simp only [outSpecLines, if_neg hemp, hres, embIndent_eq]
          simp
      | none =>
        dsimp only
        rw [linesOf_nosplit (x :: t) (by simp) hs]
        simp only [outSpecLines]
        rw [if_neg (by simp : ¬ (x :: t).isEmpty = true)]
        simp [embIndent_eq]

/-- C7: for every write on a sink with indent depth d and start-of-line
flag s, the emitted text is exactly the claim-side description over the
logical lines: an empty line emits one newline and no indentation; a
non-empty line beginning at start-of-line is preceded by d copies of
the two-space unit; a line ending with a newline emits it and sets
start-of-line; a write ending mid-line leaves start-of-line false. -/
theorem c7_write_line_splitting (text : List Char) (sol : Bool) (d : Int)
    (hd : 0 ≤ d) :
    ctxOut text sol d = outSpecLines (linesOf text) sol d := by
  unfold ctxOut
  rw [outF_spec (text.length + 1) text sol d (by omega)]
  rfl

/-- Witness for C7 at a concrete write mixing an indented line, an
empty line and a mid-line ending. -/
theorem c7_write_line_splitting_witness :
    (0 : Int) ≤ 2 ∧
    ctxOut (str "ab\n\ncd") true 2 =
      outSpecLines (linesOf (str "ab\n\ncd")) true 2 :=
  ⟨by decide, c7_write_line_splitting (str "ab\n\ncd") true 2 (by decide)⟩

/-- A text starts with itself extended by anything. -/
theorem lstarts_append (pat b : List Char) : lstarts (pat ++ b) pat = true := by
  induction pat with
  | nil => cases b <;> simp [lstarts]
  | cons p ps ih => simp [lstarts, ih]

/-- Containment is stable under prepending text. -/
theorem lhas_append_left (a b pat : List Char) (h : lhas b pat = true) :
    lhas (a ++ b) pat = true := by
  simp only [lhas, bne_iff_ne, ne_eq, decide_eq_true_eq] at h ⊢
  induction a with
  | nil => simpa using h
  | cons x a' ih =>
    simp only [List.cons_append, countOcc, List.append_eq]
    by_cases hl : lstarts (x :: (a' ++ b)) pat = true
    · rw [if_pos hl]; omega
    · rw [if_neg hl]; omega

/-- A text contains its own prefix. -/
theorem lhas_front (pat b : List Char) : lhas (pat ++ b) pat = true := by
  simp only [lhas, bne_iff_ne, ne_eq, decide_eq_true_eq]
  match hpb : pat ++ b with
  | [] =>
    have hp : pat = [] := by
      cases pat with
      | nil => rfl
      | cons x xs => simp at hpb
    subst hp
    simp [countOcc, lstarts]
  | c :: r =>
    show countOcc pat (c :: r) ≠ 0
    rw [countOcc, ← hpb, lstarts_append]
    simp

/-- A text contains any of its contiguous chunks. -/
theorem lhas_mid (a pat b t : List Char) (h : t = a ++ (pat ++ b)) :
    lhas t pat = true := by
  rw [h]
  exact lhas_append_left a (pat ++ b) pat (lhas_front pat b)

/-- takeSlash either consumes the whole text (no separator) or splits
off the segment before the first slash. -/
theorem takeSlash_cases (loc : List Char) :
    ((takeSlash loc).2 = [] ∧ (takeSlash loc).1 = loc) ∨
    loc = (takeSlash loc).1 ++ '/' :: (takeSlash loc).2 := by
  unfold takeSlash
  match hs : splitCh '/' loc with
  | some (a, b) =>
    right
    exact splitCh_eq '/' loc a b hs
  | none =>
    left
    exact ⟨rfl, rfl⟩

/-- takeSlash consumes at least one character of a nonempty text. -/
theorem takeSlash_dec (loc : List Char) (h : loc ≠ []) :
    (takeSlash loc).2.length < loc.length := by
  rcases takeSlash_cases loc with ⟨h2, _⟩ | hdec
  · rw [h2]
    cases loc with
    | nil => exact absurd rfl h
    | cons x xs => simp
  · conv_rhs => rw [hdec]
    simp
    omega

/-- Fuel irrelevance for the segment view: any sufficient fuel yields
the same segment list. -/
theorem pathSegsF_irrel : ∀ f1 f2 loc, loc.length < f1 → loc.length < f2 →
    pathSegsF f1 loc = pathSegsF f2 loc := by
  intro f1
  induction f1 with
  | zero => intro f2 loc h1 _; exact absurd h1 (by omega)
  | succ g ih =>
    intro f2 loc h1 h2
    cases f2 with
    | zero => exact absurd h2 (by omega)
    | succ g2 =>
      cases loc with
      | nil => rfl
      | cons x l =>
        show (match takeSlash (x :: l) with
          | (elt, rest) => elt :: pathSegsF g rest) =
          (match takeSlash (x :: l) with
          | (elt, rest) => elt :: pathSegsF g2 rest)
        rcases htake : takeSlash (x :: l) with ⟨elt, rest⟩
        dsimp only
        have hd := takeSlash_dec (x :: l) (by simp)
        rw [htake] at hd
        simp only at hd
        have h1' : rest.length < g := by
          simp only [List.length_cons] at hd h1; omega
        have h2' : rest.length < g2 := by
          simp only [List.length_cons] at hd h2; omega
        rw [ih g2 rest h1' h2']

/-- Unfolding of the segment view on a nonempty path. -/
theorem pathSegs_cons (loc : List Char) (h : loc ≠ []) :
    pathSegs loc = (takeSlash loc).1 :: pathSegs (takeSlash loc).2 := by
  cases loc with
  | nil => exact absurd rfl h
  | cons x l =>
    show (match takeSlash (x :: l) with
      | (elt, rest) => elt :: pathSegsF (x :: l).length rest) = _
    rcases htake : takeSlash (x :: l) with ⟨elt, rest⟩
    dsimp only
    have hd := takeSlash_dec (x :: l) (by simp)
    rw [htake] at hd
    simp only at hd
    unfold pathSegs
    rw [pathSegsF_irrel (x :: l).length (rest.length + 1) rest (by simpa using hd) (by omega)]

/-- Joining a list extended by one segment. -/
theorem segJoin_append_singleton (d : List (List Char)) (e : List Char)
    (h : d ≠ []) : segJoin (d ++ [e]) = segJoin d ++ '/' :: e := by
  induction d with
  | nil => exact absurd rfl h
  | cons s d' ih =>
    cases d' with
    | nil => simp [segJoin]
    | cons s2 d'' =>
      show segJoin (s :: (s2 :: d'' ++ [e])) = segJoin (s :: s2 :: d'') ++ '/' :: e
      rw [show segJoin (s :: (s2 :: d'' ++ [e])) =
            s ++ '/' :: segJoin (s2 :: d'' ++ [e]) from by
          rcases hx : s2 :: d'' ++ [e] with _ | ⟨y, ys⟩
          · simp at hx
          · rw [← hx]; rfl,
        ih (by simp)]
      simp [segJoin]

/-- Taking one past an initial chunk of a concatenation. -/
theorem takeLen1 (d : List (List Char)) (e : List Char)
    (zs : List (List Char)) :
    (d ++ e :: zs).take (d.length + 1) = d ++ [e] := by
  induction d with
  | nil => simp
  | cons s d' ih => simp [List.take, ih]

/-- One-step unfolding of the claim-side resolution rules. -/
theorem specResolve_cons (root : YNode) (seg : List Char)
    (segs : List (List Char)) (node : YNode) (k : Nat) :
    specResolve root (seg :: segs) node k =
      if seg.isEmpty || seg == str "#" then
        specResolve root segs root (k + 1)
      else
        match node with
        | .ymap pairs _ =>
          match ylookup pairs (String.mk seg) with
          | some next => specResolve root segs next (k + 1)
          | none => .fail seg (k + 1)
        | _ => .fail seg (k + 1) := rfl

/-- One-step unfolding of the resolver loop on a nonempty remainder. -/
theorem locateF_succ (root : YNode) (path : List Char) (fuel : Nat)
    (node : YNode) (x : Char) (l : List Char) :
    locateF root path (fuel + 1) node (x :: l) =
      (match takeSlash (x :: l) with
       | (elt, rest) =>
         if elt.isEmpty || elt == str "#" then
           locateF root path fuel root rest
         else
           match node with
           | .ymap pairs ln =>
             match ylookup pairs (String.mk elt) with
             | some next => locateF root path fuel next rest
             | none =>
               some (Errata.err []
                 (str "\"" ++ elt ++ str "\" is not in the map " ++
                   path.take (path.length - rest.length) ++ str " at " ++
                   markChars (.ymap pairs ln) ++ str "."), none)
           | _ =>
             some (Errata.err []
               (str "\"" ++ path.take (path.length - rest.length) ++
                 str "\" is not a map."), none)) := rfl

/-- The resolver loop agrees with the claim-side per-segment rules and,
on failure, its diagnostic contains both the failed segment and the
joined consumed sub-path. -/
theorem locateF_spec (root : YNode) (path : List Char) :
    ∀ fuel location (node : YNode) (pre : List Char)
      (done : List (List Char)),
    location.length < fuel →
    path = pre ++ location →
    pathSegs path = done ++ pathSegs location →
    (location ≠ [] → (done = [] ∧ pre = []) ∨
        (done ≠ [] ∧ pre = segJoin done ++ ['/'])) →
    (∀ n, specResolve root (pathSegs location) node done.length = .okNode n →
        locateF root path fuel node location = some ([], some n)) ∧
    (∀ seg k, specResolve root (pathSegs location) node done.length =
        .fail seg k →
      ∃ msg, locateF root path fuel node location =
          some (Errata.err [] msg, none) ∧
        lhas msg seg = true ∧
        lhas msg (segJoin ((pathSegs path).take k)) = true) := by
  intro fuel
  induction fuel with
  | zero => intro location node pre done h; exact absurd h (by omega)
  | succ f ih =>
    intro location node pre done h hpp hsegs hpre
    cases location with
    | nil =>
      constructor
      · intro n hok
        have : node = n := by
          simpa [pathSegs, pathSegsF, specResolve] using hok
        rw [this]
        rfl
      · intro seg k hf
        exact absurd hf (by simp [pathSegs, pathSegsF, specResolve])
    | cons x l =>
      rw [locateF_succ]
      rcases htake : takeSlash (x :: l) with ⟨elt, rest⟩
      dsimp only
      have hd := takeSlash_dec (x :: l) (by simp)
      rw [htake] at hd
      simp only at hd
      have hflen : rest.length < f := by
        simp only [List.length_cons] at hd h; omega
      have hseg1 : pathSegs (x :: l) = elt :: pathSegs rest := by
        have := pathSegs_cons (x :: l) (by simp)
        rw [htake] at this
        simpa using this
      have hcases := takeSlash_cases (x :: l)
      rw [htake] at hcases
      simp only at hcases
      have hpj : pre ++ elt = segJoin (done ++ [elt]) := by
        rcases hpre (by simp) with ⟨hd0, hp0⟩ | ⟨hdne, hpe⟩
        · subst hd0; subst hp0; simp [segJoin]
        · rw [segJoin_append_singleton done elt hdne, hpe]
          simp
      have hconsumed : path.take (path.length - rest.length) = pre ++ elt ∨
          path.take (path.length - rest.length) = (pre ++ elt) ++ ['/'] := by
        rcases hcases with ⟨hr2, hr1⟩ | hdec
        · left
          subst hr2
          rw [hpp, hr1]
          simp
        · right
          have hpath2 : path = ((pre ++ elt) ++ ['/']) ++ rest := by
            rw [hpp, hdec]; simp
          rw [hpath2]
          have hl2 : (((pre ++ elt) ++ ['/']) ++ rest).length - rest.length =
              ((pre ++ elt) ++ ['/']).length := by simp; omega
          rw [hl2, List.take_left]
      have htake1 : (pathSegs path).take (done.length + 1) = done ++ [elt] := by
        rw [hsegs, hseg1]
        exact takeLen1 done elt (pathSegs rest)
      have hsuffix : path = path.take (path.length - rest.length) ++ rest := by
        rcases hcases with ⟨hr2, hr1⟩ | hdec
        · subst hr2; simp
        · have hpath2 : path = ((pre ++ elt) ++ ['/']) ++ rest := by
            rw [hpp, hdec]; simp
          rw [hpath2]
          have hl2 : (((pre ++ elt) ++ ['/']) ++ rest).length - rest.length =
              ((pre ++ elt) ++ ['/']).length := by simp; omega
          rw [hl2, List.take_left]
      have hpreC : rest ≠ [] →
          path.take (path.length - rest.length) = (pre ++ elt) ++ ['/'] := by
        intro hrne
        rcases hcases with ⟨hr2, _⟩ | hdec
        · exact absurd hr2 hrne
        · have hpath2 : path = ((pre ++ elt) ++ ['/']) ++ rest := by
            rw [hpp, hdec]; simp
          rw [hpath2]
          have hl2 : (((pre ++ elt) ++ ['/']) ++ rest).length - rest.length =
              ((pre ++ elt) ++ ['/']).length := by simp; omega
          rw [hl2, List.take_left]
      rw [hseg1]
      by_cases hreset : (elt.isEmpty || elt == str "#") = true
      · rw [if_pos hreset]
        rw [specResolve_cons, if_pos hreset]
        have hih := ih rest root (path.take (path.length - rest.length))
          (done ++ [elt]) hflen hsuffix
          (by rw [hsegs, hseg1]; simp)
          (by
            intro hrne
            right
            refine ⟨by simp, ?_⟩
            rw [hpreC hrne, ← hpj])
        simpa using hih
      · rw [if_neg hreset]
        rw [specResolve_cons, if_neg hreset]
        cases node with
        | ymap pairs ln =>
          dsimp only
          match hlk : ylookup pairs (String.mk elt) with
          | some next =>
            have hih := ih rest next (path.take (path.length - rest.length))
              (done ++ [elt]) hflen hsuffix
              (by rw [hsegs, hseg1]; simp)
              (by
                intro hrne
                right
                refine ⟨by simp, ?_⟩
                rw [hpreC hrne, ← hpj])
            simpa using hih
          | none =>
            constructor
            · intro n hok
              exact (SpecRes.noConfusion hok)
            · intro seg k hf
              injection hf with hf1 hf2
              subst hf1; subst hf2
              refine ⟨str "\"" ++ elt ++ str "\" is not in the map " ++
                  path.take (path.length - rest.length) ++ str " at " ++
                  markChars (.ymap pairs ln) ++ str ".", rfl, ?_, ?_⟩
              · exact lhas_mid (str "\"") elt
                  (str "\" is not in the map " ++
                    path.take (path.length - rest.length) ++ str " at " ++
                    markChars (.ymap pairs ln) ++ str ".") _
                  (by simp only [List.append_assoc])
              · rw [htake1, ← hpj]
                rcases hconsumed with hc | hc
                · rw [hc]
                  exact lhas_mid (str "\"" ++ elt ++ str "\" is not in the map ")
                    (pre ++ elt)
                    (str " at " ++ markChars (.ymap pairs ln) ++ str ".") _
                    (by simp only [List.append_assoc])
                · rw [hc]
                  exact lhas_mid (str "\"" ++ elt ++ str "\" is not in the map ")
                    (pre ++ elt)
                    (['/'] ++ str " at " ++ markChars (.ymap pairs ln) ++ str ".") _
                    (by simp only [List.append_assoc])
        | ynull ln =>
          dsimp only
          constructor
          · intro n hok
            exact (SpecRes.noConfusion hok)
          · intro seg k hf
            injection hf with hf1 hf2
            subst hf1; subst hf2
            refine ⟨str "\"" ++ path.take (path.length - rest.length) ++
                str "\" is not a map.", rfl, ?_, ?_⟩
            · rcases hconsumed with hc | hc
              · rw [hc]
                exact lhas_mid (str "\"" ++ pre) elt
                  (str "\" is not a map.") _
                  (by simp only [List.append_assoc])
              · rw [hc]
                exact lhas_mid (str "\"" ++ pre) elt
                  (['/'] ++ str "\" is not a map.") _
                  (by simp only [List.append_assoc])
            · rw [htake1, ← hpj]
              rcases hconsumed with hc | hc
              · rw [hc]
                exact lhas_mid (str "\"") (pre ++ elt)
                  (str "\" is not a map.") _
                  (by simp only [List.append_assoc])
              · rw [hc]
                exact lhas_mid (str "\"") (pre ++ elt)
                  (['/'] ++ str "\" is not a map.") _
                  (by simp only [List.append_assoc])
        | yscalar s ln =>
          dsimp only
          constructor
          · intro n hok
            exact (SpecRes.noConfusion hok)
          · intro seg k hf
            injection hf with hf1 hf2
            subst hf1; subst hf2
            refine ⟨str "\"" ++ path.take (path.length - rest.length) ++
                str "\" is not a map.", rfl, ?_, ?_⟩
            · rcases hconsumed with hc | hc
              · rw [hc]
                exact lhas_mid (str "\"" ++ pre) elt
                  (str "\" is not a map.") _
                  (by simp only [List.append_assoc])
              · rw [hc]
                exact lhas_mid (str "\"" ++ pre) elt
                  (['/'] ++ str "\" is not a map.") _
                  (by simp only [List.append_assoc])
            · rw [htake1, ← hpj]
              rcases hconsumed with hc | hc
              · rw [hc]
                exact lhas_mid (str "\"") (pre ++ elt)
                  (str "\" is not a map.") _
                  (by simp only [List.append_assoc])
              · rw [hc]
                exact lhas_mid (str "\"") (pre ++ elt)
                  (['/'] ++ str "\" is not a map.") _
                  (by simp only [List.append_assoc])
        | yseq items ln =>
          dsimp only
          constructor
          · intro n hok
            exact (SpecRes.noConfusion hok)
          · intro seg k hf
            injection hf with hf1 hf2
            subst hf1; subst hf2
            refine ⟨str "\"" ++ path.take (path.length - rest.length) ++
                str "\" is not a map.", rfl, ?_, ?_⟩
            · rcases hconsumed with hc | hc
              · rw [hc]
                exact lhas_mid (str "\"" ++ pre) elt
                  (str "\" is not a map.") _
                  (by simp only [List.append_assoc])
              · rw [hc]
                exact lhas_mid (str "\"" ++ pre) elt
                  (['/'] ++ str "\" is not a map.") _
                  (by simp only [List.append_assoc])
            · rw [htake1, ← hpj]
              rcases hconsumed with hc | hc
              · rw [hc]
                exact lhas_mid (str "\"") (pre ++ elt)
                  (str "\" is not a map.") _
                  (by simp only [List.append_assoc])
              · rw [hc]
                exact lhas_mid (str "\"") (pre ++ elt)
                  (['/'] ++ str "\" is not a map.") _
                  (by simp only [List.append_assoc])

/-- C8: the resolver interprets the reference as slash-separated
segments per the claim-side rules — a leading # or empty segment
resets to the root, a segment selects a key of a MAP, and a segment
applied to a non-MAP or naming a missing key fails; on success it
returns the addressed node, and on failure it returns no node and a
diagnostic whose text contains the failed segment and the traversed
sub-path. -/
theorem c8_locate_matches_spec (root : YNode) (path : List Char) :
    (∀ n, specResolve root (pathSegs path) root 0 = .okNode n →
        locate root path = ([], some n)) ∧
    (∀ seg k, specResolve root (pathSegs path) root 0 = .fail seg k →
        (locate root path).2 = none ∧
        ∃ msg, (locate root path).1 = Errata.err [] msg ∧
          lhas msg seg = true ∧
          lhas msg (segJoin ((pathSegs path).take k)) = true) := by
  obtain ⟨hok, hfail⟩ := locateF_spec root path (path.length + 1) path root [] []
    (by omega) rfl rfl (by intro _; left; exact ⟨rfl, rfl⟩)
  constructor
  · intro n h
    have := hok n (by simpa using h)
    unfold locate
    rw [this]
    rfl
  · intro seg k h
    obtain ⟨msg, heq, h1, h2⟩ := hfail seg k (by simpa using h)
    unfold locate
    rw [heq]
    exact ⟨rfl, msg, rfl, h1, h2⟩

/-- Document for the C8 witness: a root with one definition. -/
def c8Doc : YNode :=
  .ymap [("definitions", .ymap [("A", .yscalar "s" 3)] 2)] 1

/-- Witness for C8: a resolving path returns the addressed node, and a
missing-key path fails with a diagnostic containing the segment and the
traversed sub-path. -/
theorem c8_locate_matches_spec_witness :
    (specResolve c8Doc (pathSegs (str "#/definitions/A")) c8Doc 0 =
        .okNode (.yscalar "s" 3) ∧
      locate c8Doc (str "#/definitions/A") = ([], some (.yscalar "s" 3))) ∧
    (specResolve c8Doc (pathSegs (str "#/definitions/B")) c8Doc 0 =
        .fail (str "B") 3 ∧
      ((locate c8Doc (str "#/definitions/B")).2 = none ∧
        ∃ msg, (locate c8Doc (str "#/definitions/B")).1 = Errata.err [] msg ∧
          lhas msg (str "B") = true ∧
          lhas msg (segJoin ((pathSegs (str "#/definitions/B")).take 3)) =
            true)) :=
  ⟨⟨rfl, (c8_locate_matches_spec c8Doc (str "#/definitions/A")).1
      (.yscalar "s" 3) rfl⟩,
   ⟨rfl, (c8_locate_matches_spec c8Doc (str "#/definitions/B")).2
      (str "B") 3 rfl⟩⟩

/-- No text whose first character differs from `b` is a definition
header. -/
theorem nhHead (c : Char) (r : List Char) (hne : ¬ c = 'b') :
    ∀ f, c :: r ≠ mkHeader f := by
  intro f h
  have h1 := congrArg List.head? h
  have h2 : (mkHeader f).head? = some 'b' := rfl
  rw [h2] at h1
  simp at h1
  exact hne h1

/-- The enum opener starts `bool e`, not `bool S`, so it is not a
definition header. -/
theorem nhEnum :
    ∀ f, str "bool enum_match_p = false;\nfor ( auto && vn : \x7b " ≠
      mkHeader f := by
  intro f h
  have h6 := congrArg (List.take 6) h
  have h2 : (mkHeader f).take 6 = str "bool S" := rfl
  rw [h2] at h6
  exact absurd h6 (by decide)

/-- A batch of write events none of which is a definition header. -/
def addedOk (added : List (Int × List Char)) : Prop :=
  ∀ ev ∈ added, ∀ f : String, ev.2 ≠ mkHeader f

theorem addedOk_nil : addedOk [] := by
  intro ev hev
  exact absurd hev (List.not_mem_nil ev)

theorem addedOk_append (a b : List (Int × List Char))
    (ha : addedOk a) (hb : addedOk b) : addedOk (a ++ b) := by
  intro ev hev
  rcases List.mem_append.mp hev with h | h
  · exact ha ev h
  · exact hb ev h

theorem addedOk_single (i : Int) (t : List Char)
    (h : ∀ f, t ≠ mkHeader f) : addedOk [(i, t)] := by
  intro ev hev
  rcases List.mem_singleton.mp hev with rfl
  exact h

/-- The walker-family postcondition: the definition table is unchanged
and the implementation sink is only appended to, never with a
definition header. -/
def VnOut (st st2 : CtxSt) : Prop :=
  st2.defs = st.defs ∧
  ∃ added, st2.src = st.src ++ added ∧ addedOk added

theorem VnOut.triv (st : CtxSt) : VnOut st st :=
  ⟨rfl, [], by simp, addedOk_nil⟩

theorem VnOut.trans {a b c : CtxSt} (h1 : VnOut a b) (h2 : VnOut b c) :
    VnOut a c := by
  obtain ⟨hd1, l1, hs1, ho1⟩ := h1
  obtain ⟨hd2, l2, hs2, ho2⟩ := h2
  exact ⟨hd2.trans hd1, l1 ++ l2,
    by rw [hs2, hs1, List.append_assoc],
    addedOk_append l1 l2 ho1 ho2⟩

/-- Any state transform preserving `src` and `defs` preserves the
postcondition. -/
theorem VnOut.same {a b : CtxSt} (c : CtxSt) (h : VnOut a b)
    (hd : c.defs = b.defs) (hs : c.src = b.src) : VnOut a c := by
  obtain ⟨hd1, l1, hs1, ho1⟩ := h
  exact ⟨hd.trans hd1, l1, hs.trans hs1, ho1⟩

theorem VnOut.srcO {a b : CtxSt} (t : List Char) (h : VnOut a b)
    (ht : ∀ f, t ≠ mkHeader f) : VnOut a (srcO b t) := by
  obtain ⟨hd1, l1, hs1, ho1⟩ := h
  refine ⟨hd1, l1 ++ [(b.srcInd, t)], ?_, ?_⟩
  · show b.src ++ [(b.srcInd, t)] = a.src ++ (l1 ++ [(b.srcInd, t)])
    rw [hs1, List.append_assoc]
  · exact addedOk_append _ _ ho1 (addedOk_single _ _ ht)

theorem VnOut.indS {a b : CtxSt} (h : VnOut a b) : VnOut a (indS b) :=
  VnOut.same _ h rfl rfl

theorem VnOut.exdS {a b : CtxSt} (h : VnOut a b) : VnOut a (exdS b) :=
  VnOut.same _ h rfl rfl

/-- Allocating a variable name preserves the postcondition. -/
theorem VnOut.varN {a b : CtxSt} (h : VnOut a b) :
    VnOut a { b with varIdx := b.varIdx + 1 } :=
  VnOut.same _ h rfl rfl

/-- The key loop of the required-tag check never emits a header. -/
theorem vnOut_reqKeyLoop :
    ∀ (items : List YNode) (first : Bool) (st : CtxSt),
    VnOut st (reqKeyLoop items first st) := by
  intro items
  induction items with
  | nil => intro first st; exact VnOut.triv st
  | cons n rest ih =>
    intro first st
    rw [reqKeyLoop]
    refine VnOut.trans (b := srcO st
      (str (if first then "" else ", ") ++ str "\"" ++ str n.scalarStr ++
        str "\"")) ?_ (ih false _)
    refine VnOut.srcO _ (VnOut.triv st) ?_
    cases first
    · exact nhHead ',' _ (by decide)
    · exact nhHead '"' _ (by decide)

/-- The type-disjunction loop never emits a header. -/
theorem vnOut_typeDisjLoop :
    ∀ (cands : List SchemaType) (ts : TySet) (var : String) (first : Bool)
      (st : CtxSt),
    VnOut st (typeDisjLoop ts var cands first st) := by
  intro cands
  induction cands with
  | nil => intro ts var first st; exact VnOut.triv st
  | cons t rest ih =>
    intro ts var first st
    rw [typeDisjLoop]
    by_cases hm : tyMem ts t = true
    · rw [if_pos hm]
      refine VnOut.trans ?_ (ih ts var false _)
      refine VnOut.srcO _ (VnOut.triv st) ?_
      cases first
      · exact nhHead ' ' _ (by decide)
      · cases t <;> exact nhHead 'i' _ (by decide)
    · rw [if_neg hm]
      exact ih ts var first st

/-- The type-name loop never emits a header. -/
theorem vnOut_typeNameLoop :
    ∀ (cands : List SchemaType) (ts : TySet) (first : Bool) (st : CtxSt),
    VnOut st (typeNameLoop ts cands first st) := by
  intro cands
  induction cands with
  | nil => intro ts first st; exact VnOut.triv st
  | cons t rest ih =>
    intro ts first st
    rw [typeNameLoop]
    by_cases hm : tyMem ts t = true
    · rw [if_pos hm]
      refine VnOut.trans ?_ (ih ts false _)
      refine VnOut.srcO _ (VnOut.triv st) ?_
      cases first
      · exact nhHead ',' _ (by decide)
      · exact nhHead '\x27' _ (by decide)
    · rw [if_neg hm]
      exact ih ts first st

/-- The type check emitter never emits a header. -/
theorem vnOut_emitTypeCheck (ts : TySet) (var : String) (st : CtxSt) :
    VnOut st (emitTypeCheck ts var st) := by
  rw [emitTypeCheck]
  have h2 : VnOut st (srcO (srcO st (str "// validate value type\n"))
      (str "if (! ")) :=
    VnOut.srcO _ (VnOut.srcO _ (VnOut.triv st) (nhHead '/' _ (by decide)))
      (nhHead 'i' _ (by decide))
  by_cases h1 : (tyCount ts == 1) = true
  · rw [if_pos h1]
    match hf : allTypes.find? (fun t => tyMem ts t) with
    | some t =>
      refine VnOut.srcO _ h2 ?_
      cases t <;> exact nhHead 'i' _ (by decide)
    | none => exact h2
  · rw [if_neg h1]
    refine VnOut.srcO _ (VnOut.exdS (VnOut.trans
      (VnOut.srcO _ (VnOut.trans
        (VnOut.srcO _ (VnOut.indS (VnOut.srcO _ (VnOut.trans
          (VnOut.srcO _ h2 (nhHead '(' _ (by decide)))
          (vnOut_typeDisjLoop allTypes ts var true _))
          (nhHead ')' _ (by decide))))
        (nhHead 'e' _ (by decide)))
        (vnOut_typeNameLoop allTypes ts true _))
      (nhHead '"' _ (by decide)))
      (VnOut.triv _)))
      (nhHead '\x7d' _ (by decide))

/-- The required-tag check emitter never emits a header. -/
theorem vnOut_emitRequiredCheck (node : YNode) (var : String)
    (st : CtxSt) : VnOut st (emitRequiredCheck node var st) := by
  delta emitRequiredCheck
  cases node with
  | yseq items l =>
    dsimp only
    exact (VnOut.srcO _ (VnOut.exdS (VnOut.srcO _ (VnOut.exdS (VnOut.srcO _ (VnOut.indS (VnOut.srcO _ (VnOut.indS (VnOut.srcO _ (VnOut.trans (VnOut.srcO _ (VnOut.triv st) (nhHead '/' _ (by decide))) (vnOut_reqKeyLoop items true _)) (nhHead ' ' _ (by decide)))) (nhHead 'i' _ (by decide)))) (nhHead 'e' _ (by decide)))) (nhHead '\x7d' _ (by decide)))) (nhHead '\x7d' _ (by decide)))
  | ynull l =>
    dsimp only
    exact (VnOut.srcO _ (VnOut.exdS (VnOut.srcO _ (VnOut.exdS (VnOut.srcO _ (VnOut.indS (VnOut.srcO _ (VnOut.indS (VnOut.srcO _ (VnOut.trans (VnOut.srcO _ (VnOut.triv st) (nhHead '/' _ (by decide))) (vnOut_reqKeyLoop ([] : List YNode) true _)) (nhHead ' ' _ (by decide)))) (nhHead 'i' _ (by decide)))) (nhHead 'e' _ (by decide)))) (nhHead '\x7d' _ (by decide)))) (nhHead '\x7d' _ (by decide)))
  | yscalar sc l =>
    dsimp only
    exact (VnOut.srcO _ (VnOut.exdS (VnOut.srcO _ (VnOut.exdS (VnOut.srcO _ (VnOut.indS (VnOut.srcO _ (VnOut.indS (VnOut.srcO _ (VnOut.trans (VnOut.srcO _ (VnOut.triv st) (nhHead '/' _ (by decide))) (vnOut_reqKeyLoop ([] : List YNode) true _)) (nhHead ' ' _ (by decide)))) (nhHead 'i' _ (by decide)))) (nhHead 'e' _ (by decide)))) (nhHead '\x7d' _ (by decide)))) (nhHead '\x7d' _ (by decide)))
  | ymap pairs l =>
    dsimp only
    exact (VnOut.srcO _ (VnOut.exdS (VnOut.srcO _ (VnOut.exdS (VnOut.srcO _ (VnOut.indS (VnOut.srcO _ (VnOut.indS (VnOut.srcO _ (VnOut.trans (VnOut.srcO _ (VnOut.triv st) (nhHead '/' _ (by decide))) (vnOut_reqKeyLoop ([] : List YNode) true _)) (nhHead ' ' _ (by decide)))) (nhHead 'i' _ (by decide)))) (nhHead 'e' _ (by decide)))) (nhHead '\x7d' _ (by decide)))) (nhHead '\x7d' _ (by decide)))

/-- The enum serialisation loop never emits a header. -/
theorem vnOut_enumLoadLoop :
    ∀ (items : List YNode) (st : CtxSt),
    VnOut st (enumLoadLoop items st) := by
  intro items
  induction items with
  | nil => intro st; exact VnOut.triv st
  | cons n rest ih =>
    intro st
    rw [enumLoadLoop]
    exact VnOut.trans
      (VnOut.srcO _ (VnOut.triv st) (nhHead 'Y' _ (by decide))) (ih _)

/-- The enum handler never emits a header. -/
theorem vnOut_enum (node : YNode) (var : String) (st : CtxSt) :
    VnOut st (process_enum_value node var st).2 := by
  rw [process_enum_value.eq_def]
  cases node with
  | yseq items l =>
    dsimp only
    by_cases hlen : items.length < 1
    · rw [if_pos hlen]
      exact VnOut.same _ (VnOut.triv st) rfl rfl
    · rw [if_neg hlen]
      dsimp only
      exact (VnOut.srcO _ (VnOut.exdS (VnOut.srcO _ (VnOut.indS (VnOut.srcO _ (VnOut.srcO _ (VnOut.exdS (VnOut.srcO _ (VnOut.exdS (VnOut.srcO _ (VnOut.indS (VnOut.srcO _ (VnOut.indS (VnOut.srcO _ (VnOut.trans (VnOut.srcO _ (VnOut.triv st) nhEnum) (vnOut_enumLoadLoop items _)) (nhHead ' ' _ (by decide)))) (nhHead 'i' _ (by decide)))) (nhHead 'e' _ (by decide)))) (nhHead '\x7d' _ (by decide)))) (nhHead '\x7d' _ (by decide))) (nhHead 'i' _ (by decide)))) (nhHead 'Y' _ (by decide)))) (nhHead '\x7d' _ (by decide)))
  | ynull l => exact VnOut.same _ (VnOut.triv st) rfl rfl
  | yscalar sc l => exact VnOut.same _ (VnOut.triv st) rfl rfl
  | ymap pairs l => exact VnOut.same _ (VnOut.triv st) rfl rfl

/-- Does a call tag belong to the walker family (no definition-table
activity)? -/
def vnFam : VC → Bool
  | .pdefs _ => false
  | .pdList _ _ => false
  | _ => true

/-- Collapse an if whose two branches share the state and flag. -/
theorem ite_collapse {c : Prop} [Decidable c] (a1 a2 : Errata) (s : CtxSt)
    (b : Bool) :
    (if c then some (a1, s, b) else some (a2, s, b)) =
      some (if c then a1 else a2, s, b) := by
  split <;> rfl

set_option maxHeartbeats 3200000 in
/-- The walker family: every successful step leaves the definition
table unchanged and only appends non-header events to the sink. -/
theorem step_vnOut (root : YNode) :
    ∀ fuel vc st e st2 early, vnFam vc = true →
    step root fuel vc st = some (e, st2, early) → VnOut st st2 := by
  intro fuel
  induction fuel with
  | zero =>
    intro vc st e st2 early _ h
    exact absurd h (by simp [step])
  | succ f ih =>
    intro vc st e st2 early hfam h
    rw [step.eq_def] at h
    cases vc with
    | vn value var =>
      dsimp only at h
      cases value with
      | ymap pairs vline =>
        dsimp only at h
        split at h
        · rename_i n hrf
          repeat split at h
          all_goals (
            injection h with h1;
            simp only [Prod.mk.injEq] at h1;
            obtain ⟨-, hst, -⟩ := h1;
            rw [← hst];
            first
            | exact VnOut.srcO _ (VnOut.triv st) (nhHead 'i' _ (by decide))
            | exact VnOut.triv st)
        · rename_i hrf
          split at h
          · rename_i tn hty
            rcases hpt : process_type_value tn with ⟨e1, types⟩
            rw [hpt] at h
            dsimp only at h
            split at h
            · injection h with h1
              simp only [Prod.mk.injEq] at h1
              obtain ⟨-, hst, -⟩ := h1
              rw [← hst]
              exact VnOut.triv st
            · exact (vnOut_emitTypeCheck _ var st).trans
                (ih _ _ _ _ _ (by exact rfl) h)
          · rename_i hty
            exact ih _ _ _ _ _ (by exact rfl) h
      | ynull l =>
        dsimp only at h
        injection h with h1
        simp only [Prod.mk.injEq] at h1
        obtain ⟨-, hst, -⟩ := h1
        rw [← hst]
        exact VnOut.triv st
      | yscalar sc l =>
        dsimp only at h
        injection h with h1
        simp only [Prod.mk.injEq] at h1
        obtain ⟨-, hst, -⟩ := h1
        rw [← hst]
        exact VnOut.triv st
      | yseq items l =>
        dsimp only at h
        injection h with h1
        simp only [Prod.mk.injEq] at h1
        obtain ⟨-, hst, -⟩ := h1
        rw [← hst]
        exact VnOut.triv st
    | vnRest value var types zret =>
      dsimp only at h
      by_cases hobj : tyMem types SchemaType.tObject = true
      · rw [if_pos hobj] at h
        rcases hs1 : step root f (.pObj value var types) st with _ | ⟨e1, stO, b1⟩
        · rw [hs1] at h
          dsimp only at h
          exact Option.noConfusion h
        · rw [hs1] at h
          dsimp only at h
          have hO : VnOut st stO := ih _ _ _ _ _ (by exact rfl) hs1
          split at h
          · injection h with h1
            simp only [Prod.mk.injEq] at h1
            obtain ⟨-, hst, -⟩ := h1
            rw [← hst]
            exact hO
          ·
            by_cases harr : tyMem types SchemaType.tArray = true
            · rw [if_pos harr] at h
              rcases hs2 : step root f (.pArr value var types) stO with _ | ⟨e2, stA, b2⟩
              · rw [hs2] at h
                dsimp only at h
                exact Option.noConfusion h
              · rw [hs2] at h
                dsimp only at h
                have hA : VnOut st stA :=
                  (hO).trans (ih _ _ _ _ _ (by exact rfl) hs2)
                rw [ite_collapse] at h
                dsimp only at h
                rcases hany : value.child "anyOf" with _ | nA
                · rw [hany] at h
                  dsimp only at h
                  rcases hone : value.child "oneOf" with _ | nO
                  · rw [hone] at h
                    dsimp only at h
                    rcases henm : value.child "enum" with _ | nE
                    · rw [henm] at h
                      dsimp only at h
                      injection h with h1
                      simp only [Prod.mk.injEq] at h1
                      obtain ⟨-, hst, -⟩ := h1
                      rw [← hst]
                      exact (hA)
                    · rw [henm] at h
                      dsimp only at h
                      rcases hpe : process_enum_value nE var stA with ⟨eE, stE⟩
                      rw [hpe] at h
                      dsimp only at h
                      have hE := vnOut_enum nE var stA
                      rw [hpe] at hE
                      injection h with h1
                      simp only [Prod.mk.injEq] at h1
                      obtain ⟨-, hst, -⟩ := h1
                      rw [← hst]
                      exact (hA).trans hE
                  · rw [hone] at h
                    dsimp only at h
                    rcases hs4 : step root f (.pOne nO var) stA with _ | ⟨e4, stZ, b4⟩
                    · rw [hs4] at h
                      dsimp only at h
                      exact Option.noConfusion h
                    · rw [hs4] at h
                      dsimp only at h
                      have hZ : VnOut st stZ :=
                        (hA).trans (ih _ _ _ _ _ (by exact rfl) hs4)
                      rw [ite_self] at h
                      dsimp only at h
                      rcases henm : value.child "enum" with _ | nE
                      · rw [henm] at h
                        dsimp only at h
                        injection h with h1
                        simp only [Prod.mk.injEq] at h1
                        obtain ⟨-, hst, -⟩ := h1
                        rw [← hst]
                        exact (hZ)
                      · rw [henm] at h
                        dsimp only at h
                        rcases hpe : process_enum_value nE var stZ with ⟨eE, stE⟩
                        rw [hpe] at h
                        dsimp only at h
                        have hE := vnOut_enum nE var stZ
                        rw [hpe] at hE
                        injection h with h1
                        simp only [Prod.mk.injEq] at h1
                        obtain ⟨-, hst, -⟩ := h1
                        rw [← hst]
                        exact (hZ).trans hE
                · rw [hany] at h
                  dsimp only at h
                  rcases hs3 : step root f (.pAny nA var) stA with _ | ⟨e3, stY, b3⟩
                  · rw [hs3] at h
                    dsimp only at h
                    exact Option.noConfusion h
                  · rw [hs3] at h
                    dsimp only at h
                    have hY : VnOut st stY :=
                      (hA).trans (ih _ _ _ _ _ (by exact rfl) hs3)
                    rw [ite_self] at h
                    dsimp only at h
                    rcases hone : value.child "oneOf" with _ | nO
                    · rw [hone] at h
                      dsimp only at h
                      rcases henm : value.child "enum" with _ | nE
                      · rw [henm] at h
                        dsimp only at h
                        injection h with h1
                        simp only [Prod.mk.injEq] at h1
                        obtain ⟨-, hst, -⟩ := h1
                        rw [← hst]
                        exact (hY)
                      · rw [henm] at h
                        dsimp only at h
                        rcases hpe : process_enum_value nE var stY with ⟨eE, stE⟩
                        rw [hpe] at h
                        dsimp only at h
                        have hE := vnOut_enum nE var stY
                        rw [hpe] at hE
                        injection h with h1
                        simp only [Prod.mk.injEq] at h1
                        obtain ⟨-, hst, -⟩ := h1
                        rw [← hst]
                        exact (hY).trans hE
                    · rw [hone] at h
                      dsimp only at h
                      rcases hs4 : step root f (.pOne nO var) stY with _ | ⟨e4, stZ, b4⟩
                      · rw [hs4] at h
                        dsimp only at h
                        exact Option.noConfusion h
                      · rw [hs4] at h
                        dsimp only at h
                        have hZ : VnOut st stZ :=
                          (hY).trans (ih _ _ _ _ _ (by exact rfl) hs4)
                        rw [ite_self] at h
                        dsimp only at h
                        rcases henm : value.child "enum" with _ | nE
                        · rw [henm] at h
                          dsimp only at h
                          injection h with h1
                          simp only [Prod.mk.injEq] at h1
                          obtain ⟨-, hst, -⟩ := h1
                          rw [← hst]
                          exact (hZ)
                        · rw [henm] at h
                          dsimp only at h
                          rcases hpe : process_enum_value nE var stZ with ⟨eE, stE⟩
                          rw [hpe] at h
                          dsimp only at h
                          have hE := vnOut_enum nE var stZ
                          rw [hpe] at hE
                          injection h with h1
                          simp only [Prod.mk.injEq] at h1
                          obtain ⟨-, hst, -⟩ := h1
                          rw [← hst]
                          exact (hZ).trans hE
            · rw [if_neg harr] at h
              dsimp only at h
              rcases hany : value.child "anyOf" with _ | nA
              · rw [hany] at h
                dsimp only at h
                rcases hone : value.child "oneOf" with _ | nO
                · rw [hone] at h
                  dsimp only at h
                  rcases henm : value.child "enum" with _ | nE
                  · rw [henm] at h
                    dsimp only at h
                    injection h with h1
                    simp only [Prod.mk.injEq] at h1
                    obtain ⟨-, hst, -⟩ := h1
                    rw [← hst]
                    exact (hO)
                  · rw [henm] at h
                    dsimp only at h
                    rcases hpe : process_enum_value nE var stO with ⟨eE, stE⟩
                    rw [hpe] at h
                    dsimp only at h
                    have hE := vnOut_enum nE var stO
                    rw [hpe] at hE
                    injection h with h1
                    simp only [Prod.mk.injEq] at h1
                    obtain ⟨-, hst, -⟩ := h1
                    rw [← hst]
                    exact (hO).trans hE
                · rw [hone] at h
                  dsimp only at h
                  rcases hs4 : step root f (.pOne nO var) stO with _ | ⟨e4, stZ, b4⟩
                  · rw [hs4] at h
                    dsimp only at h
                    exact Option.noConfusion h
                  · rw [hs4] at h
                    dsimp only at h
                    have hZ : VnOut st stZ :=
                      (hO).trans (ih _ _ _ _ _ (by exact rfl) hs4)
                    rw [ite_self] at h
                    dsimp only at h
                    rcases henm : value.child "enum" with _ | nE
                    · rw [henm] at h
                      dsimp only at h
                      injection h with h1
                      simp only [Prod.mk.injEq] at h1
                      obtain ⟨-, hst, -⟩ := h1
                      rw [← hst]
                      exact (hZ)
                    · rw [henm] at h
                      dsimp only at h
                      rcases hpe : process_enum_value nE var stZ with ⟨eE, stE⟩
                      rw [hpe] at h
                      dsimp only at h
                      have hE := vnOut_enum nE var stZ
                      rw [hpe] at hE
                      injection h with h1
                      simp only [Prod.mk.injEq] at h1
                      obtain ⟨-, hst, -⟩ := h1
                      rw [← hst]
                      exact (hZ).trans hE
              · rw [hany] at h
                dsimp only at h
                rcases hs3 : step root f (.pAny nA var) stO with _ | ⟨e3, stY, b3⟩
                · rw [hs3] at h
                  dsimp only at h
                  exact Option.noConfusion h
                · rw [hs3] at h
                  dsimp only at h
                  have hY : VnOut st stY :=
                    (hO).trans (ih _ _ _ _ _ (by exact rfl) hs3)
                  rw [ite_self] at h
                  dsimp only at h
                  rcases hone : value.child "oneOf" with _ | nO
                  · rw [hone] at h
                    dsimp only at h
                    rcases henm : value.child "enum" with _ | nE
                    · rw [henm] at h
                      dsimp only at h
                      injection h with h1
                      simp only [Prod.mk.injEq] at h1
                      obtain ⟨-, hst, -⟩ := h1
                      rw [← hst]
                      exact (hY)
                    · rw [henm] at h
                      dsimp only at h
                      rcases hpe : process_enum_value nE var stY with ⟨eE, stE⟩
                      rw [hpe] at h
                      dsimp only at h
                      have hE := vnOut_enum nE var stY
                      rw [hpe] at hE
                      injection h with h1
                      simp only [Prod.mk.injEq] at h1
                      obtain ⟨-, hst, -⟩ := h1
                      rw [← hst]
                      exact (hY).trans hE
                  · rw [hone] at h
                    dsimp only at h
                    rcases hs4 : step root f (.pOne nO var) stY with _ | ⟨e4, stZ, b4⟩
                    · rw [hs4] at h
                      dsimp only at h
                      exact Option.noConfusion h
                    · rw [hs4] at h
                      dsimp only at h
                      have hZ : VnOut st stZ :=
                        (hY).trans (ih _ _ _ _ _ (by exact rfl) hs4)
                      rw [ite_self] at h
                      dsimp only at h
                      rcases henm : value.child "enum" with _ | nE
                      · rw [henm] at h
                        dsimp only at h
                        injection h with h1
                        simp only [Prod.mk.injEq] at h1
                        obtain ⟨-, hst, -⟩ := h1
                        rw [← hst]
                        exact (hZ)
                      · rw [henm] at h
                        dsimp only at h
                        rcases hpe : process_enum_value nE var stZ with ⟨eE, stE⟩
                        rw [hpe] at h
                        dsimp only at h
                        have hE := vnOut_enum nE var stZ
                        rw [hpe] at hE
                        injection h with h1
                        simp only [Prod.mk.injEq] at h1
                        obtain ⟨-, hst, -⟩ := h1
                        rw [← hst]
                        exact (hZ).trans hE
      · rw [if_neg hobj] at h
        by_cases harr : tyMem types SchemaType.tArray = true
        · rw [if_pos harr] at h
          rcases hs2 : step root f (.pArr value var types) st with _ | ⟨e2, stA, b2⟩
          · rw [hs2] at h
            dsimp only at h
            exact Option.noConfusion h
          · rw [hs2] at h
            dsimp only at h
            have hA : VnOut st stA :=
              (VnOut.triv st).trans (ih _ _ _ _ _ (by exact rfl) hs2)
            rw [ite_collapse] at h
            dsimp only at h
            rcases hany : value.child "anyOf" with _ | nA
            · rw [hany] at h
              dsimp only at h
              rcases hone : value.child "oneOf" with _ | nO
              · rw [hone] at h
                dsimp only at h
                rcases henm : value.child "enum" with _ | nE
                · rw [henm] at h
                  dsimp only at h
                  injection h with h1
                  simp only [Prod.mk.injEq] at h1
                  obtain ⟨-, hst, -⟩ := h1
                  rw [← hst]
                  exact (hA)
                · rw [henm] at h
                  dsimp only at h
                  rcases hpe : process_enum_value nE var stA with ⟨eE, stE⟩
                  rw [hpe] at h
                  dsimp only at h
                  have hE := vnOut_enum nE var stA
                  rw [hpe] at hE
                  injection h with h1
                  simp only [Prod.mk.injEq] at h1
                  obtain ⟨-, hst, -⟩ := h1
                  rw [← hst]
                  exact (hA).trans hE
              · rw [hone] at h
                dsimp only at h
                rcases hs4 : step root f (.pOne nO var) stA with _ | ⟨e4, stZ, b4⟩
                · rw [hs4] at h
                  dsimp only at h
                  exact Option.noConfusion h
                · rw [hs4] at h
                  dsimp only at h
                  have hZ : VnOut st stZ :=
                    (hA).trans (ih _ _ _ _ _ (by exact rfl) hs4)
                  rw [ite_self] at h
                  dsimp only at h
                  rcases henm : value.child "enum" with _ | nE
                  · rw [henm] at h
                    dsimp only at h
                    injection h with h1
                    simp only [Prod.mk.injEq] at h1
                    obtain ⟨-, hst, -⟩ := h1
                    rw [← hst]
                    exact (hZ)
                  · rw [henm] at h
                    dsimp only at h
                    rcases hpe : process_enum_value nE var stZ with ⟨eE, stE⟩
                    rw [hpe] at h
                    dsimp only at h
                    have hE := vnOut_enum nE var stZ
                    rw [hpe] at hE
                    injection h with h1
                    simp only [Prod.mk.injEq] at h1
                    obtain ⟨-, hst, -⟩ := h1
                    rw [← hst]
                    exact (hZ).trans hE
            · rw [hany] at h
              dsimp only at h
              rcases hs3 : step root f (.pAny nA var) stA with _ | ⟨e3, stY, b3⟩
              · rw [hs3] at h
                dsimp only at h
                exact Option.noConfusion h
              · rw [hs3] at h
                dsimp only at h
                have hY : VnOut st stY :=
                  (hA).trans (ih _ _ _ _ _ (by exact rfl) hs3)
                rw [ite_self] at h
                dsimp only at h
                rcases hone : value.child "oneOf" with _ | nO
                · rw [hone] at h
                  dsimp only at h
                  rcases henm : value.child "enum" with _ | nE
                  · rw [henm] at h
                    dsimp only at h
                    injection h with h1
                    simp only [Prod.mk.injEq] at h1
                    obtain ⟨-, hst, -⟩ := h1
                    rw [← hst]
                    exact (hY)
                  · rw [henm] at h
                    dsimp only at h
                    rcases hpe : process_enum_value nE var stY with ⟨eE, stE⟩
                    rw [hpe] at h
                    dsimp only at h
                    have hE := vnOut_enum nE var stY
                    rw [hpe] at hE
                    injection h with h1
                    simp only [Prod.mk.injEq] at h1
                    obtain ⟨-, hst, -⟩ := h1
                    rw [← hst]
                    exact (hY).trans hE
                · rw [hone] at h
                  dsimp only at h
                  rcases hs4 : step root f (.pOne nO var) stY with _ | ⟨e4, stZ, b4⟩
                  · rw [hs4] at h
                    dsimp only at h
                    exact Option.noConfusion h
                  · rw [hs4] at h
                    dsimp only at h
                    have hZ : VnOut st stZ :=
                      (hY).trans (ih _ _ _ _ _ (by exact rfl) hs4)
                    rw [ite_self] at h
                    dsimp only at h
                    rcases henm : value.child "enum" with _ | nE
                    · rw [henm] at h
                      dsimp only at h
                      injection h with h1
                      simp only [Prod.mk.injEq] at h1
                      obtain ⟨-, hst, -⟩ := h1
                      rw [← hst]
                      exact (hZ)
                    · rw [henm] at h
                      dsimp only at h
                      rcases hpe : process_enum_value nE var stZ with ⟨eE, stE⟩
                      rw [hpe] at h
                      dsimp only at h
                      have hE := vnOut_enum nE var stZ
                      rw [hpe] at hE
                      injection h with h1
                      simp only [Prod.mk.injEq] at h1
                      obtain ⟨-, hst, -⟩ := h1
                      rw [← hst]
                      exact (hZ).trans hE
        · rw [if_neg harr] at h
          dsimp only at h
          rcases hany : value.child "anyOf" with _ | nA
          · rw [hany] at h
            dsimp only at h
            rcases hone : value.child "oneOf" with _ | nO
            · rw [hone] at h
              dsimp only at h
              rcases henm : value.child "enum" with _ | nE
              · rw [henm] at h
                dsimp only at h
                injection h with h1
                simp only [Prod.mk.injEq] at h1
                obtain ⟨-, hst, -⟩ := h1
                rw [← hst]
                exact (VnOut.triv st)
              · rw [henm] at h
                dsimp only at h
                rcases hpe : process_enum_value nE var st with ⟨eE, stE⟩
                rw [hpe] at h
                dsimp only at h
                have hE := vnOut_enum nE var st
                rw [hpe] at hE
                injection h with h1
                simp only [Prod.mk.injEq] at h1
                obtain ⟨-, hst, -⟩ := h1
                rw [← hst]
                exact (VnOut.triv st).trans hE
            · rw [hone] at h
              dsimp only at h
              rcases hs4 : step root f (.pOne nO var) st with _ | ⟨e4, stZ, b4⟩
              · rw [hs4] at h
                dsimp only at h
                exact Option.noConfusion h
              · rw [hs4] at h
                dsimp only at h
                have hZ : VnOut st stZ :=
                  (VnOut.triv st).trans (ih _ _ _ _ _ (by exact rfl) hs4)
                rw [ite_self] at h
                dsimp only at h
                rcases henm : value.child "enum" with _ | nE
                · rw [henm] at h
                  dsimp only at h
                  injection h with h1
                  simp only [Prod.mk.injEq] at h1
                  obtain ⟨-, hst, -⟩ := h1
                  rw [← hst]
                  exact (hZ)
                · rw [henm] at h
                  dsimp only at h
                  rcases hpe : process_enum_value nE var stZ with ⟨eE, stE⟩
                  rw [hpe] at h
                  dsimp only at h
                  have hE := vnOut_enum nE var stZ
                  rw [hpe] at hE
                  injection h with h1
                  simp only [Prod.mk.injEq] at h1
                  obtain ⟨-, hst, -⟩ := h1
                  rw [← hst]
                  exact (hZ).trans hE
          · rw [hany] at h
            dsimp only at h
            rcases hs3 : step root f (.pAny nA var) st with _ | ⟨e3, stY, b3⟩
            · rw [hs3] at h
              dsimp only at h
              exact Option.noConfusion h
            · rw [hs3] at h
              dsimp only at h
              have hY : VnOut st stY :=
                (VnOut.triv st).trans (ih _ _ _ _ _ (by exact rfl) hs3)
              rw [ite_self] at h
              dsimp only at h
              rcases hone : value.child "oneOf" with _ | nO
              · rw [hone] at h
                dsimp only at h
                rcases henm : value.child "enum" with _ | nE
                · rw [henm] at h
                  dsimp only at h
                  injection h with h1
                  simp only [Prod.mk.injEq] at h1
                  obtain ⟨-, hst, -⟩ := h1
                  rw [← hst]
                  exact (hY)
                · rw [henm] at h
                  dsimp only at h
                  rcases hpe : process_enum_value nE var stY with ⟨eE, stE⟩
                  rw [hpe] at h
                  dsimp only at h
                  have hE := vnOut_enum nE var stY
                  rw [hpe] at hE
                  injection h with h1
                  simp only [Prod.mk.injEq] at h1
                  obtain ⟨-, hst, -⟩ := h1
                  rw [← hst]
                  exact (hY).trans hE
              · rw [hone] at h
                dsimp only at h
                rcases hs4 : step root f (.pOne nO var) stY with _ | ⟨e4, stZ, b4⟩
                · rw [hs4] at h
                  dsimp only at h
                  exact Option.noConfusion h
                · rw [hs4] at h
                  dsimp only at h
                  have hZ : VnOut st stZ :=
                    (hY).trans (ih _ _ _ _ _ (by exact rfl) hs4)
                  rw [ite_self] at h
                  dsimp only at h
                  rcases henm : value.child "enum" with _ | nE
                  · rw [henm] at h
                    dsimp only at h
                    injection h with h1
                    simp only [Prod.mk.injEq] at h1
                    obtain ⟨-, hst, -⟩ := h1
                    rw [← hst]
                    exact (hZ)
                  · rw [henm] at h
                    dsimp only at h
                    rcases hpe : process_enum_value nE var stZ with ⟨eE, stE⟩
                    rw [hpe] at h
                    dsimp only at h
                    have hE := vnOut_enum nE var stZ
                    rw [hpe] at hE
                    injection h with h1
                    simp only [Prod.mk.injEq] at h1
                    obtain ⟨-, hst, -⟩ := h1
                    rw [← hst]
                    exact (hZ).trans hE
    | pObj node var ts =>
      dsimp only at h
      by_cases hg : (!(tyCount ts == 1) &&
          ((node.child "properties").isSome ||
            (node.child "required").isSome)) = true
      · rw [if_pos hg] at h
        have base0 : VnOut st (indS (srcO st
            (str "if (" ++ str var ++ str "(is_object_type)) \x7b\n"))) :=
          VnOut.indS (VnOut.srcO _ (VnOut.triv st)
            (nhHead 'i' _ (by decide)))
        rcases hreq : node.child "required" with _ | rq
        · rw [hreq] at h hg
          dsimp only at h
          rcases hpn : node.child "properties" with _ | pn
          · rw [hpn] at h hg
            dsimp only at h
            rw [if_pos hg] at h
            injection h with h1
            simp only [Prod.mk.injEq] at h1
            obtain ⟨-, hst, -⟩ := h1
            rw [← hst]
            exact VnOut.srcO _ (VnOut.exdS base0) (nhHead '\x7d' _ (by decide))
          · rw [hpn] at h hg
            dsimp only at h
            cases pn with
            | ymap ppairs pl =>
              dsimp only [varName] at h
              split at h
              · exact Option.noConfusion h
              · rename_i e1 st1 b1 heq1
                have hcore : VnOut st st1 := by
                  refine (base0).trans ((VnOut.varN (VnOut.triv _)).trans
                    (ih _ _ _ _ _ ?_ heq1))
                  rfl
                rw [if_pos hg] at h
                injection h with h1
                simp only [Prod.mk.injEq] at h1
                obtain ⟨-, hst, -⟩ := h1
                rw [← hst]
                exact VnOut.srcO _ (VnOut.exdS hcore) (nhHead '\x7d' _ (by decide))
            | ynull pl =>
            dsimp only at h
            injection h with h1
            simp only [Prod.mk.injEq] at h1
            obtain ⟨-, hst, -⟩ := h1
            rw [← hst]
            exact VnOut.same _ base0 rfl rfl
            | yscalar sc pl =>
            dsimp only at h
            injection h with h1
            simp only [Prod.mk.injEq] at h1
            obtain ⟨-, hst, -⟩ := h1
            rw [← hst]
            exact VnOut.same _ base0 rfl rfl
            | yseq its pl =>
            dsimp only at h
            injection h with h1
            simp only [Prod.mk.injEq] at h1
            obtain ⟨-, hst, -⟩ := h1
            rw [← hst]
            exact VnOut.same _ base0 rfl rfl
        · rw [hreq] at h hg
          dsimp only at h
          by_cases hsq : (!rq.isSeqB) = true
          · rw [if_pos hsq] at h
            dsimp only at h
            injection h with h1
            simp only [Prod.mk.injEq] at h1
            obtain ⟨-, hst, -⟩ := h1
            rw [← hst]
            exact VnOut.same _ (base0) rfl rfl
          · rw [if_neg hsq] at h
            dsimp only at h
            have base1 := (base0).trans (vnOut_emitRequiredCheck rq var _)
            rcases hpn : node.child "properties" with _ | pn
            · rw [hpn] at h hg
              dsimp only at h
              rw [if_pos hg] at h
              injection h with h1
              simp only [Prod.mk.injEq] at h1
              obtain ⟨-, hst, -⟩ := h1
              rw [← hst]
              exact VnOut.srcO _ (VnOut.exdS base1) (nhHead '\x7d' _ (by decide))
            · rw [hpn] at h hg
              dsimp only at h
              cases pn with
              | ymap ppairs pl =>
                dsimp only [varName] at h
                split at h
                · exact Option.noConfusion h
                · rename_i e1 st1 b1 heq1
                  have hcore : VnOut st st1 := by
                    refine (base1).trans ((VnOut.varN (VnOut.triv _)).trans
                      (ih _ _ _ _ _ ?_ heq1))
                    rfl
                  rw [if_pos hg] at h
                  injection h with h1
                  simp only [Prod.mk.injEq] at h1
                  obtain ⟨-, hst, -⟩ := h1
                  rw [← hst]
                  exact VnOut.srcO _ (VnOut.exdS hcore) (nhHead '\x7d' _ (by decide))
              | ynull pl =>
              dsimp only at h
              injection h with h1
              simp only [Prod.mk.injEq] at h1
              obtain ⟨-, hst, -⟩ := h1
              rw [← hst]
              exact VnOut.same _ base1 rfl rfl
              | yscalar sc pl =>
              dsimp only at h
              injection h with h1
              simp only [Prod.mk.injEq] at h1
              obtain ⟨-, hst, -⟩ := h1
              rw [← hst]
              exact VnOut.same _ base1 rfl rfl
              | yseq its pl =>
              dsimp only at h
              injection h with h1
              simp only [Prod.mk.injEq] at h1
              obtain ⟨-, hst, -⟩ := h1
              rw [← hst]
              exact VnOut.same _ base1 rfl rfl
      · rw [if_neg hg] at h
        rcases hreq : node.child "required" with _ | rq
        · rw [hreq] at h hg
          dsimp only at h
          rcases hpn : node.child "properties" with _ | pn
          · rw [hpn] at h hg
            dsimp only at h
            rw [if_neg hg] at h
            injection h with h1
            simp only [Prod.mk.injEq] at h1
            obtain ⟨-, hst, -⟩ := h1
            rw [← hst]
            exact VnOut.triv st
          · rw [hpn] at h hg
            dsimp only at h
            cases pn with
            | ymap ppairs pl =>
              dsimp only [varName] at h
              split at h
              · exact Option.noConfusion h
              · rename_i e1 st1 b1 heq1
                have hcore : VnOut st st1 := by
                  refine (VnOut.triv st).trans ((VnOut.varN (VnOut.triv _)).trans
                    (ih _ _ _ _ _ ?_ heq1))
                  rfl
                rw [if_neg hg] at h
                injection h with h1
                simp only [Prod.mk.injEq] at h1
                obtain ⟨-, hst, -⟩ := h1
                rw [← hst]
                exact hcore
            | ynull pl =>
            dsimp only at h
            injection h with h1
            simp only [Prod.mk.injEq] at h1
            obtain ⟨-, hst, -⟩ := h1
            rw [← hst]
            exact VnOut.same _ (VnOut.triv st) rfl rfl
            | yscalar sc pl =>
            dsimp only at h
            injection h with h1
            simp only [Prod.mk.injEq] at h1
            obtain ⟨-, hst, -⟩ := h1
            rw [← hst]
            exact VnOut.same _ (VnOut.triv st) rfl rfl
            | yseq its pl =>
            dsimp only at h
            injection h with h1
            simp only [Prod.mk.injEq] at h1
            obtain ⟨-, hst, -⟩ := h1
            rw [← hst]
            exact VnOut.same _ (VnOut.triv st) rfl rfl
        · rw [hreq] at h hg
          dsimp only at h
          by_cases hsq : (!rq.isSeqB) = true
          · rw [if_pos hsq] at h
            dsimp only at h
            injection h with h1
            simp only [Prod.mk.injEq] at h1
            obtain ⟨-, hst, -⟩ := h1
            rw [← hst]
            exact VnOut.same _ (VnOut.triv st) rfl rfl
          · rw [if_neg hsq] at h
            dsimp only at h
            have base1 := (VnOut.triv st).trans (vnOut_emitRequiredCheck rq var _)
            rcases hpn : node.child "properties" with _ | pn
            · rw [hpn] at h hg
              dsimp only at h
              rw [if_neg hg] at h
              injection h with h1
              simp only [Prod.mk.injEq] at h1
              obtain ⟨-, hst, -⟩ := h1
              rw [← hst]
              exact base1
            · rw [hpn] at h hg
              dsimp only at h
              cases pn with
              | ymap ppairs pl =>
                dsimp only [varName] at h
                split at h
                · exact Option.noConfusion h
                · rename_i e1 st1 b1 heq1
                  have hcore : VnOut st st1 := by
                    refine (base1).trans ((VnOut.varN (VnOut.triv _)).trans
                      (ih _ _ _ _ _ ?_ heq1))
                    rfl
                  rw [if_neg hg] at h
                  injection h with h1
                  simp only [Prod.mk.injEq] at h1
                  obtain ⟨-, hst, -⟩ := h1
                  rw [← hst]
                  exact hcore
              | ynull pl =>
              dsimp only at h
              injection h with h1
              simp only [Prod.mk.injEq] at h1
              obtain ⟨-, hst, -⟩ := h1
              rw [← hst]
              exact VnOut.same _ base1 rfl rfl
              | yscalar sc pl =>
              dsimp only at h
              injection h with h1
              simp only [Prod.mk.injEq] at h1
              obtain ⟨-, hst, -⟩ := h1
              rw [← hst]
              exact VnOut.same _ base1 rfl rfl
              | yseq its pl =>
              dsimp only at h
              injection h with h1
              simp only [Prod.mk.injEq] at h1
              obtain ⟨-, hst, -⟩ := h1
              rw [← hst]
              exact VnOut.same _ base1 rfl rfl
    | pArr node var ts =>
      dsimp only at h
      by_cases hg : (!(tyCount ts == 1) &&
          ((node.child "items").isSome || (node.child "minItems").isSome ||
            (node.child "maxItems").isSome)) = true
      · rw [if_pos hg] at h
        have base0 : VnOut st (indS (srcO st
            (str "if (is_array_type(" ++ str var ++ str ")) \x7b\n"))) :=
          VnOut.indS (VnOut.srcO _ (VnOut.triv st)
            (nhHead 'i' _ (by decide)))
        rcases hn1 : node.child "minItems" with _ | n1
        · rw [hn1] at h hg
          dsimp only at h
          rcases hn2 : node.child "maxItems" with _ | n2
          · rw [hn2] at h hg
            dsimp only at h
            split at h
            · injection h with h1
              simp only [Prod.mk.injEq] at h1
              obtain ⟨-, hst, -⟩ := h1
              rw [← hst]
              exact (base0)
            · rcases hit : node.child "items" with _ | n3
              · rw [hit] at h hg
                dsimp only at h
                repeat split at h
                all_goals (
                  injection h with h1;
                  simp only [Prod.mk.injEq] at h1;
                  obtain ⟨-, hst, -⟩ := h1;
                  rw [← hst];
                  first
                  | exact VnOut.srcO _ (VnOut.exdS (base0)) (nhHead '\x7d' _ (by decide))
                  | exact (base0))
              · rw [hit] at h hg
                dsimp only at h
                cases n3 with
                | ymap mp3 ml3 =>
                  dsimp only [varName] at h
                  split at h
                  · exact Option.noConfusion h
                  · rename_i r1 stV b1 heq1
                    have hcore : VnOut st stV := by
                      refine (base0).trans ((VnOut.indS (VnOut.srcO _
                        (VnOut.varN (VnOut.triv _))
                        (nhHead 'f' _ (by decide)))).trans
                        (ih _ _ _ _ _ ?_ heq1))
                      rfl
                    repeat split at h
                    all_goals (
                      injection h with h1;
                      simp only [Prod.mk.injEq] at h1;
                      obtain ⟨-, hst, -⟩ := h1;
                      rw [← hst];
                      first
                      | exact VnOut.srcO _ (VnOut.exdS (VnOut.srcO _ (VnOut.exdS hcore) (nhHead '\x7d' _ (by decide)))) (nhHead '\x7d' _ (by decide))
                      | exact VnOut.srcO _ (VnOut.exdS hcore) (nhHead '\x7d' _ (by decide))
                      | exact hcore)
                | ynull l3 =>
                  dsimp only at h
                  injection h with h1
                  simp only [Prod.mk.injEq] at h1
                  obtain ⟨-, hst, -⟩ := h1
                  rw [← hst]
                  exact (base0)
                | yscalar sc3 l3 =>
                  dsimp only at h
                  injection h with h1
                  simp only [Prod.mk.injEq] at h1
                  obtain ⟨-, hst, -⟩ := h1
                  rw [← hst]
                  exact (base0)
                | yseq its3 l3 =>
                  dsimp only [varName] at h
                  split at h
                  ·
                    dsimp only at h
                    split at h
                    · split at h
                      · exact Option.noConfusion h
                      · rename_i eF stF bF heqF
                        have hcoreF : VnOut st stF := by
                          refine (base0).trans ((VnOut.varN (VnOut.triv _)).trans
                            (ih _ _ _ _ _ ?_ heqF))
                          rfl
                        repeat split at h
                        all_goals (
                          injection h with h1;
                          simp only [Prod.mk.injEq] at h1;
                          obtain ⟨-, hst, -⟩ := h1;
                          rw [← hst];
                          first
                          | exact VnOut.srcO _ (VnOut.exdS hcoreF) (nhHead '\x7d' _ (by decide))
                          | exact hcoreF)
                    · split at h
                      · exact Option.noConfusion h
                      · rename_i eL stL bL heqL
                        have hcoreL : VnOut st stL := by
                          refine (base0).trans ((VnOut.indS (VnOut.srcO _
                            (VnOut.varN (VnOut.triv _)) (nhHead 's' _ (by decide)))).trans
                            (ih _ _ _ _ _ ?_ heqL))
                          rfl
                        repeat split at h
                        all_goals (
                          injection h with h1;
                          simp only [Prod.mk.injEq] at h1;
                          obtain ⟨-, hst, -⟩ := h1;
                          rw [← hst];
                          first
                          | exact VnOut.srcO _ (VnOut.exdS (VnOut.srcO _ (VnOut.exdS hcoreL) (nhHead '\x7d' _ (by decide)))) (nhHead '\x7d' _ (by decide))
                          | exact VnOut.srcO _ (VnOut.exdS hcoreL) (nhHead '\x7d' _ (by decide))
                          | exact hcoreL)
                  ·
                    dsimp only at h
                    split at h
                    · split at h
                      · exact Option.noConfusion h
                      · rename_i eF stF bF heqF
                        have hcoreF : VnOut st stF := by
                          refine (base0).trans ((VnOut.varN (VnOut.triv _)).trans
                            (ih _ _ _ _ _ ?_ heqF))
                          rfl
                        repeat split at h
                        all_goals (
                          injection h with h1;
                          simp only [Prod.mk.injEq] at h1;
                          obtain ⟨-, hst, -⟩ := h1;
                          rw [← hst];
                          first
                          | exact VnOut.srcO _ (VnOut.exdS hcoreF) (nhHead '\x7d' _ (by decide))
                          | exact hcoreF)
                    · split at h
                      · exact Option.noConfusion h
                      · rename_i eL stL bL heqL
                        have hcoreL : VnOut st stL := by
                          refine (base0).trans ((VnOut.indS (VnOut.srcO _
                            (VnOut.varN (VnOut.triv _)) (nhHead 's' _ (by decide)))).trans
                            (ih _ _ _ _ _ ?_ heqL))
                          rfl
                        repeat split at h
                        all_goals (
                          injection h with h1;
                          simp only [Prod.mk.injEq] at h1;
                          obtain ⟨-, hst, -⟩ := h1;
                          rw [← hst];
                          first
                          | exact VnOut.srcO _ (VnOut.exdS (VnOut.srcO _ (VnOut.exdS hcoreL) (nhHead '\x7d' _ (by decide)))) (nhHead '\x7d' _ (by decide))
                          | exact VnOut.srcO _ (VnOut.exdS hcoreL) (nhHead '\x7d' _ (by decide))
                          | exact hcoreL)
          · rw [hn2] at h hg
            dsimp only at h
            rcases hsv2 : svtoiM (trimWs (str n2.scalarStr)) with ⟨m2, k2⟩
            rw [hsv2] at h
            dsimp only at h
            split at h
            · rename_i eI stI hSumn2
              split at hSumn2
              · injection hSumn2 with hp
                simp only [Prod.mk.injEq] at hp
                obtain ⟨-, hp2⟩ := hp
                rw [← hp2] at h
                injection h with h1
                simp only [Prod.mk.injEq] at h1
                obtain ⟨-, hst, -⟩ := h1
                rw [← hst]
                exact (base0)
              · exact Sum.noConfusion hSumn2
            · rename_i maxI stq2 hSumn2
              split at hSumn2
              · exact Sum.noConfusion hSumn2
              · injection hSumn2 with hq
                simp only [Prod.mk.injEq] at hq
                obtain ⟨hq1, hq2⟩ := hq
                rw [← hq1, ← hq2] at h
                split at h
                · injection h with h1
                  simp only [Prod.mk.injEq] at h1
                  obtain ⟨-, hst, -⟩ := h1
                  rw [← hst]
                  exact (VnOut.srcO _ (base0) (nhHead 'i' _ (by decide)))
                · rcases hit : node.child "items" with _ | n3
                  · rw [hit] at h hg
                    dsimp only at h
                    repeat split at h
                    all_goals (
                      injection h with h1;
                      simp only [Prod.mk.injEq] at h1;
                      obtain ⟨-, hst, -⟩ := h1;
                      rw [← hst];
                      first
                      | exact VnOut.srcO _ (VnOut.exdS (VnOut.srcO _ (base0) (nhHead 'i' _ (by decide)))) (nhHead '\x7d' _ (by decide))
                      | exact (VnOut.srcO _ (base0) (nhHead 'i' _ (by decide))))
                  · rw [hit] at h hg
                    dsimp only at h
                    cases n3 with
                    | ymap mp3 ml3 =>
                      dsimp only [varName] at h
                      split at h
                      · exact Option.noConfusion h
                      · rename_i r1 stV b1 heq1
                        have hcore : VnOut st stV := by
                          refine (VnOut.srcO _ (base0) (nhHead 'i' _ (by decide))).trans ((VnOut.indS (VnOut.srcO _
                            (VnOut.varN (VnOut.triv _))
                            (nhHead 'f' _ (by decide)))).trans
                            (ih _ _ _ _ _ ?_ heq1))
                          rfl
                        repeat split at h
                        all_goals (
                          injection h with h1;
                          simp only [Prod.mk.injEq] at h1;
                          obtain ⟨-, hst, -⟩ := h1;
                          rw [← hst];
                          first
                          | exact VnOut.srcO _ (VnOut.exdS (VnOut.srcO _ (VnOut.exdS hcore) (nhHead '\x7d' _ (by decide)))) (nhHead '\x7d' _ (by decide))
                          | exact VnOut.srcO _ (VnOut.exdS hcore) (nhHead '\x7d' _ (by decide))
                          | exact hcore)
                    | ynull l3 =>
                      dsimp only at h
                      injection h with h1
                      simp only [Prod.mk.injEq] at h1
                      obtain ⟨-, hst, -⟩ := h1
                      rw [← hst]
                      exact (VnOut.srcO _ (base0) (nhHead 'i' _ (by decide)))
                    | yscalar sc3 l3 =>
                      dsimp only at h
                      injection h with h1
                      simp only [Prod.mk.injEq] at h1
                      obtain ⟨-, hst, -⟩ := h1
                      rw [← hst]
                      exact (VnOut.srcO _ (base0) (nhHead 'i' _ (by decide)))
                    | yseq its3 l3 =>
                      dsimp only [varName] at h
                      split at h
                      ·
                        dsimp only at h
                        split at h
                        · split at h
                          · exact Option.noConfusion h
                          · rename_i eF stF bF heqF
                            have hcoreF : VnOut st stF := by
                              refine (VnOut.srcO _ (base0) (nhHead 'i' _ (by decide))).trans ((VnOut.varN (VnOut.triv _)).trans
                                (ih _ _ _ _ _ ?_ heqF))
                              rfl
                            repeat split at h
                            all_goals (
                              injection h with h1;
                              simp only [Prod.mk.injEq] at h1;
                              obtain ⟨-, hst, -⟩ := h1;
                              rw [← hst];
                              first
                              | exact VnOut.srcO _ (VnOut.exdS hcoreF) (nhHead '\x7d' _ (by decide))
                              | exact hcoreF)
                        · split at h
                          · exact Option.noConfusion h
                          · rename_i eL stL bL heqL
                            have hcoreL : VnOut st stL := by
                              refine (VnOut.srcO _ (base0) (nhHead 'i' _ (by decide))).trans ((VnOut.indS (VnOut.srcO _
                                (VnOut.varN (VnOut.triv _)) (nhHead 's' _ (by decide)))).trans
                                (ih _ _ _ _ _ ?_ heqL))
                              rfl
                            repeat split at h
                            all_goals (
                              injection h with h1;
                              simp only [Prod.mk.injEq] at h1;
                              obtain ⟨-, hst, -⟩ := h1;
                              rw [← hst];
                              first
                              | exact VnOut.srcO _ (VnOut.exdS (VnOut.srcO _ (VnOut.exdS hcoreL) (nhHead '\x7d' _ (by decide)))) (nhHead '\x7d' _ (by decide))
                              | exact VnOut.srcO _ (VnOut.exdS hcoreL) (nhHead '\x7d' _ (by decide))
                              | exact hcoreL)
                      ·
                        dsimp only at h
                        split at h
                        · split at h
                          · exact Option.noConfusion h
                          · rename_i eF stF bF heqF
                            have hcoreF : VnOut st stF := by
                              refine (VnOut.srcO _ (base0) (nhHead 'i' _ (by decide))).trans ((VnOut.varN (VnOut.triv _)).trans
                                (ih _ _ _ _ _ ?_ heqF))
                              rfl
                            repeat split at h
                            all_goals (
                              injection h with h1;
                              simp only [Prod.mk.injEq] at h1;
                              obtain ⟨-, hst, -⟩ := h1;
                              rw [← hst];
                              first
                              | exact VnOut.srcO _ (VnOut.exdS hcoreF) (nhHead '\x7d' _ (by decide))
                              | exact hcoreF)
                        · split at h
                          · exact Option.noConfusion h
                          · rename_i eL stL bL heqL
                            have hcoreL : VnOut st stL := by
                              refine (VnOut.srcO _ (base0) (nhHead 'i' _ (by decide))).trans ((VnOut.indS (VnOut.srcO _
                                (VnOut.varN (VnOut.triv _)) (nhHead 's' _ (by decide)))).trans
                                (ih _ _ _ _ _ ?_ heqL))
                              rfl
                            repeat split at h
                            all_goals (
                              injection h with h1;
                              simp only [Prod.mk.injEq] at h1;
                              obtain ⟨-, hst, -⟩ := h1;
                              rw [← hst];
                              first
                              | exact VnOut.srcO _ (VnOut.exdS (VnOut.srcO _ (VnOut.exdS hcoreL) (nhHead '\x7d' _ (by decide)))) (nhHead '\x7d' _ (by decide))
                              | exact VnOut.srcO _ (VnOut.exdS hcoreL) (nhHead '\x7d' _ (by decide))
                              | exact hcoreL)
        · rw [hn1] at h hg
          dsimp only at h
          rcases hsv : svtoiM (trimWs (str n1.scalarStr)) with ⟨m, k⟩
          rw [hsv] at h
          dsimp only at h
          split at h
          · rename_i eI stI hSumn1
            split at hSumn1
            · injection hSumn1 with hp
              simp only [Prod.mk.injEq] at hp
              obtain ⟨-, hp2⟩ := hp
              rw [← hp2] at h
              injection h with h1
              simp only [Prod.mk.injEq] at h1
              obtain ⟨-, hst, -⟩ := h1
              rw [← hst]
              exact (base0)
            · exact Sum.noConfusion hSumn1
          · rename_i minI stq hSumn1
            split at hSumn1
            · exact Sum.noConfusion hSumn1
            · injection hSumn1 with hq
              simp only [Prod.mk.injEq] at hq
              obtain ⟨hq1, hq2⟩ := hq
              rw [← hq1, ← hq2] at h
              rcases hn2 : node.child "maxItems" with _ | n2
              · rw [hn2] at h hg
                dsimp only at h
                split at h
                · injection h with h1
                  simp only [Prod.mk.injEq] at h1
                  obtain ⟨-, hst, -⟩ := h1
                  rw [← hst]
                  exact (VnOut.srcO _ (base0) (nhHead 'i' _ (by decide)))
                · rcases hit : node.child "items" with _ | n3
                  · rw [hit] at h hg
                    dsimp only at h
                    repeat split at h
                    all_goals (
                      injection h with h1;
                      simp only [Prod.mk.injEq] at h1;
                      obtain ⟨-, hst, -⟩ := h1;
                      rw [← hst];
                      first
                      | exact VnOut.srcO _ (VnOut.exdS (VnOut.srcO _ (base0) (nhHead 'i' _ (by decide)))) (nhHead '\x7d' _ (by decide))
                      | exact (VnOut.srcO _ (base0) (nhHead 'i' _ (by decide))))
                  · rw [hit] at h hg
                    dsimp only at h
                    cases n3 with
                    | ymap mp3 ml3 =>
                      dsimp only [varName] at h
                      split at h
                      · exact Option.noConfusion h
                      · rename_i r1 stV b1 heq1
                        have hcore : VnOut st stV := by
                          refine (VnOut.srcO _ (base0) (nhHead 'i' _ (by decide))).trans ((VnOut.indS (VnOut.srcO _
                            (VnOut.varN (VnOut.triv _))
                            (nhHead 'f' _ (by decide)))).trans
                            (ih _ _ _ _ _ ?_ heq1))
                          rfl
                        repeat split at h
                        all_goals (
                          injection h with h1;
                          simp only [Prod.mk.injEq] at h1;
                          obtain ⟨-, hst, -⟩ := h1;
                          rw [← hst];
                          first
                          | exact VnOut.srcO _ (VnOut.exdS (VnOut.srcO _ (VnOut.exdS hcore) (nhHead '\x7d' _ (by decide)))) (nhHead '\x7d' _ (by decide))
                          | exact VnOut.srcO _ (VnOut.exdS hcore) (nhHead '\x7d' _ (by decide))
                          | exact hcore)
                    | ynull l3 =>
                      dsimp only at h
                      injection h with h1
                      simp only [Prod.mk.injEq] at h1
                      obtain ⟨-, hst, -⟩ := h1
                      rw [← hst]
                      exact (VnOut.srcO _ (base0) (nhHead 'i' _ (by decide)))
                    | yscalar sc3 l3 =>
                      dsimp only at h
                      injection h with h1
                      simp only [Prod.mk.injEq] at h1
                      obtain ⟨-, hst, -⟩ := h1
                      rw [← hst]
                      exact (VnOut.srcO _ (base0) (nhHead 'i' _ (by decide)))
                    | yseq its3 l3 =>
                      dsimp only [varName] at h
                      split at h
                      ·
                        dsimp only at h
                        split at h
                        · split at h
                          · exact Option.noConfusion h
                          · rename_i eF stF bF heqF
                            have hcoreF : VnOut st stF := by
                              refine (VnOut.srcO _ (base0) (nhHead 'i' _ (by decide))).trans ((VnOut.varN (VnOut.triv _)).trans
                                (ih _ _ _ _ _ ?_ heqF))
                              rfl
                            repeat split at h
                            all_goals (
                              injection h with h1;
                              simp only [Prod.mk.injEq] at h1;
                              obtain ⟨-, hst, -⟩ := h1;
                              rw [← hst];
                              first
                              | exact VnOut.srcO _ (VnOut.exdS hcoreF) (nhHead '\x7d' _ (by decide))
                              | exact hcoreF)
                        · split at h
                          · exact Option.noConfusion h
                          · rename_i eL stL bL heqL
                            have hcoreL : VnOut st stL := by
                              refine (VnOut.srcO _ (base0) (nhHead 'i' _ (by decide))).trans ((VnOut.indS (VnOut.srcO _
                                (VnOut.varN (VnOut.triv _)) (nhHead 's' _ (by decide)))).trans
                                (ih _ _ _ _ _ ?_ heqL))
                              rfl
                            repeat split at h
                            all_goals (
                              injection h with h1;
                              simp only [Prod.mk.injEq] at h1;
                              obtain ⟨-, hst, -⟩ := h1;
                              rw [← hst];
                              first
                              | exact VnOut.srcO _ (VnOut.exdS (VnOut.srcO _ (VnOut.exdS hcoreL) (nhHead '\x7d' _ (by decide)))) (nhHead '\x7d' _ (by decide))
                              | exact VnOut.srcO _ (VnOut.exdS hcoreL) (nhHead '\x7d' _ (by decide))
                              | exact hcoreL)
                      ·
                        dsimp only at h
                        split at h
                        · split at h
                          · exact Option.noConfusion h
                          · rename_i eF stF bF heqF
                            have hcoreF : VnOut st stF := by
                              refine (VnOut.srcO _ (base0) (nhHead 'i' _ (by decide))).trans ((VnOut.varN (VnOut.triv _)).trans
                                (ih _ _ _ _ _ ?_ heqF))
                              rfl
                            repeat split at h
                            all_goals (
                              injection h with h1;
                              simp only [Prod.mk.injEq] at h1;
                              obtain ⟨-, hst, -⟩ := h1;
                              rw [← hst];
                              first
                              | exact VnOut.srcO _ (VnOut.exdS hcoreF) (nhHead '\x7d' _ (by decide))
                              | exact hcoreF)
                        · split at h
                          · exact Option.noConfusion h
                          · rename_i eL stL bL heqL
                            have hcoreL : VnOut st stL := by
                              refine (VnOut.srcO _ (base0) (nhHead 'i' _ (by decide))).trans ((VnOut.indS (VnOut.srcO _
                                (VnOut.varN (VnOut.triv _)) (nhHead 's' _ (by decide)))).trans
                                (ih _ _ _ _ _ ?_ heqL))
                              rfl
                            repeat split at h
                            all_goals (
                              injection h with h1;
                              simp only [Prod.mk.injEq] at h1;
                              obtain ⟨-, hst, -⟩ := h1;
                              rw [← hst];
                              first
                              | exact VnOut.srcO _ (VnOut.exdS (VnOut.srcO _ (VnOut.exdS hcoreL) (nhHead '\x7d' _ (by decide)))) (nhHead '\x7d' _ (by decide))
                              | exact VnOut.srcO _ (VnOut.exdS hcoreL) (nhHead '\x7d' _ (by decide))
                              | exact hcoreL)
              · rw [hn2] at h hg
                dsimp only at h
                rcases hsv2 : svtoiM (trimWs (str n2.scalarStr)) with ⟨m2, k2⟩
                rw [hsv2] at h
                dsimp only at h
                split at h
                · rename_i eI stI hSumn2
                  split at hSumn2
                  · injection hSumn2 with hp
                    simp only [Prod.mk.injEq] at hp
                    obtain ⟨-, hp2⟩ := hp
                    rw [← hp2] at h
                    injection h with h1
                    simp only [Prod.mk.injEq] at h1
                    obtain ⟨-, hst, -⟩ := h1
                    rw [← hst]
                    exact (VnOut.srcO _ (base0) (nhHead 'i' _ (by decide)))
                  · exact Sum.noConfusion hSumn2
                · rename_i maxI stq2 hSumn2
                  split at hSumn2
                  · exact Sum.noConfusion hSumn2
                  · injection hSumn2 with hq
                    simp only [Prod.mk.injEq] at hq
                    obtain ⟨hq1, hq2⟩ := hq
                    rw [← hq1, ← hq2] at h
                    split at h
                    · injection h with h1
                      simp only [Prod.mk.injEq] at h1
                      obtain ⟨-, hst, -⟩ := h1
                      rw [← hst]
                      exact (VnOut.srcO _ (VnOut.srcO _ (base0) (nhHead 'i' _ (by decide))) (nhHead 'i' _ (by decide)))
                    · rcases hit : node.child "items" with _ | n3
                      · rw [hit] at h hg
                        dsimp only at h
                        repeat split at h
                        all_goals (
                          injection h with h1;
                          simp only [Prod.mk.injEq] at h1;
                          obtain ⟨-, hst, -⟩ := h1;
                          rw [← hst];
                          first
                          | exact VnOut.srcO _ (VnOut.exdS (VnOut.srcO _ (VnOut.srcO _ (base0) (nhHead 'i' _ (by decide))) (nhHead 'i' _ (by decide)))) (nhHead '\x7d' _ (by decide))
                          | exact (VnOut.srcO _ (VnOut.srcO _ (base0) (nhHead 'i' _ (by decide))) (nhHead 'i' _ (by decide))))
                      · rw [hit] at h hg
                        dsimp only at h
                        cases n3 with
                        | ymap mp3 ml3 =>
                          dsimp only [varName] at h
                          split at h
                          · exact Option.noConfusion h
                          · rename_i r1 stV b1 heq1
                            have hcore : VnOut st stV := by
                              refine (VnOut.srcO _ (VnOut.srcO _ (base0) (nhHead 'i' _ (by decide))) (nhHead 'i' _ (by decide))).trans ((VnOut.indS (VnOut.srcO _
                                (VnOut.varN (VnOut.triv _))
                                (nhHead 'f' _ (by decide)))).trans
                                (ih _ _ _ _ _ ?_ heq1))
                              rfl
                            repeat split at h
                            all_goals (
                              injection h with h1;
                              simp only [Prod.mk.injEq] at h1;
                              obtain ⟨-, hst, -⟩ := h1;
                              rw [← hst];
                              first
                              | exact VnOut.srcO _ (VnOut.exdS (VnOut.srcO _ (VnOut.exdS hcore) (nhHead '\x7d' _ (by decide)))) (nhHead '\x7d' _ (by decide))
                              | exact VnOut.srcO _ (VnOut.exdS hcore) (nhHead '\x7d' _ (by decide))
                              | exact hcore)
                        | ynull l3 =>
                          dsimp only at h
                          injection h with h1
                          simp only [Prod.mk.injEq] at h1
                          obtain ⟨-, hst, -⟩ := h1
                          rw [← hst]
                          exact (VnOut.srcO _ (VnOut.srcO _ (base0) (nhHead 'i' _ (by decide))) (nhHead 'i' _ (by decide)))
                        | yscalar sc3 l3 =>
                          dsimp only at h
                          injection h with h1
                          simp only [Prod.mk.injEq] at h1
                          obtain ⟨-, hst, -⟩ := h1
                          rw [← hst]
                          exact (VnOut.srcO _ (VnOut.srcO _ (base0) (nhHead 'i' _ (by decide))) (nhHead 'i' _ (by decide)))
                        | yseq its3 l3 =>
                          dsimp only [varName] at h
                          split at h
                          ·
                            dsimp only at h
                            split at h
                            · split at h
                              · exact Option.noConfusion h
                              · rename_i eF stF bF heqF
                                have hcoreF : VnOut st stF := by
                                  refine (VnOut.srcO _ (VnOut.srcO _ (base0) (nhHead 'i' _ (by decide))) (nhHead 'i' _ (by decide))).trans ((VnOut.varN (VnOut.triv _)).trans
                                    (ih _ _ _ _ _ ?_ heqF))
                                  rfl
                                repeat split at h
                                all_goals (
                                  injection h with h1;
                                  simp only [Prod.mk.injEq] at h1;
                                  obtain ⟨-, hst, -⟩ := h1;
                                  rw [← hst];
                                  first
                                  | exact VnOut.srcO _ (VnOut.exdS hcoreF) (nhHead '\x7d' _ (by decide))
                                  | exact hcoreF)
                            · split at h
                              · exact Option.noConfusion h
                              · rename_i eL stL bL heqL
                                have hcoreL : VnOut st stL := by
                                  refine (VnOut.srcO _ (VnOut.srcO _ (base0) (nhHead 'i' _ (by decide))) (nhHead 'i' _ (by decide))).trans ((VnOut.indS (VnOut.srcO _
                                    (VnOut.varN (VnOut.triv _)) (nhHead 's' _ (by decide)))).trans
                                    (ih _ _ _ _ _ ?_ heqL))
                                  rfl
                                repeat split at h
                                all_goals (
                                  injection h with h1;
                                  simp only [Prod.mk.injEq] at h1;
                                  obtain ⟨-, hst, -⟩ := h1;
                                  rw [← hst];
                                  first
                                  | exact VnOut.srcO _ (VnOut.exdS (VnOut.srcO _ (VnOut.exdS hcoreL) (nhHead '\x7d' _ (by decide)))) (nhHead '\x7d' _ (by decide))
                                  | exact VnOut.srcO _ (VnOut.exdS hcoreL) (nhHead '\x7d' _ (by decide))
                                  | exact hcoreL)
                          ·
                            dsimp only at h
                            split at h
                            · split at h
                              · exact Option.noConfusion h
                              · rename_i eF stF bF heqF
                                have hcoreF : VnOut st stF := by
                                  refine (VnOut.srcO _ (VnOut.srcO _ (base0) (nhHead 'i' _ (by decide))) (nhHead 'i' _ (by decide))).trans ((VnOut.varN (VnOut.triv _)).trans
                                    (ih _ _ _ _ _ ?_ heqF))
                                  rfl
                                repeat split at h
                                all_goals (
                                  injection h with h1;
                                  simp only [Prod.mk.injEq] at h1;
                                  obtain ⟨-, hst, -⟩ := h1;
                                  rw [← hst];
                                  first
                                  | exact VnOut.srcO _ (VnOut.exdS hcoreF) (nhHead '\x7d' _ (by decide))
                                  | exact hcoreF)
                            · split at h
                              · exact Option.noConfusion h
                              · rename_i eL stL bL heqL
                                have hcoreL : VnOut st stL := by
                                  refine (VnOut.srcO _ (VnOut.srcO _ (base0) (nhHead 'i' _ (by decide))) (nhHead 'i' _ (by decide))).trans ((VnOut.indS (VnOut.srcO _
                                    (VnOut.varN (VnOut.triv _)) (nhHead 's' _ (by decide)))).trans
                                    (ih _ _ _ _ _ ?_ heqL))
                                  rfl
                                repeat split at h
                                all_goals (
                                  injection h with h1;
                                  simp only [Prod.mk.injEq] at h1;
                                  obtain ⟨-, hst, -⟩ := h1;
                                  rw [← hst];
                                  first
                                  | exact VnOut.srcO _ (VnOut.exdS (VnOut.srcO _ (VnOut.exdS hcoreL) (nhHead '\x7d' _ (by decide)))) (nhHead '\x7d' _ (by decide))
                                  | exact VnOut.srcO _ (VnOut.exdS hcoreL) (nhHead '\x7d' _ (by decide))
                                  | exact hcoreL)
      · rw [if_neg hg] at h
        rcases hn1 : node.child "minItems" with _ | n1
        · rw [hn1] at h hg
          dsimp only at h
          rcases hn2 : node.child "maxItems" with _ | n2
          · rw [hn2] at h hg
            dsimp only at h
            split at h
            · injection h with h1
              simp only [Prod.mk.injEq] at h1
              obtain ⟨-, hst, -⟩ := h1
              rw [← hst]
              exact (VnOut.triv st)
            · rcases hit : node.child "items" with _ | n3
              · rw [hit] at h hg
                dsimp only at h
                repeat split at h
                all_goals (
                  injection h with h1;
                  simp only [Prod.mk.injEq] at h1;
                  obtain ⟨-, hst, -⟩ := h1;
                  rw [← hst];
                  first
                  | exact VnOut.srcO _ (VnOut.exdS (VnOut.triv st)) (nhHead '\x7d' _ (by decide))
                  | exact (VnOut.triv st))
              · rw [hit] at h hg
                dsimp only at h
                cases n3 with
                | ymap mp3 ml3 =>
                  dsimp only [varName] at h
                  split at h
                  · exact Option.noConfusion h
                  · rename_i r1 stV b1 heq1
                    have hcore : VnOut st stV := by
                      refine (VnOut.triv st).trans ((VnOut.indS (VnOut.srcO _
                        (VnOut.varN (VnOut.triv _))
                        (nhHead 'f' _ (by decide)))).trans
                        (ih _ _ _ _ _ ?_ heq1))
                      rfl
                    repeat split at h
                    all_goals (
                      injection h with h1;
                      simp only [Prod.mk.injEq] at h1;
                      obtain ⟨-, hst, -⟩ := h1;
                      rw [← hst];
                      first
                      | exact VnOut.srcO _ (VnOut.exdS (VnOut.srcO _ (VnOut.exdS hcore) (nhHead '\x7d' _ (by decide)))) (nhHead '\x7d' _ (by decide))
                      | exact VnOut.srcO _ (VnOut.exdS hcore) (nhHead '\x7d' _ (by decide))
                      | exact hcore)
                | ynull l3 =>
                  dsimp only at h
                  injection h with h1
                  simp only [Prod.mk.injEq] at h1
                  obtain ⟨-, hst, -⟩ := h1
                  rw [← hst]
                  exact (VnOut.triv st)
                | yscalar sc3 l3 =>
                  dsimp only at h
                  injection h with h1
                  simp only [Prod.mk.injEq] at h1
                  obtain ⟨-, hst, -⟩ := h1
                  rw [← hst]
                  exact (VnOut.triv st)
                | yseq its3 l3 =>
                  dsimp only [varName] at h
                  split at h
                  ·
                    dsimp only at h
                    split at h
                    · split at h
                      · exact Option.noConfusion h
                      · rename_i eF stF bF heqF
                        have hcoreF : VnOut st stF := by
                          refine (VnOut.triv st).trans ((VnOut.varN (VnOut.triv _)).trans
                            (ih _ _ _ _ _ ?_ heqF))
                          rfl
                        repeat split at h
                        all_goals (
                          injection h with h1;
                          simp only [Prod.mk.injEq] at h1;
                          obtain ⟨-, hst, -⟩ := h1;
                          rw [← hst];
                          first
                          | exact VnOut.srcO _ (VnOut.exdS hcoreF) (nhHead '\x7d' _ (by decide))
                          | exact hcoreF)
                    · split at h
                      · exact Option.noConfusion h
                      · rename_i eL stL bL heqL
                        have hcoreL : VnOut st stL := by
                          refine (VnOut.triv st).trans ((VnOut.indS (VnOut.srcO _
                            (VnOut.varN (VnOut.triv _)) (nhHead 's' _ (by decide)))).trans
                            (ih _ _ _ _ _ ?_ heqL))
                          rfl
                        repeat split at h
                        all_goals (
                          injection h with h1;
                          simp only [Prod.mk.injEq] at h1;
                          obtain ⟨-, hst, -⟩ := h1;
                          rw [← hst];
                          first
                          | exact VnOut.srcO _ (VnOut.exdS (VnOut.srcO _ (VnOut.exdS hcoreL) (nhHead '\x7d' _ (by decide)))) (nhHead '\x7d' _ (by decide))
                          | exact VnOut.srcO _ (VnOut.exdS hcoreL) (nhHead '\x7d' _ (by decide))
                          | exact hcoreL)
                  ·
                    dsimp only at h
                    split at h
                    · split at h
                      · exact Option.noConfusion h
                      · rename_i eF stF bF heqF
                        have hcoreF : VnOut st stF := by
                          refine (VnOut.triv st).trans ((VnOut.varN (VnOut.triv _)).trans
                            (ih _ _ _ _ _ ?_ heqF))
                          rfl
                        repeat split at h
                        all_goals (
                          injection h with h1;
                          simp only [Prod.mk.injEq] at h1;
                          obtain ⟨-, hst, -⟩ := h1;
                          rw [← hst];
                          first
                          | exact VnOut.srcO _ (VnOut.exdS hcoreF) (nhHead '\x7d' _ (by decide))
                          | exact hcoreF)
                    · split at h
                      · exact Option.noConfusion h
                      · rename_i eL stL bL heqL
                        have hcoreL : VnOut st stL := by
                          refine (VnOut.triv st).trans ((VnOut.indS (VnOut.srcO _
                            (VnOut.varN (VnOut.triv _)) (nhHead 's' _ (by decide)))).trans
                            (ih _ _ _ _ _ ?_ heqL))
                          rfl
                        repeat split at h
                        all_goals (
                          injection h with h1;
                          simp only [Prod.mk.injEq] at h1;
                          obtain ⟨-, hst, -⟩ := h1;
                          rw [← hst];
                          first
                          | exact VnOut.srcO _ (VnOut.exdS (VnOut.srcO _ (VnOut.exdS hcoreL) (nhHead '\x7d' _ (by decide)))) (nhHead '\x7d' _ (by decide))
                          | exact VnOut.srcO _ (VnOut.exdS hcoreL) (nhHead '\x7d' _ (by decide))
                          | exact hcoreL)
          · rw [hn2] at h hg
            dsimp only at h
            rcases hsv2 : svtoiM (trimWs (str n2.scalarStr)) with ⟨m2, k2⟩
            rw [hsv2] at h
            dsimp only at h
            split at h
            · rename_i eI stI hSumn2
              split at hSumn2
              · injection hSumn2 with hp
                simp only [Prod.mk.injEq] at hp
                obtain ⟨-, hp2⟩ := hp
                rw [← hp2] at h
                injection h with h1
                simp only [Prod.mk.injEq] at h1
                obtain ⟨-, hst, -⟩ := h1
                rw [← hst]
                exact (VnOut.triv st)
              · exact Sum.noConfusion hSumn2
            · rename_i maxI stq2 hSumn2
              split at hSumn2
              · exact Sum.noConfusion hSumn2
              · injection hSumn2 with hq
                simp only [Prod.mk.injEq] at hq
                obtain ⟨hq1, hq2⟩ := hq
                rw [← hq1, ← hq2] at h
                split at h
                · injection h with h1
                  simp only [Prod.mk.injEq] at h1
                  obtain ⟨-, hst, -⟩ := h1
                  rw [← hst]
                  exact (VnOut.srcO _ (VnOut.triv st) (nhHead 'i' _ (by decide)))
                · rcases hit : node.child "items" with _ | n3
                  · rw [hit] at h hg
                    dsimp only at h
                    repeat split at h
                    all_goals (
                      injection h with h1;
                      simp only [Prod.mk.injEq] at h1;
                      obtain ⟨-, hst, -⟩ := h1;
                      rw [← hst];
                      first
                      | exact VnOut.srcO _ (VnOut.exdS (VnOut.srcO _ (VnOut.triv st) (nhHead 'i' _ (by decide)))) (nhHead '\x7d' _ (by decide))
                      | exact (VnOut.srcO _ (VnOut.triv st) (nhHead 'i' _ (by decide))))
                  · rw [hit] at h hg
                    dsimp only at h
                    cases n3 with
                    | ymap mp3 ml3 =>
                      dsimp only [varName] at h
                      split at h
                      · exact Option.noConfusion h
                      · rename_i r1 stV b1 heq1
                        have hcore : VnOut st stV := by
                          refine (VnOut.srcO _ (VnOut.triv st) (nhHead 'i' _ (by decide))).trans ((VnOut.indS (VnOut.srcO _
                            (VnOut.varN (VnOut.triv _))
                            (nhHead 'f' _ (by decide)))).trans
                            (ih _ _ _ _ _ ?_ heq1))
                          rfl
                        repeat split at h
                        all_goals (
                          injection h with h1;
                          simp only [Prod.mk.injEq] at h1;
                          obtain ⟨-, hst, -⟩ := h1;
                          rw [← hst];
                          first
                          | exact VnOut.srcO _ (VnOut.exdS (VnOut.srcO _ (VnOut.exdS hcore) (nhHead '\x7d' _ (by decide)))) (nhHead '\x7d' _ (by decide))
                          | exact VnOut.srcO _ (VnOut.exdS hcore) (nhHead '\x7d' _ (by decide))
                          | exact hcore)
                    | ynull l3 =>
                      dsimp only at h
                      injection h with h1
                      simp only [Prod.mk.injEq] at h1
                      obtain ⟨-, hst, -⟩ := h1
                      rw [← hst]
                      exact (VnOut.srcO _ (VnOut.triv st) (nhHead 'i' _ (by decide)))
                    | yscalar sc3 l3 =>
                      dsimp only at h
                      injection h with h1
                      simp only [Prod.mk.injEq] at h1
                      obtain ⟨-, hst, -⟩ := h1
                      rw [← hst]
                      exact (VnOut.srcO _ (VnOut.triv st) (nhHead 'i' _ (by decide)))
                    | yseq its3 l3 =>
                      dsimp only [varName] at h
                      split at h
                      ·
                        dsimp only at h
                        split at h
                        · split at h
                          · exact Option.noConfusion h
                          · rename_i eF stF bF heqF
                            have hcoreF : VnOut st stF := by
                              refine (VnOut.srcO _ (VnOut.triv st) (nhHead 'i' _ (by decide))).trans ((VnOut.varN (VnOut.triv _)).trans
                                (ih _ _ _ _ _ ?_ heqF))
                              rfl
                            repeat split at h
                            all_goals (
                              injection h with h1;
                              simp only [Prod.mk.injEq] at h1;
                              obtain ⟨-, hst, -⟩ := h1;
                              rw [← hst];
                              first
                              | exact VnOut.srcO _ (VnOut.exdS hcoreF) (nhHead '\x7d' _ (by decide))
                              | exact hcoreF)
                        · split at h
                          · exact Option.noConfusion h
                          · rename_i eL stL bL heqL
                            have hcoreL : VnOut st stL := by
                              refine (VnOut.srcO _ (VnOut.triv st) (nhHead 'i' _ (by decide))).trans ((VnOut.indS (VnOut.srcO _
                                (VnOut.varN (VnOut.triv _)) (nhHead 's' _ (by decide)))).trans
                                (ih _ _ _ _ _ ?_ heqL))
                              rfl
                            repeat split at h
                            all_goals (
                              injection h with h1;
                              simp only [Prod.mk.injEq] at h1;
                              obtain ⟨-, hst, -⟩ := h1;
                              rw [← hst];
                              first
                              | exact VnOut.srcO _ (VnOut.exdS (VnOut.srcO _ (VnOut.exdS hcoreL) (nhHead '\x7d' _ (by decide)))) (nhHead '\x7d' _ (by decide))
                              | exact VnOut.srcO _ (VnOut.exdS hcoreL) (nhHead '\x7d' _ (by decide))
                              | exact hcoreL)
                      ·
                        dsimp only at h
                        split at h
                        · split at h
                          · exact Option.noConfusion h
                          · rename_i eF stF bF heqF
                            have hcoreF : VnOut st stF := by
                              refine (VnOut.srcO _ (VnOut.triv st) (nhHead 'i' _ (by decide))).trans ((VnOut.varN (VnOut.triv _)).trans
                                (ih _ _ _ _ _ ?_ heqF))
                              rfl
                            repeat split at h
                            all_goals (
                              injection h with h1;
                              simp only [Prod.mk.injEq] at h1;
                              obtain ⟨-, hst, -⟩ := h1;
                              rw [← hst];
                              first
                              | exact VnOut.srcO _ (VnOut.exdS hcoreF) (nhHead '\x7d' _ (by decide))
                              | exact hcoreF)
                        · split at h
                          · exact Option.noConfusion h
                          · rename_i eL stL bL heqL
                            have hcoreL : VnOut st stL := by
                              refine (VnOut.srcO _ (VnOut.triv st) (nhHead 'i' _ (by decide))).trans ((VnOut.indS (VnOut.srcO _
                                (VnOut.varN (VnOut.triv _)) (nhHead 's' _ (by decide)))).trans
                                (ih _ _ _ _ _ ?_ heqL))
                              rfl
                            repeat split at h
                            all_goals (
                              injection h with h1;
                              simp only [Prod.mk.injEq] at h1;
                              obtain ⟨-, hst, -⟩ := h1;
                              rw [← hst];
                              first
                              | exact VnOut.srcO _ (VnOut.exdS (VnOut.srcO _ (VnOut.exdS hcoreL) (nhHead '\x7d' _ (by decide)))) (nhHead '\x7d' _ (by decide))
                              | exact VnOut.srcO _ (VnOut.exdS hcoreL) (nhHead '\x7d' _ (by decide))
                              | exact hcoreL)
        · rw [hn1] at h hg
          dsimp only at h
          rcases hsv : svtoiM (trimWs (str n1.scalarStr)) with ⟨m, k⟩
          rw [hsv] at h
          dsimp only at h
          split at h
          · rename_i eI stI hSumn1
            split at hSumn1
            · injection hSumn1 with hp
              simp only [Prod.mk.injEq] at hp
              obtain ⟨-, hp2⟩ := hp
              rw [← hp2] at h
              injection h with h1
              simp only [Prod.mk.injEq] at h1
              obtain ⟨-, hst, -⟩ := h1
              rw [← hst]
              exact (VnOut.triv st)
            · exact Sum.noConfusion hSumn1
          · rename_i minI stq hSumn1
            split at hSumn1
            · exact Sum.noConfusion hSumn1
            · injection hSumn1 with hq
              simp only [Prod.mk.injEq] at hq
              obtain ⟨hq1, hq2⟩ := hq
              rw [← hq1, ← hq2] at h
              rcases hn2 : node.child "maxItems" with _ | n2
              · rw [hn2] at h hg
                dsimp only at h
                split at h
                · injection h with h1
                  simp only [Prod.mk.injEq] at h1
                  obtain ⟨-, hst, -⟩ := h1
                  rw [← hst]
                  exact (VnOut.srcO _ (VnOut.triv st) (nhHead 'i' _ (by decide)))
                · rcases hit : node.child "items" with _ | n3
                  · rw [hit] at h hg
                    dsimp only at h
                    repeat split at h
                    all_goals (
                      injection h with h1;
                      simp only [Prod.mk.injEq] at h1;
                      obtain ⟨-, hst, -⟩ := h1;
                      rw [← hst];
                      first
                      | exact VnOut.srcO _ (VnOut.exdS (VnOut.srcO _ (VnOut.triv st) (nhHead 'i' _ (by decide)))) (nhHead '\x7d' _ (by decide))
                      | exact (VnOut.srcO _ (VnOut.triv st) (nhHead 'i' _ (by decide))))
                  · rw [hit] at h hg
                    dsimp only at h
                    cases n3 with
                    | ymap mp3 ml3 =>
                      dsimp only [varName] at h
                      split at h
                      · exact Option.noConfusion h
                      · rename_i r1 stV b1 heq1
                        have hcore : VnOut st stV := by
                          refine (VnOut.srcO _ (VnOut.triv st) (nhHead 'i' _ (by decide))).trans ((VnOut.indS (VnOut.srcO _
                            (VnOut.varN (VnOut.triv _))
                            (nhHead 'f' _ (by decide)))).trans
                            (ih _ _ _ _ _ ?_ heq1))
                          rfl
                        repeat split at h
                        all_goals (
                          injection h with h1;
                          simp only [Prod.mk.injEq] at h1;
                          obtain ⟨-, hst, -⟩ := h1;
                          rw [← hst];
                          first
                          | exact VnOut.srcO _ (VnOut.exdS (VnOut.srcO _ (VnOut.exdS hcore) (nhHead '\x7d' _ (by decide)))) (nhHead '\x7d' _ (by decide))
                          | exact VnOut.srcO _ (VnOut.exdS hcore) (nhHead '\x7d' _ (by decide))
                          | exact hcore)
                    | ynull l3 =>
                      dsimp only at h
                      injection h with h1
                      simp only [Prod.mk.injEq] at h1
                      obtain ⟨-, hst, -⟩ := h1
                      rw [← hst]
                      exact (VnOut.srcO _ (VnOut.triv st) (nhHead 'i' _ (by decide)))
                    | yscalar sc3 l3 =>
                      dsimp only at h
                      injection h with h1
                      simp only [Prod.mk.injEq] at h1
                      obtain ⟨-, hst, -⟩ := h1
                      rw [← hst]
                      exact (VnOut.srcO _ (VnOut.triv st) (nhHead 'i' _ (by decide)))
                    | yseq its3 l3 =>
                      dsimp only [varName] at h
                      split at h
                      ·
                        dsimp only at h
                        split at h
                        · split at h
                          · exact Option.noConfusion h
                          · rename_i eF stF bF heqF
                            have hcoreF : VnOut st stF := by
                              refine (VnOut.srcO _ (VnOut.triv st) (nhHead 'i' _ (by decide))).trans ((VnOut.varN (VnOut.triv _)).trans
                                (ih _ _ _ _ _ ?_ heqF))
                              rfl
                            repeat split at h
                            all_goals (
                              injection h with h1;
                              simp only [Prod.mk.injEq] at h1;
                              obtain ⟨-, hst, -⟩ := h1;
                              rw [← hst];
                              first
                              | exact VnOut.srcO _ (VnOut.exdS hcoreF) (nhHead '\x7d' _ (by decide))
                              | exact hcoreF)
                        · split at h
                          · exact Option.noConfusion h
                          · rename_i eL stL bL heqL
                            have hcoreL : VnOut st stL := by
                              refine (VnOut.srcO _ (VnOut.triv st) (nhHead 'i' _ (by decide))).trans ((VnOut.indS (VnOut.srcO _
                                (VnOut.varN (VnOut.triv _)) (nhHead 's' _ (by decide)))).trans
                                (ih _ _ _ _ _ ?_ heqL))
                              rfl
                            repeat split at h
                            all_goals (
                              injection h with h1;
                              simp only [Prod.mk.injEq] at h1;
                              obtain ⟨-, hst, -⟩ := h1;
                              rw [← hst];
                              first
                              | exact VnOut.srcO _ (VnOut.exdS (VnOut.srcO _ (VnOut.exdS hcoreL) (nhHead '\x7d' _ (by decide)))) (nhHead '\x7d' _ (by decide))
                              | exact VnOut.srcO _ (VnOut.exdS hcoreL) (nhHead '\x7d' _ (by decide))
                              | exact hcoreL)
                      ·
                        dsimp only at h
                        split at h
                        · split at h
                          · exact Option.noConfusion h
                          · rename_i eF stF bF heqF
                            have hcoreF : VnOut st stF := by
                              refine (VnOut.srcO _ (VnOut.triv st) (nhHead 'i' _ (by decide))).trans ((VnOut.varN (VnOut.triv _)).trans
                                (ih _ _ _ _ _ ?_ heqF))
                              rfl
                            repeat split at h
                            all_goals (
                              injection h with h1;
                              simp only [Prod.mk.injEq] at h1;
                              obtain ⟨-, hst, -⟩ := h1;
                              rw [← hst];
                              first
                              | exact VnOut.srcO _ (VnOut.exdS hcoreF) (nhHead '\x7d' _ (by decide))
                              | exact hcoreF)
                        · split at h
                          · exact Option.noConfusion h
                          · rename_i eL stL bL heqL
                            have hcoreL : VnOut st stL := by
                              refine (VnOut.srcO _ (VnOut.triv st) (nhHead 'i' _ (by decide))).trans ((VnOut.indS (VnOut.srcO _
                                (VnOut.varN (VnOut.triv _)) (nhHead 's' _ (by decide)))).trans
                                (ih _ _ _ _ _ ?_ heqL))
                              rfl
                            repeat split at h
                            all_goals (
                              injection h with h1;
                              simp only [Prod.mk.injEq] at h1;
                              obtain ⟨-, hst, -⟩ := h1;
                              rw [← hst];
                              first
                              | exact VnOut.srcO _ (VnOut.exdS (VnOut.srcO _ (VnOut.exdS hcoreL) (nhHead '\x7d' _ (by decide)))) (nhHead '\x7d' _ (by decide))
                              | exact VnOut.srcO _ (VnOut.exdS hcoreL) (nhHead '\x7d' _ (by decide))
                              | exact hcoreL)
              · rw [hn2] at h hg
                dsimp only at h
                rcases hsv2 : svtoiM (trimWs (str n2.scalarStr)) with ⟨m2, k2⟩
                rw [hsv2] at h
                dsimp only at h
                split at h
                · rename_i eI stI hSumn2
                  split at hSumn2
                  · injection hSumn2 with hp
                    simp only [Prod.mk.injEq] at hp
                    obtain ⟨-, hp2⟩ := hp
                    rw [← hp2] at h
                    injection h with h1
                    simp only [Prod.mk.injEq] at h1
                    obtain ⟨-, hst, -⟩ := h1
                    rw [← hst]
                    exact (VnOut.srcO _ (VnOut.triv st) (nhHead 'i' _ (by decide)))
                  · exact Sum.noConfusion hSumn2
                · rename_i maxI stq2 hSumn2
                  split at hSumn2
                  · exact Sum.noConfusion hSumn2
                  · injection hSumn2 with hq
                    simp only [Prod.mk.injEq] at hq
                    obtain ⟨hq1, hq2⟩ := hq
                    rw [← hq1, ← hq2] at h
                    split at h
                    · injection h with h1
                      simp only [Prod.mk.injEq] at h1
                      obtain ⟨-, hst, -⟩ := h1
                      rw [← hst]
                      exact (VnOut.srcO _ (VnOut.srcO _ (VnOut.triv st) (nhHead 'i' _ (by decide))) (nhHead 'i' _ (by decide)))
                    · rcases hit : node.child "items" with _ | n3
                      · rw [hit] at h hg
                        dsimp only at h
                        repeat split at h
                        all_goals (
                          injection h with h1;
                          simp only [Prod.mk.injEq] at h1;
                          obtain ⟨-, hst, -⟩ := h1;
                          rw [← hst];
                          first
                          | exact VnOut.srcO _ (VnOut.exdS (VnOut.srcO _ (VnOut.srcO _ (VnOut.triv st) (nhHead 'i' _ (by decide))) (nhHead 'i' _ (by decide)))) (nhHead '\x7d' _ (by decide))
                          | exact (VnOut.srcO _ (VnOut.srcO _ (VnOut.triv st) (nhHead 'i' _ (by decide))) (nhHead 'i' _ (by decide))))
                      · rw [hit] at h hg
                        dsimp only at h
                        cases n3 with
                        | ymap mp3 ml3 =>
                          dsimp only [varName] at h
                          split at h
                          · exact Option.noConfusion h
                          · rename_i r1 stV b1 heq1
                            have hcore : VnOut st stV := by
                              refine (VnOut.srcO _ (VnOut.srcO _ (VnOut.triv st) (nhHead 'i' _ (by decide))) (nhHead 'i' _ (by decide))).trans ((VnOut.indS (VnOut.srcO _
                                (VnOut.varN (VnOut.triv _))
                                (nhHead 'f' _ (by decide)))).trans
                                (ih _ _ _ _ _ ?_ heq1))
                              rfl
                            repeat split at h
                            all_goals (
                              injection h with h1;
                              simp only [Prod.mk.injEq] at h1;
                              obtain ⟨-, hst, -⟩ := h1;
                              rw [← hst];
                              first
                              | exact VnOut.srcO _ (VnOut.exdS (VnOut.srcO _ (VnOut.exdS hcore) (nhHead '\x7d' _ (by decide)))) (nhHead '\x7d' _ (by decide))
                              | exact VnOut.srcO _ (VnOut.exdS hcore) (nhHead '\x7d' _ (by decide))
                              | exact hcore)
                        | ynull l3 =>
                          dsimp only at h
                          injection h with h1
                          simp only [Prod.mk.injEq] at h1
                          obtain ⟨-, hst, -⟩ := h1
                          rw [← hst]
                          exact (VnOut.srcO _ (VnOut.srcO _ (VnOut.triv st) (nhHead 'i' _ (by decide))) (nhHead 'i' _ (by decide)))
                        | yscalar sc3 l3 =>
                          dsimp only at h
                          injection h with h1
                          simp only [Prod.mk.injEq] at h1
                          obtain ⟨-, hst, -⟩ := h1
                          rw [← hst]
                          exact (VnOut.srcO _ (VnOut.srcO _ (VnOut.triv st) (nhHead 'i' _ (by decide))) (nhHead 'i' _ (by decide)))
                        | yseq its3 l3 =>
                          dsimp only [varName] at h
                          split at h
                          ·
                            dsimp only at h
                            split at h
                            · split at h
                              · exact Option.noConfusion h
                              · rename_i eF stF bF heqF
                                have hcoreF : VnOut st stF := by
                                  refine (VnOut.srcO _ (VnOut.srcO _ (VnOut.triv st) (nhHead 'i' _ (by decide))) (nhHead 'i' _ (by decide))).trans ((VnOut.varN (VnOut.triv _)).trans
                                    (ih _ _ _ _ _ ?_ heqF))
                                  rfl
                                repeat split at h
                                all_goals (
                                  injection h with h1;
                                  simp only [Prod.mk.injEq] at h1;
                                  obtain ⟨-, hst, -⟩ := h1;
                                  rw [← hst];
                                  first
                                  | exact VnOut.srcO _ (VnOut.exdS hcoreF) (nhHead '\x7d' _ (by decide))
                                  | exact hcoreF)
                            · split at h
                              · exact Option.noConfusion h
                              · rename_i eL stL bL heqL
                                have hcoreL : VnOut st stL := by
                                  refine (VnOut.srcO _ (VnOut.srcO _ (VnOut.triv st) (nhHead 'i' _ (by decide))) (nhHead 'i' _ (by decide))).trans ((VnOut.indS (VnOut.srcO _
                                    (VnOut.varN (VnOut.triv _)) (nhHead 's' _ (by decide)))).trans
                                    (ih _ _ _ _ _ ?_ heqL))
                                  rfl
                                repeat split at h
                                all_goals (
                                  injection h with h1;
                                  simp only [Prod.mk.injEq] at h1;
                                  obtain ⟨-, hst, -⟩ := h1;
                                  rw [← hst];
                                  first
                                  | exact VnOut.srcO _ (VnOut.exdS (VnOut.srcO _ (VnOut.exdS hcoreL) (nhHead '\x7d' _ (by decide)))) (nhHead '\x7d' _ (by decide))
                                  | exact VnOut.srcO _ (VnOut.exdS hcoreL) (nhHead '\x7d' _ (by decide))
                                  | exact hcoreL)
                          ·
                            dsimp only at h
                            split at h
                            · split at h
                              · exact Option.noConfusion h
                              · rename_i eF stF bF heqF
                                have hcoreF : VnOut st stF := by
                                  refine (VnOut.srcO _ (VnOut.srcO _ (VnOut.triv st) (nhHead 'i' _ (by decide))) (nhHead 'i' _ (by decide))).trans ((VnOut.varN (VnOut.triv _)).trans
                                    (ih _ _ _ _ _ ?_ heqF))
                                  rfl
                                repeat split at h
                                all_goals (
                                  injection h with h1;
                                  simp only [Prod.mk.injEq] at h1;
                                  obtain ⟨-, hst, -⟩ := h1;
                                  rw [← hst];
                                  first
                                  | exact VnOut.srcO _ (VnOut.exdS hcoreF) (nhHead '\x7d' _ (by decide))
                                  | exact hcoreF)
                            · split at h
                              · exact Option.noConfusion h
                              · rename_i eL stL bL heqL
                                have hcoreL : VnOut st stL := by
                                  refine (VnOut.srcO _ (VnOut.srcO _ (VnOut.triv st) (nhHead 'i' _ (by decide))) (nhHead 'i' _ (by decide))).trans ((VnOut.indS (VnOut.srcO _
                                    (VnOut.varN (VnOut.triv _)) (nhHead 's' _ (by decide)))).trans
                                    (ih _ _ _ _ _ ?_ heqL))
                                  rfl
                                repeat split at h
                                all_goals (
                                  injection h with h1;
                                  simp only [Prod.mk.injEq] at h1;
                                  obtain ⟨-, hst, -⟩ := h1;
                                  rw [← hst];
                                  first
                                  | exact VnOut.srcO _ (VnOut.exdS (VnOut.srcO _ (VnOut.exdS hcoreL) (nhHead '\x7d' _ (by decide)))) (nhHead '\x7d' _ (by decide))
                                  | exact VnOut.srcO _ (VnOut.exdS hcoreL) (nhHead '\x7d' _ (by decide))
                                  | exact hcoreL)
    | pAny node var =>
      dsimp only at h
      cases node with
      | yseq ss l =>
        dsimp only at h
        split at h
        · injection h with h1
          simp only [Prod.mk.injEq] at h1
          obtain ⟨-, hst, -⟩ := h1
          rw [← hst]
          exact VnOut.triv st
        · dsimp only [varName] at h
          split at h
          · exact Option.noConfusion h
          · rename_i eL stL bL heqL
            have hcore : VnOut st stL := by
              refine (VnOut.indS (VnOut.srcO _
                (VnOut.varN (VnOut.triv st))
                (nhHead '/' _ (by decide)))).trans
                (ih _ _ _ _ _ ?_ heqL)
              rfl
            split at h
            · injection h with h1
              simp only [Prod.mk.injEq] at h1
              obtain ⟨-, hst, -⟩ := h1
              rw [← hst]
              exact hcore
            · injection h with h1
              simp only [Prod.mk.injEq] at h1
              obtain ⟨-, hst, -⟩ := h1
              rw [← hst]
              exact VnOut.srcO _ (VnOut.exdS (VnOut.srcO _ (VnOut.indS
                (VnOut.srcO _ (VnOut.srcO _ (VnOut.exdS hcore)
                  (nhHead '\x7d' _ (by decide))) (nhHead 'i' _ (by decide))))
                (nhHead 'e' _ (by decide)))) (nhHead '\x7d' _ (by decide))
      | ynull l =>
        dsimp only at h
        injection h with h1
        simp only [Prod.mk.injEq] at h1
        obtain ⟨-, hst, -⟩ := h1
        rw [← hst]
        exact VnOut.triv st
      | yscalar sc l =>
        dsimp only at h
        injection h with h1
        simp only [Prod.mk.injEq] at h1
        obtain ⟨-, hst, -⟩ := h1
        rw [← hst]
        exact VnOut.triv st
      | ymap pairs l =>
        dsimp only at h
        injection h with h1
        simp only [Prod.mk.injEq] at h1
        obtain ⟨-, hst, -⟩ := h1
        rw [← hst]
        exact VnOut.triv st
    | pOne node var =>
      dsimp only at h
      cases node with
      | yseq ss l =>
        dsimp only at h
        split at h
        · injection h with h1
          simp only [Prod.mk.injEq] at h1
          obtain ⟨-, hst, -⟩ := h1
          rw [← hst]
          exact VnOut.same _ (VnOut.triv st) rfl rfl
        · dsimp only [varName] at h
          split at h
          · exact Option.noConfusion h
          · rename_i eL stL bL heqL
            have hcore : VnOut st stL := by
              refine (VnOut.indS (VnOut.srcO _
                (VnOut.varN (VnOut.triv st))
                (nhHead '/' _ (by decide)))).trans
                (ih _ _ _ _ _ ?_ heqL)
              rfl
            injection h with h1
            simp only [Prod.mk.injEq] at h1
            obtain ⟨-, hst, -⟩ := h1
            rw [← hst]
            exact (VnOut.srcO _ (VnOut.exdS (VnOut.srcO _ (VnOut.indS (VnOut.srcO _ (VnOut.srcO _ (VnOut.exdS (VnOut.srcO _ (VnOut.exdS (VnOut.srcO _ (VnOut.indS (VnOut.srcO _ (VnOut.indS (VnOut.srcO _ (VnOut.srcO _ (VnOut.exdS hcore) (nhHead '\x7d' _ (by decide))) (nhHead 'u' _ (by decide)))) (nhHead 'i' _ (by decide)))) (nhHead 'e' _ (by decide)))) (nhHead '\x7d' _ (by decide)))) (nhHead '\x7d' _ (by decide))) (nhHead 'i' _ (by decide)))) (nhHead 'e' _ (by decide)))) (nhHead '\x7d' _ (by decide)))
      | ynull l =>
        injection h with h1
        simp only [Prod.mk.injEq] at h1
        obtain ⟨-, hst, -⟩ := h1
        rw [← hst]
        exact VnOut.same _ (VnOut.triv st) rfl rfl
      | yscalar sc l =>
        injection h with h1
        simp only [Prod.mk.injEq] at h1
        obtain ⟨-, hst, -⟩ := h1
        rw [← hst]
        exact VnOut.same _ (VnOut.triv st) rfl rfl
      | ymap pairs l =>
        injection h with h1
        simp only [Prod.mk.injEq] at h1
        obtain ⟨-, hst, -⟩ := h1
        rw [← hst]
        exact VnOut.same _ (VnOut.triv st) rfl rfl
    | objProps nvar var pairs =>
      dsimp only at h
      cases pairs with
      | nil =>
        injection h with h1
        simp only [Prod.mk.injEq] at h1
        obtain ⟨-, hst, -⟩ := h1
        rw [← hst]
        exact VnOut.triv st
      | cons kv rest =>
        rcases kv with ⟨k, v⟩
        dsimp only at h
        split at h
        · exact Option.noConfusion h
        · rename_i r1 stV b1 heq1
          have hcore : VnOut st stV :=
            (VnOut.srcO _ (VnOut.indS (VnOut.srcO _ (VnOut.triv st)
              (nhHead 'i' _ (by decide)))) (nhHead 'a' _ (by decide))).trans
              (ih _ _ _ _ _ (by exact rfl) heq1)
          exact (VnOut.srcO _ (VnOut.exdS hcore)
            (nhHead '\x7d' _ (by decide))).trans (ih _ _ _ _ _ (by exact rfl) h)
    | anyLoop ss anyLine zret =>
      dsimp only at h
      cases ss with
      | nil =>
        injection h with h1
        simp only [Prod.mk.injEq] at h1
        obtain ⟨-, hst, -⟩ := h1
        rw [← hst]
        exact VnOut.triv st
      | cons s1 rest =>
        dsimp only at h
        split at h
        · exact Option.noConfusion h
        · rename_i r1 stV b1 heq1
          have hcore : VnOut st stV :=
            (VnOut.indS (VnOut.srcO _ (VnOut.triv st)
              (nhHead '[' _ (by decide)))).trans (ih _ _ _ _ _ (by exact rfl) heq1)
          split at h
          · exact (VnOut.srcO _ (VnOut.exdS (VnOut.srcO _ hcore
              (nhHead 'r' _ (by decide)))) (nhHead '\x7d' _ (by decide))).trans
              (ih _ _ _ _ _ (by exact rfl) h)
          · split at h
            · injection h with h1
              simp only [Prod.mk.injEq] at h1
              obtain ⟨-, hst, -⟩ := h1
              rw [← hst]
              exact hcore
            · exact (VnOut.srcO _ (VnOut.exdS (VnOut.srcO _ hcore
                (nhHead 'r' _ (by decide)))) (nhHead '\x7d' _ (by decide))).trans
                (ih _ _ _ _ _ (by exact rfl) h)
    | oneLoop ss =>
      dsimp only at h
      cases ss with
      | nil =>
        injection h with h1
        simp only [Prod.mk.injEq] at h1
        obtain ⟨-, hst, -⟩ := h1
        rw [← hst]
        exact VnOut.triv st
      | cons s1 rest =>
        dsimp only at h
        split at h
        · exact Option.noConfusion h
        · rename_i r1 stV b1 heq1
          have hcore : VnOut st stV :=
            (VnOut.indS (VnOut.srcO _ (VnOut.triv st)
              (nhHead '[' _ (by decide)))).trans (ih _ _ _ _ _ (by exact rfl) heq1)
          exact (VnOut.srcO _ (VnOut.exdS (VnOut.srcO _ hcore
            (nhHead 'r' _ (by decide)))) (nhHead '\x7d' _ (by decide))).trans
            (ih _ _ _ _ _ (by exact rfl) h)
    | tupFlat ss nvar zret =>
      dsimp only at h
      cases ss with
      | nil =>
        injection h with h1
        simp only [Prod.mk.injEq] at h1
        obtain ⟨-, hst, -⟩ := h1
        rw [← hst]
        exact VnOut.triv st
      | cons s1 rest =>
        dsimp only at h
        split at h
        · exact Option.noConfusion h
        · rename_i r1 stV b1 heq1
          have hcore : VnOut st stV := ih _ _ _ _ _ (by exact rfl) heq1
          split at h
          · injection h with h1
            simp only [Prod.mk.injEq] at h1
            obtain ⟨-, hst, -⟩ := h1
            rw [← hst]
            exact hcore
          · exact hcore.trans (ih _ _ _ _ _ (by exact rfl) h)
    | tupLoop ss idx nvar var itemsLine zret =>
      dsimp only at h
      cases ss with
      | nil =>
        injection h with h1
        simp only [Prod.mk.injEq] at h1
        obtain ⟨-, hst, -⟩ := h1
        rw [← hst]
        exact VnOut.triv st
      | cons s1 rest =>
        dsimp only at h
        split at h
        · exact Option.noConfusion h
        · rename_i r1 stV b1 heq1
          have hcore : VnOut st stV :=
            (VnOut.srcO _ (VnOut.indS (VnOut.srcO _ (VnOut.triv st)
              (nhHead 'c' _ (by decide)))) (nhHead 'a' _ (by decide))).trans
              (ih _ _ _ _ _ (by exact rfl) heq1)
          split at h
          · injection h with h1
            simp only [Prod.mk.injEq] at h1
            obtain ⟨-, hst, -⟩ := h1
            rw [← hst]
            exact hcore
          · exact (VnOut.exdS (VnOut.srcO _ hcore
              (nhHead '\x7d' _ (by decide)))).trans (ih _ _ _ _ _ (by exact rfl) h)
    | pdefs n => exact Bool.noConfusion hfam
    | pdList ns acc => exact Bool.noConfusion hfam

/-- The index-binding line of a tuple-dispatch case arm (canner.cc line
680). -/
def bindChars (nvar var : String) (idx : Nat) : List Char :=
  str "auto " ++ str nvar ++ str " = " ++ str var ++ str "[" ++
    natChars idx ++ str "];\n"

/-- The switch opener of the tuple dispatch (canner.cc line 676). -/
def switchChars (var : String) : List Char :=
  str "switch (" ++ str var ++ str ".size()) \x7b\n"

/-- Claim-side shape of the emitted dispatch: one case arm (opener,
index binding, some body, closing brace) for each schema of the
sequence, indices counting up. -/
def armsFrom (nvar var : String) : Nat → List YNode → List (Int × List Char) → Prop
  | _, [], evs => evs = []
  | idx, _ :: rest, evs =>
    ∃ (i1 i2 i3 : Int) (body tail : List (Int × List Char)),
      evs = (i1, caseArmChars) :: (i2, bindChars nvar var idx) ::
        (body ++ (i3, str "\x7d\n") :: tail) ∧
      armsFrom nvar var (idx + 1) rest tail

/-- The tuple loop only appends to the accumulated diagnostics. -/
theorem tupLoop_zpre (root : YNode) :
    ∀ fuel ss idx nvar var il zret st e st2 b,
    step root fuel (.tupLoop ss idx nvar var il zret) st = some (e, st2, b) →
    ∃ erest, e = zret ++ erest := by
  intro fuel
  induction fuel with
  | zero => intro ss idx nvar var il zret st e st2 b h; exact absurd h (by simp [step])
  | succ f ih =>
    intro ss idx nvar var il zret st e st2 b h
    rw [step.eq_def] at h
    dsimp only at h
    cases ss with
    | nil =>
      dsimp only at h
      injection h with h1
      simp only [Prod.mk.injEq] at h1
      obtain ⟨he, -, -⟩ := h1
      exact ⟨[], by rw [← he]; simp⟩
    | cons s1 rest =>
      dsimp only at h
      split at h
      · exact Option.noConfusion h
      · rename_i r1 stV b1 heq1
        split at h
        · injection h with h1
          simp only [Prod.mk.injEq] at h1
          obtain ⟨he, -, -⟩ := h1
          refine ⟨r1 ++ [⟨(zret.merge r1).severity,
            str "Failed to process value " ++ natChars idx ++
              str " at line " ++ natChars il ++ str " for \x27type\x27."⟩], ?_⟩
          rw [← he]
          simp [Errata.merge, Errata.push, List.append_assoc]
        · obtain ⟨erest, hpre⟩ := ih rest (idx + 1) nvar var il _ _ e st2 b h
          exact ⟨r1 ++ erest, by rw [hpre]; simp [Errata.merge, List.append_assoc]⟩

/-- A completed (non-early) tuple loop emits exactly one case arm per
schema of the full sequence, in index order. -/
theorem tupLoop_arms (root : YNode) :
    ∀ fuel ss idx nvar var il zret st e st2,
    step root fuel (.tupLoop ss idx nvar var il zret) st = some (e, st2, false) →
    ∃ added, st2.src = st.src ++ added ∧ armsFrom nvar var idx ss added := by
  intro fuel
  induction fuel with
  | zero => intro ss idx nvar var il zret st e st2 h; exact absurd h (by simp [step])
  | succ f ih =>
    intro ss idx nvar var il zret st e st2 h
    rw [step.eq_def] at h
    dsimp only at h
    cases ss with
    | nil =>
      dsimp only at h
      injection h with h1
      simp only [Prod.mk.injEq] at h1
      obtain ⟨-, hst, -⟩ := h1
      exact ⟨[], by rw [← hst]; simp, rfl⟩
    | cons s1 rest =>
      dsimp only at h
      split at h
      · exact Option.noConfusion h
      · rename_i r1 stV b1 heq1
        split at h
        · injection h with h1
          simp only [Prod.mk.injEq] at h1
          obtain ⟨-, -, hbf⟩ := h1
          exact absurd hbf (by decide)
        · obtain ⟨tail, htail, harms⟩ :=
            ih rest (idx + 1) nvar var il _ _ e st2 h
          obtain ⟨-, body, hbody, -⟩ :=
            step_vnOut root f (.vn s1 nvar) _ _ _ _ rfl heq1
          refine ⟨(st.srcInd, caseArmChars) ::
            (st.srcInd + 1, bindChars nvar var idx) ::
            (body ++ (stV.srcInd, str "\x7d\n") :: tail), ?_, ?_⟩
          · have h2 : st2.src =
                (stV.src ++ [(stV.srcInd, str "\x7d\n")]) ++ tail := htail
            rw [h2, hbody]
            show ((((st.src ++ [(st.srcInd, caseArmChars)]) ++
              [(st.srcInd + 1, bindChars nvar var idx)]) ++ body) ++
              [(stV.srcInd, str "\x7d\n")]) ++ tail = _
            simp [List.append_assoc]
          · exact ⟨st.srcInd, st.srcInd + 1, stV.srcInd, body, tail, rfl, harms⟩

/-- An early-returning tuple loop carries an ERROR-level result. -/
theorem tupLoop_early_sev (root : YNode) :
    ∀ fuel ss idx nvar var il zret st e st2,
    step root fuel (.tupLoop ss idx nvar var il zret) st = some (e, st2, true) →
    Sev.error.rank ≤ e.severity.rank := by
  intro fuel
  induction fuel with
  | zero => intro ss idx nvar var il zret st e st2 h; exact absurd h (by simp [step])
  | succ f ih =>
    intro ss idx nvar var il zret st e st2 h
    rw [step.eq_def] at h
    dsimp only at h
    cases ss with
    | nil =>
      dsimp only at h
      injection h with h1
      simp only [Prod.mk.injEq] at h1
      obtain ⟨-, -, hb⟩ := h1
      exact absurd hb (by decide)
    | cons s1 rest =>
      dsimp only at h
      split at h
      · exact Option.noConfusion h
      · rename_i r1 stV b1 heq1
        split at h
        · rename_i hrank
          injection h with h1
          simp only [Prod.mk.injEq] at h1
          obtain ⟨he, -, -⟩ := h1
          rw [← he]
          show Sev.error.rank ≤ (Errata.severity (((zret.merge r1)).push
            ((zret.merge r1)).severity _)).rank
          rw [Errata.push, severity_append_note]
          exact le_trans hrank (le_max_left _ _)
        · exact ih rest (idx + 1) nvar var il _ _ e st2 h

set_option maxHeartbeats 1600000 in
/-- C5 amended: with a tuple `items` of `ss.length` schemas and
`maxItems` parsing to `M ≤ ss.length` (and `0 < M`, no `minItems`), the
walker records the "Extra schemas ignored" WARN; but whenever the
result is not ERROR-level, the emitted dispatch on `var.size()`
contains one stacked case arm (opener, index binding, body, close) for
EVERY schema of the sequence in index order — the schemas beyond the
reduced limit are not ignored. -/
theorem c5_amended
    (root : YNode) (fuel : Nat) (var : String) (st : CtxSt)
    (pairs : List (String × YNode)) (l isl lM : Nat) (sM : String)
    (ss : List YNode) (M : Int) (e : Errata) (st2 : CtxSt) (early : Bool)
    (hmin : ylookup pairs "minItems" = none)
    (hmax : ylookup pairs "maxItems" = some (.yscalar sM lM))
    (hpM1 : (svtoiM (trimWs (str sM))).1 = M)
    (hpM2 : (svtoiM (trimWs (str sM))).2 = (trimWs (str sM)).length)
    (hM0 : 0 ≤ M)
    (hit : ylookup pairs "items" = some (.yseq ss isl))
    (hge : (ss.length : Int) ≥ M)
    (hpos : ¬ ((M.toNat : Int) ≤ 0))
    (hres : process_array_value root (fuel + 1) (.ymap pairs l) var
      [.tArray] st = some (e, st2, early)) :
    (∃ w ∈ e, w.sev = Sev.warn ∧
      ∃ pre, w.text = pre ++ str ". Extra schemas ignored.") ∧
    (e.severity.rank < Sev.error.rank →
      ∃ (added : List (Int × List Char)) (iEnd : Int),
        st2.src = st.src ++ (st.srcInd, maxItemsCheckChars var M.toNat) ::
          (st.srcInd, switchChars var) :: (added ++ [(iEnd, str "\x7d\n")]) ∧
        armsFrom ("node_" ++ Nat.repr st.varIdx) var 0 ss added) := by
  have hM' : decide (M < 0) = false := decide_eq_false (by omega)
  have htc : (tyCount [SchemaType.tArray] == 1) = true := by decide
  unfold process_array_value step at hres
  simp only [YNode.child, hmin, hmax, hit, YNode.scalarStr, YNode.line,
    hpM1, hpM2, hM', ne_eq, decide_not, Option.isSome_some, Option.isSome_none,
    htc, Bool.not_true, Bool.false_and, Bool.or_true, Bool.and_true,
    Bool.or_false, Bool.not_not, decide_True, Bool.false_or, Bool.or_self,
    varName] at hres
  simp only [Bool.false_eq_true, if_false] at hres
  rw [if_neg (by omega : ¬ M < 0)] at hres
  rw [if_pos hge] at hres
  dsimp only at hres
  rw [if_neg hpos] at hres
  split at hres
  · exact Option.noConfusion hres
  · rename_i eL stL bL heqL
    cases bL with
    | true =>
      injection hres with h1
      simp only [Prod.mk.injEq] at h1
      obtain ⟨he, hst, -⟩ := h1
      obtain ⟨erest, hz⟩ := tupLoop_zpre root fuel ss 0 _ _ _ _ _ _ _ _ heqL
      constructor
      · rw [← he, hz]
        exact ⟨_, List.mem_append_left _ (List.mem_singleton_self _),
          rfl, _, rfl⟩
      · intro hsev
        exfalso
        have hrk := tupLoop_early_sev root fuel ss 0 _ _ _ _ _ _ _ heqL
        rw [← he] at hsev
        omega
    | false =>
      obtain ⟨erest, hz⟩ := tupLoop_zpre root fuel ss 0 _ _ _ _ _ _ _ _ heqL
      obtain ⟨added, haddsrc, harms⟩ :=
        tupLoop_arms root fuel ss 0 _ _ _ _ _ _ _ heqL
      split at hres
      · rename_i hcontra
        exact absurd hcontra (by decide)
      split at hres
      · injection hres with h1
        simp only [Prod.mk.injEq] at h1
        obtain ⟨he, hst, -⟩ := h1
        constructor
        · rw [← he, hz]
          exact ⟨_, List.mem_append_left _ (List.mem_singleton_self _),
            rfl, _, rfl⟩
        · intro _
          refine ⟨added, stL.srcInd - 1, ?_, harms⟩
          rw [← hst]
          show stL.src ++ [(stL.srcInd - 1, str "\x7d\n")] = _
          rw [haddsrc]
          show (((st.src ++ [(st.srcInd, maxItemsCheckChars var M.toNat)]) ++
            [(st.srcInd, switchChars var)]) ++ added) ++ _ = _
          simp [List.append_assoc]
      · injection hres with h1
        simp only [Prod.mk.injEq] at h1
        obtain ⟨he, hst, -⟩ := h1
        constructor
        · rw [← he]
          rw [Errata.push]
          rw [hz]
          refine ⟨_, List.mem_append_left _
            (List.mem_append_left _ (List.mem_singleton_self _)),
            rfl, _, rfl⟩
        · intro _
          refine ⟨added, stL.srcInd - 1, ?_, harms⟩
          rw [← hst]
          show stL.src ++ [(stL.srcInd - 1, str "\x7d\n")] = _
          rw [haddsrc]
          show (((st.src ++ [(st.srcInd, maxItemsCheckChars var M.toNat)]) ++
            [(st.srcInd, switchChars var)]) ++ added) ++ _ = _
          simp [List.append_assoc]

/-- Witness for the amended C5 theorem at the concrete document
`c5Doc` (four positional schemas, `maxItems: 3`). -/
theorem c5_amended_witness :
    ((4 : Int) ≥ 3) ∧
    ∃ e st2 early,
      process_array_value (.ynull 0) (99 + 1) c5Doc "node" [.tArray]
        CtxSt.init = some (e, st2, early) ∧
      ((∃ w ∈ e, w.sev = Sev.warn ∧
        ∃ pre, w.text = pre ++ str ". Extra schemas ignored.") ∧
      (e.severity.rank < Sev.error.rank →
        ∃ (added : List (Int × List Char)) (iEnd : Int),
          st2.src = CtxSt.init.src ++
            (CtxSt.init.srcInd, maxItemsCheckChars "node" (3 : Int).toNat) ::
            (CtxSt.init.srcInd, switchChars "node") ::
            (added ++ [(iEnd, str "\x7d\n")]) ∧
          armsFrom ("node_" ++ Nat.repr CtxSt.init.varIdx) "node" 0
            [c5Item 0, c5Item 1, c5Item 2, c5Item 3] added)) := by
  obtain ⟨e0, st0, b0, heq⟩ : ∃ e st2 early,
      process_array_value (.ynull 0) (99 + 1) c5Doc "node" [.tArray]
        CtxSt.init = some (e, st2, early) := ⟨_, _, _, rfl⟩
  exact ⟨by decide, e0, st0, b0, heq,
    c5_amended (.ynull 0) 99 "node" CtxSt.init
      [("type", .yscalar "array" 1), ("maxItems", .yscalar "3" 2),
        ("items", .yseq [c5Item 0, c5Item 1, c5Item 2, c5Item 3] 3)]
      1 3 2 "3" [c5Item 0, c5Item 1, c5Item 2, c5Item 3] 3 e0 st0 b0
      rfl rfl (by decide) (by decide) (by decide) rfl (by decide)
      (by decide) heq⟩

/-- Rendering a string to its character list is injective. -/
theorem str_inj (a b : String) (h : str a = str b) : a = b := by
  cases a
  cases b
  simp only [str, String.toList] at h
  rw [h]

/-- Two definition-function headers are equal exactly when the
generated names are. -/
theorem mkHeader_beq (f g : String) :
    (mkHeader f == mkHeader g) = (f == g) := by
  by_cases hfg : f = g
  · subst hfg
    simp
  · have h1 : mkHeader f ≠ mkHeader g := by
      intro he
      apply hfg
      have h2 : str "bool Schema::Definitions::" ++ (str f ++
          str " (swoc::Errata &erratum, YAML::Node const& node, std::string_view const& name) \x7b\n") =
          str "bool Schema::Definitions::" ++ (str g ++
          str " (swoc::Errata &erratum, YAML::Node const& node, std::string_view const& name) \x7b\n") := by
        simpa [mkHeader, List.append_assoc] using he
      have h3 := List.append_cancel_left h2
      have h4 := List.append_cancel_right h3
      exact str_inj f g h4
    simp [hfg, h1]

/-- Multiplicity of a generated name among definition-table entries. -/
def nameCount (defs : List (String × String)) (f : String) : Nat :=
  ((defs.map Prod.snd).filter (fun g => g == f)).length

theorem nameCount_cons (r fn : String) (rest : List (String × String))
    (f : String) :
    nameCount ((r, fn) :: rest) f =
      (if (fn == f) = true then 1 else 0) + nameCount rest f := by
  simp only [nameCount, List.map_cons, List.filter]
  cases hfg : (fn == f) <;> simp [List.length_cons] <;> omega

theorem nameCount_append (a b : List (String × String)) (f : String) :
    nameCount (a ++ b) f = nameCount a f + nameCount b f := by
  simp [nameCount, List.filter_append]

theorem headerEvCount_nil (f : String) : headerEvCount [] f = 0 := rfl

theorem headerEvCount_cons (i : Int) (t : List Char)
    (rest : List (Int × List Char)) (f : String) :
    headerEvCount ((i, t) :: rest) f =
      (if (t == mkHeader f) = true then 1 else 0) + headerEvCount rest f := by
  simp only [headerEvCount, List.filter]
  cases hfg : (t == mkHeader f) <;> simp [List.length_cons] <;> omega

theorem headerEvCount_append (a b : List (Int × List Char)) (f : String) :
    headerEvCount (a ++ b) f = headerEvCount a f + headerEvCount b f := by
  simp [headerEvCount, List.filter_append]

/-- A batch with no header text counts zero for every name. -/
theorem headerEvCount_zero (ad : List (Int × List Char))
    (h : addedOk ad) (f : String) : headerEvCount ad f = 0 := by
  induction ad with
  | nil => rfl
  | cons ev rest ih =>
    rcases ev with ⟨i, t⟩
    rw [headerEvCount_cons]
    have ht : (t == mkHeader f) = false :=
      beq_eq_false_iff_ne.mpr (h (i, t) (by simp) f)
    rw [ht]
    simp only [Bool.false_eq_true, if_false]
    have h2 := ih (fun ev hev g => h ev (by simp [hev]) g)
    omega

/-- Does a call tag belong to the definition pass? -/
def pdFam : VC → Bool
  | .pdefs _ => true
  | .pdList _ _ => true
  | _ => false

set_option maxHeartbeats 1600000 in
/-- The definition pass: every successful step appends its new
reference bindings to the table and extends the implementation sink so
that, for each generated name, the number of emitted
definition-function headers equals the number of new table entries
bearing it. -/
theorem step_pdOut (root : YNode) :
    ∀ fuel vc st e st2 early, pdFam vc = true →
    step root fuel vc st = some (e, st2, early) →
    ∃ newdefs added, st2.defs = st.defs ++ newdefs ∧
      st2.src = st.src ++ added ∧
      ∀ f, headerEvCount added f = nameCount newdefs f := by
  intro fuel
  induction fuel with
  | zero =>
    intro vc st e st2 early _ h
    exact absurd h (by simp [step])
  | succ f ih =>
    intro vc st e st2 early hfam h
    rw [step.eq_def] at h
    cases vc with
    | vn value var => exact Bool.noConfusion hfam
    | vnRest value var types zret => exact Bool.noConfusion hfam
    | pObj node var ts => exact Bool.noConfusion hfam
    | pArr node var ts => exact Bool.noConfusion hfam
    | pAny node var => exact Bool.noConfusion hfam
    | pOne node var => exact Bool.noConfusion hfam
    | objProps nvar var pairs => exact Bool.noConfusion hfam
    | anyLoop ss anyLine zret => exact Bool.noConfusion hfam
    | oneLoop ss => exact Bool.noConfusion hfam
    | tupFlat ss nvar zret => exact Bool.noConfusion hfam
    | tupLoop ss idx nvar var itemsLine zret => exact Bool.noConfusion hfam
    | pdefs n =>
      dsimp only at h
      cases n with
      | ymap pairs nl =>
        dsimp only at h
        rcases hrf : ylookup pairs "$ref" with _ | refNode
        · rw [hrf] at h
          dsimp only at h
          exact ih _ _ _ _ _ (by exact rfl) h
        · rw [hrf] at h
          dsimp only at h
          rcases hlk : st.defs.lookup refNode.scalarStr with _ | f0
          · rw [hlk] at h
            dsimp only at h
            rcases hloc : locate root (str refNode.scalarStr) with ⟨locErr, locRes⟩
            rw [hloc] at h
            dsimp only at h
            cases locRes with
            | none =>
              dsimp only at h
              injection h with h1
              simp only [Prod.mk.injEq] at h1
              obtain ⟨-, hst, -⟩ := h1
              rw [← hst]
              exact ⟨[], [], by simp, by simp, fun g => rfl⟩
            | some target =>
              dsimp only at h
              split at h
              · exact Option.noConfusion h
              · rename_i e1 stA b1 heq1
                obtain ⟨nd1, ad1, hdefs1, hsrc1, hcnt1⟩ :=
                  ih _ _ _ _ _ (by exact rfl) heq1
                split at h
                · exact Option.noConfusion h
                · rename_i e2 stB b2 heq2
                  obtain ⟨hd2, ad2, hsrc2, hok2⟩ :=
                    step_vnOut root f (.vn target "node") _ _ _ _ rfl heq2
                  have hd2' : stB.defs = stA.defs := hd2
                  have hdefs1' : stA.defs = (st.defs ++
                      [(refNode.scalarStr, sanitize refNode.scalarStr)]) ++ nd1 :=
                    hdefs1
                  have hsrc2' : stB.src = (stA.src ++
                      [(stA.srcInd, mkHeader (sanitize refNode.scalarStr))]) ++ ad2 :=
                    hsrc2
                  have hsrc1' : stA.src = st.src ++ ad1 := hsrc1
                  injection h with h1
                  simp only [Prod.mk.injEq] at h1
                  obtain ⟨-, hst, -⟩ := h1
                  rw [← hst]
                  refine ⟨(refNode.scalarStr, sanitize refNode.scalarStr) :: nd1,
                    ad1 ++ (stA.srcInd, mkHeader (sanitize refNode.scalarStr)) ::
                      (ad2 ++ [(stB.srcInd, str "return true;\n"),
                        (stB.srcInd - 1, str "\x7d\n\n")]), ?_, ?_, ?_⟩
                  · show stB.defs = st.defs ++
                      ((refNode.scalarStr, sanitize refNode.scalarStr) :: nd1)
                    rw [hd2', hdefs1']
                    simp [List.append_assoc]
                  · show (stB.src ++ [(stB.srcInd, str "return true;\n")]) ++
                      [(stB.srcInd - 1, str "\x7d\n\n")] = st.src ++ _
                    rw [hsrc2', hsrc1']
                    simp [List.append_assoc]
                  · intro g
                    rw [headerEvCount_append, headerEvCount_cons,
                      headerEvCount_append, headerEvCount_cons,
                      headerEvCount_cons, headerEvCount_nil]
                    rw [hcnt1 g, headerEvCount_zero ad2 hok2 g, mkHeader_beq]
                    rw [nameCount_cons]
                    have hr : (str "return true;\n" == mkHeader g) = false :=
                      beq_eq_false_iff_ne.mpr (nhHead 'r' _ (by decide) g)
                    have hc : (str "\x7d\n\n" == mkHeader g) = false :=
                      beq_eq_false_iff_ne.mpr (nhHead '\x7d' _ (by decide) g)
                    rw [hr, hc]
                    cases hfg : (sanitize refNode.scalarStr == g) <;>
                      simp [hfg] <;> omega
          · rw [hlk] at h
            dsimp only at h
            injection h with h1
            simp only [Prod.mk.injEq] at h1
            obtain ⟨-, hst, -⟩ := h1
            rw [← hst]
            exact ⟨[], [], by simp, by simp, fun g => rfl⟩
      | yseq items nl =>
        dsimp only at h
        exact ih _ _ _ _ _ (by exact rfl) h
      | ynull nl =>
        dsimp only at h
        injection h with h1
        simp only [Prod.mk.injEq] at h1
        obtain ⟨-, hst, -⟩ := h1
        rw [← hst]
        exact ⟨[], [], by simp, by simp, fun g => rfl⟩
      | yscalar sc nl =>
        dsimp only at h
        injection h with h1
        simp only [Prod.mk.injEq] at h1
        obtain ⟨-, hst, -⟩ := h1
        rw [← hst]
        exact ⟨[], [], by simp, by simp, fun g => rfl⟩
    | pdList ns acc =>
      dsimp only at h
      cases ns with
      | nil =>
        dsimp only at h
        injection h with h1
        simp only [Prod.mk.injEq] at h1
        obtain ⟨-, hst, -⟩ := h1
        rw [← hst]
        exact ⟨[], [], by simp, by simp, fun g => rfl⟩
      | cons n rest =>
        dsimp only at h
        split at h
        · exact Option.noConfusion h
        · rename_i e1 stA b1 heq1
          obtain ⟨nd1, ad1, hdefs1, hsrc1, hcnt1⟩ :=
            ih _ _ _ _ _ (by exact rfl) heq1
          obtain ⟨nd2, ad2, hdefs2, hsrc2, hcnt2⟩ :=
            ih _ _ _ _ _ (by exact rfl) h
          refine ⟨nd1 ++ nd2, ad1 ++ ad2, ?_, ?_, ?_⟩
          · rw [hdefs2, hdefs1, List.append_assoc]
          · rw [hsrc2, hsrc1, List.append_assoc]
          · intro g
            rw [headerEvCount_append, nameCount_append, hcnt1, hcnt2]

/-- C1 counterexample: the references `#/definitions/A` and
`#/definitions.A` of `clashDoc` resolve to different nodes and form a
cycle; the pass terminates with no ERROR, records both references in
the table, but both sanitise to `v_definitions_A`, so TWO definition
functions bearing that one generated name are emitted — "exactly one
function definition bearing the generated name" fails. -/
theorem c1_name_collision :
    (match process_definitions clashDoc 600 clashDoc CtxSt.init with
     | some (e, st, _) =>
       some (exitCode e, st.defs.map Prod.snd,
             headerEvCount st.src "v_definitions_A")
     | none => none) =
      some (0, ["v_definitions_A", "v_definitions_A"], 2) := by
  decide

/-- C1 amended: (1) for every root, fuel and node, a successful
definition pass from the initial context emits, for every generated
name, exactly as many definition-function headers as there are table
entries bearing that name — one function per recorded binding, cycles
included; (2) for the A↔B cycle document the pass terminates with no
ERROR, records exactly the two references, and emits exactly one
header for each of the two generated names. -/
theorem c1_amended :
    (∀ root fuel n e st2 early,
      process_definitions root fuel n CtxSt.init = some (e, st2, early) →
      ∀ f, headerEvCount st2.src f = nameCount st2.defs f) ∧
    (match process_definitions abDoc 600 abDoc CtxSt.init with
     | some (e, st, _) =>
       some (exitCode e, st.defs,
             headerEvCount st.src "v_definitions_A",
             headerEvCount st.src "v_definitions_B")
     | none => none) =
      some (0, [("#/definitions/B", "v_definitions_B"),
                ("#/definitions/A", "v_definitions_A")], 1, 1) := by
  constructor
  · intro root fuel n e st2 early h
    obtain ⟨nd, ad, hdefs, hsrc, hcnt⟩ :=
      step_pdOut root fuel (.pdefs n) CtxSt.init e st2 early rfl h
    intro g
    have h1 : st2.src = ad := by simpa [CtxSt.init] using hsrc
    have h2 : st2.defs = nd := by simpa [CtxSt.init] using hdefs
    rw [h1, h2]
    exact hcnt g
  · decide

/-- Witness for C1: the general count equation of `c1_amended`
instantiated at the cycle document. -/
theorem c1_amended_witness :
    ∃ e st2 early,
      process_definitions abDoc 600 abDoc CtxSt.init =
        some (e, st2, early) ∧
      headerEvCount st2.src "v_definitions_A" =
        nameCount st2.defs "v_definitions_A" := by
  obtain ⟨e0, st0, b0, heq⟩ :
      ∃ e st2 early, process_definitions abDoc 600 abDoc CtxSt.init =
        some (e, st2, early) := ⟨_, _, _, rfl⟩
  exact ⟨e0, st0, b0, heq,
    c1_amended.1 abDoc 600 abDoc e0 st0 b0 heq "v_definitions_A"⟩

end CannedYaml
